import Mathlib

/-!
# Verification of the zerocopify schema transform and message envelope

This file gives a shallow embedding of the core of the repository:

* the AST transformation in `build.rs` (module `zerocopify`): the field
  classifier `transform_field`, the two visitor passes
  (`SerdeBorrowTransformer` and `LifetimeUsageTransformer`) and the fixpoint
  driver `transform_ast`;
* the dual message envelope of `src/schema.rs` (`Message` and
  `zerocopy::Message`) as decoders over a JSON value model;
* the `get_type_string` / `schema_gen` helpers of `tool-macros/src/lib.rs`.

Rust syn types are modelled by a small type grammar covering the nodes the
transform inspects (paths with generic arguments, and references).  The
grouped, tuple and array cases of the source are omitted: the modelled
grammar has no such nodes.  Machine strings are Lean `String`s; lifetimes
are tracked by name (the source only ever introduces the lifetime named a).
-/

set_option maxHeartbeats 1000000

/-! ## The type grammar (model of the syn `Type` subset used by build.rs) -/

mutual

/-- Model of `syn::Type` restricted to the node kinds the transform
inspects: type paths and references. -/
inductive Ty where
  | path (segs : List Seg)
  | ref (hasLt : Bool) (elem : Ty)

/-- A path segment: identifier plus path arguments. -/
inductive Seg where
  | mk (ident : String) (args : PArgs)

/-- Model of `syn::PathArguments`. -/
inductive PArgs where
  | noArgs
  | angle (args : List GArg)
  | paren

/-- Model of `syn::GenericArgument`: a lifetime or a type. -/
inductive GArg where
  | lt
  | ty (t : Ty)

end

def Seg.ident : Seg → String
  | .mk i _ => i

def Seg.args : Seg → PArgs
  | .mk _ a => a

/-! ### `type_contains_lifetime` -/

mutual

/-- `type_contains_lifetime` from build.rs: true if the type (or any nested
type) contains a lifetime. -/
def type_contains_lifetime : Ty → Bool
  | .path segs => segsContainLifetime segs
  | .ref l e => l || type_contains_lifetime e

def segsContainLifetime : List Seg → Bool
  | [] => false
  | s :: r => segContainsLifetime s || segsContainLifetime r

def segContainsLifetime : Seg → Bool
  | .mk _ a => pargsContainLifetime a

def pargsContainLifetime : PArgs → Bool
  | .noArgs => false
  | .paren => false
  | .angle as => gargsContainLifetime as

def gargsContainLifetime : List GArg → Bool
  | [] => false
  | a :: r => gargContainsLifetime a || gargsContainLifetime r

def gargContainsLifetime : GArg → Bool
  | .lt => true
  | .ty t => type_contains_lifetime t

end

/-! ### `type_uses_changed_type` -/

mutual

/-- `type_uses_changed_type` from build.rs: true if `ty` mentions any name
in `changed` as a path segment identifier, recursing through references and
angle-bracketed generic arguments. -/
def type_uses_changed_type (changed : List String) : Ty → Bool
  | .path segs => segsUseChangedType changed segs
  | .ref _ e => type_uses_changed_type changed e

def segsUseChangedType (changed : List String) : List Seg → Bool
  | [] => false
  | s :: r => segUsesChangedType changed s || segsUseChangedType changed r

def segUsesChangedType (changed : List String) : Seg → Bool
  | .mk i a => changed.contains i || pargsUseChangedType changed a

def pargsUseChangedType (changed : List String) : PArgs → Bool
  | .noArgs => false
  | .paren => false
  | .angle as => gargsUseChangedType changed as

def gargsUseChangedType (changed : List String) : List GArg → Bool
  | [] => false
  | a :: r => gargUsesChangedType changed a || gargsUseChangedType changed r

def gargUsesChangedType (changed : List String) : GArg → Bool
  | .lt => false
  | .ty t => type_uses_changed_type changed t

end

/-! ### Simple classifiers -/

/-- `is_reference_type` from build.rs. -/
def is_reference_type : Ty → Bool
  | .ref _ _ => true
  | _ => false

/-- `is_string_type` from build.rs: the last path segment is `String`. -/
def is_string_type (segs : List Seg) : Bool :=
  match segs.getLast? with
  | some s => s.ident == "String"
  | none => false

/-- The borrowed text view type the transform substitutes for `String`. -/
def refStr : Ty := .ref true (.path [.mk "str" .noArgs])

/-! ## Attributes, fields and items -/

/-- Bool-valued infix test on character lists (model of `str::contains`). -/
def charsContain (pat : List Char) : List Char → Bool
  | [] => pat.isEmpty
  | c :: r => pat.isPrefixOf (c :: r) || charsContain pat r

/-- Model of `String::contains` for a literal pattern. -/
def strContains (s pat : String) : Bool :=
  charsContain pat.toList s.toList

/-- Model of a Rust attribute as the transform distinguishes them: the
`#[serde(borrow)]` attribute it pushes, a derive list (recording the last
path segment of every derived trait), and any other attribute kept as its
rendered text. -/
inductive Attr where
  | serdeBorrow
  | derive (idents : List String)
  | other (txt : String)
  deriving DecidableEq

/-- Rendered text of an attribute, used for the substring test that
`transform_field` performs (`quote!(#attr).to_string().contains("borrow")`). -/
def Attr.render : Attr → String
  | .serdeBorrow => "#[serde(borrow)]"
  | .derive ids => "#[derive(" ++ String.intercalate ", " ids ++ ")]"
  | .other txt => txt

/-- The `already_has_borrow` test of `transform_field`: some attribute whose
rendered text contains the substring `borrow`. -/
def attrsHaveBorrow (attrs : List Attr) : Bool :=
  attrs.any (fun a => strContains a.render "borrow")

/-- `derives_deserialize` from build.rs: some `derive` attribute whose metas
include one whose last path segment is `Deserialize`. -/
def derives_deserialize (attrs : List Attr) : Bool :=
  attrs.any (fun a =>
    match a with
    | .derive ids => ids.any (· == "Deserialize")
    | _ => false)

/-- A struct or enum field: its attributes and its type.  Field names play
no role in the transform and are omitted. -/
structure FieldDef where
  attrs : List Attr
  ty : Ty

/-- The three field layouts of `syn::Fields`.  The transform treats named
and unnamed fields identically but the source distinguishes the cases. -/
inductive SFields where
  | named (fs : List FieldDef)
  | unnamed (fs : List FieldDef)
  | unit

/-- An enum variant (its payload fields; the discriminant name plays no
role in the transform). -/
structure Variant where
  fields : SFields

/-- A generic parameter: a lifetime parameter with its name, or any other
(type or const) parameter. -/
inductive GenParam where
  | life (name : String)
  | typev (name : String)
  deriving DecidableEq

/-- `item.generics.lifetimes().any(|lt| lt.lifetime == lifetime_a)`. -/
def hasLifeA (gs : List GenParam) : Bool :=
  gs.any (fun g => g == .life "a")

/-- `item.generics.lifetimes().next().is_some()`. -/
def hasAnyLife (gs : List GenParam) : Bool :=
  gs.any (fun g => match g with | .life _ => true | .typev _ => false)

/-- Inserting the lifetime parameter a at position 0 of the generics. -/
def addLifeA (gs : List GenParam) : List GenParam :=
  .life "a" :: gs

/-- Model of `syn::ItemStruct` (the parts the transform reads). -/
structure StructData where
  ident : String
  attrs : List Attr
  generics : List GenParam
  fields : SFields

/-- Model of `syn::ItemEnum` (the parts the transform reads). -/
structure EnumData where
  ident : String
  attrs : List Attr
  generics : List GenParam
  variants : List Variant

/-- A top-level item.  The generated file consists of structs and enums
(plus impls and type aliases, which define no type names and are not
modelled). -/
inductive Item where
  | istruct (s : StructData)
  | ienum (e : EnumData)

def Item.ident : Item → String
  | .istruct s => s.ident
  | .ienum e => e.ident

def Item.generics : Item → List GenParam
  | .istruct s => s.generics
  | .ienum e => e.generics

def SFields.list : SFields → List FieldDef
  | .named fs => fs
  | .unnamed fs => fs
  | .unit => []

/-- All payload fields of an item, in declaration order. -/
def Item.fieldList : Item → List FieldDef
  | .istruct s => s.fields.list
  | .ienum e => (e.variants.map (fun v => v.fields.list)).flatten

/-! ## `transform_field` -/

/-- Rewrite of the angle-bracketed argument list of the last path segment:
every generic argument that is itself a bare `String` type path becomes the
borrowed view type. -/
def innerArgsRewrite : List GArg → List GArg × Bool
  | [] => ([], false)
  | .ty (.path ss) :: r =>
      let (r', m) := innerArgsRewrite r
      if is_string_type ss then (.ty refStr :: r', true) else (.ty (.path ss) :: r', m)
  | a :: r =>
      let (r', m) := innerArgsRewrite r
      (a :: r', m)

/-- Apply `innerArgsRewrite` to the last segment of a path, when that
segment has angle-bracketed arguments. -/
def innerRewriteLast : List Seg → List Seg × Bool
  | [] => ([], false)
  | [.mk i a] =>
      match a with
      | .angle as =>
          let (as', m) := innerArgsRewrite as
          ([.mk i (.angle as')], m)
      | _ => ([.mk i a], false)
  | s :: r =>
      let (r', m) := innerRewriteLast r
      (s :: r', m)

/-- The attribute step at the end of `transform_field`: when the (possibly
rewritten) field type is not a reference but contains a lifetime, ensure a
`#[serde(borrow)]` attribute, reporting a modification when one is pushed. -/
def borrowAttrStep (f : FieldDef) (m : Bool) : FieldDef × Bool :=
  if ¬ is_reference_type f.ty ∧ type_contains_lifetime f.ty then
    if attrsHaveBorrow f.attrs then (f, m)
    else ({ f with attrs := f.attrs ++ [.serdeBorrow] }, true)
  else (f, m)

/-- `transform_field` from build.rs.  Returns the rewritten field and the
flag the source returns (whether the field was modified). -/
def transform_field (f : FieldDef) : FieldDef × Bool :=
  match f.ty with
  | .path segs =>
      if is_string_type segs then
        borrowAttrStep { f with ty := refStr } true
      else
        match segs.getLast? with
        | some s =>
            if s.ident == "Map" then (f, false)
            else
              let (segs', m) := innerRewriteLast segs
              borrowAttrStep { f with ty := .path segs' } m
        | none => borrowAttrStep f false
  | .ref _ _ => borrowAttrStep f false

/-! ## The type-path visitor (`visit_type_path_mut` of both transformers)

Both `SerdeBorrowTransformer::visit_type_path_mut` and
`LifetimeUsageTransformer::visit_type_path_mut` run the same logic: when
the last segment of a visited path names a type in the given set and that
segment has no generic arguments (or an empty angle-bracketed list), the
lifetime argument is supplied.  The visitor then recurses into nested
types.  The source performs the fill before recursing; the orders agree
because the fill only touches empty argument lists, which the recursion
leaves untouched, so the recursion is modelled first. -/

/-- The node-level rewrite of `visit_type_path_mut`, applied to the last
segment of a path. -/
def nodeFill (set : List String) : List Seg → List Seg × Bool
  | [] => ([], false)
  | [.mk i a] =>
      if set.contains i then
        match a with
        | .noArgs => ([.mk i (.angle [.lt])], true)
        | .angle [] => ([.mk i (.angle [.lt])], true)
        | .angle (x :: r) => ([.mk i (.angle (x :: r))], false)
        | .paren => ([.mk i .paren], false)
      else ([.mk i a], false)
  | s :: r :: t =>
      let (r', m) := nodeFill set (r :: t)
      (s :: r', m)

mutual

/-- Recursive application of `visit_type_path_mut` over a type: every path
node whose last segment names a member of `set` without arguments gains the
lifetime argument. -/
def rewriteTy (set : List String) : Ty → Ty × Bool
  | .ref l e =>
      let (e', m) := rewriteTy set e
      (.ref l e', m)
  | .path segs =>
      let (segs1, m1) := rewriteSegs set segs
      let (segs2, m2) := nodeFill set segs1
      (.path segs2, m1 || m2)

def rewriteSegs (set : List String) : List Seg → List Seg × Bool
  | [] => ([], false)
  | s :: r =>
      let (s', m) := rewriteSeg set s
      let (r', m') := rewriteSegs set r
      (s' :: r', m || m')

def rewriteSeg (set : List String) : Seg → Seg × Bool
  | .mk i a =>
      let (a', m) := rewritePArgs set a
      (.mk i a', m)

def rewritePArgs (set : List String) : PArgs → PArgs × Bool
  | .noArgs => (.noArgs, false)
  | .paren => (.paren, false)
  | .angle as =>
      let (as', m) := rewriteGArgs set as
      (.angle as', m)

def rewriteGArgs (set : List String) : List GArg → List GArg × Bool
  | [] => ([], false)
  | a :: r =>
      let (a', m) := rewriteGArg set a
      let (r', m') := rewriteGArgs set r
      (a' :: r', m || m')

def rewriteGArg (set : List String) : GArg → GArg × Bool
  | .lt => (.lt, false)
  | .ty t =>
      let (t', m) := rewriteTy set t
      (.ty t', m)

end

/-- Apply the type-path visitor to a field type. -/
def rewriteField (set : List String) (f : FieldDef) : FieldDef × Bool :=
  let (t, m) := rewriteTy set f.ty
  ({ f with ty := t }, m)

/-! ## Phase one: `SerdeBorrowTransformer` -/

/-- One field step of `visit_item_struct_mut`: run `transform_field`, and
record a change also when the (rewritten) field type uses a type already in
the changed set. -/
def tfStep (ch : List String) (f : FieldDef) : FieldDef × Bool :=
  let (f', m) := transform_field f
  (f', m || type_uses_changed_type ch f'.ty)

/-- One field step of `visit_item_enum_mut`: run `transform_field`, and
record a lifetime requirement also when the (rewritten) field type is not a
reference yet contains a lifetime. -/
def enumFieldStep (f : FieldDef) : FieldDef × Bool :=
  let (f', m) := transform_field f
  (f', m || (!(is_reference_type f'.ty) && type_contains_lifetime f'.ty))

/-- Map a field transformation over a list, collecting an or-flag. -/
def listMapFlag {α : Type} (g : α → α × Bool) : List α → List α × Bool
  | [] => ([], false)
  | x :: r =>
      let (x', m) := g x
      let (r', m') := listMapFlag g r
      (x' :: r', m || m')

def SFields.mapFlag (g : FieldDef → FieldDef × Bool) : SFields → SFields × Bool
  | .named fs =>
      let (fs', m) := listMapFlag g fs
      (.named fs', m)
  | .unnamed fs =>
      let (fs', m) := listMapFlag g fs
      (.unnamed fs', m)
  | .unit => (.unit, false)

def variantsMapFlag (g : FieldDef → FieldDef × Bool) : List Variant → List Variant × Bool
  | [] => ([], false)
  | v :: r =>
      let (fs', m) := v.fields.mapFlag g
      let (r', m') := variantsMapFlag g r
      (⟨fs'⟩ :: r', m || m')

/-- `visit_item_struct_mut` of `SerdeBorrowTransformer`: classify and mark
the struct, then apply the type-path visitor to its fields (the default
recursion at the end of the source method).  Returns the new item, the new
changed set, and the modification flag of the transformer (which the source
sets only for lifetime-parameter additions and type-path fills, not for
`transform_field` rewrites). -/
def processStruct (ign ch : List String) (sd : StructData) :
    StructData × List String × Bool :=
  if ¬ ign.contains sd.ident ∧ derives_deserialize sd.attrs then
    let (fields1, changedAny) := sd.fields.mapFlag (tfStep ch)
    let gens := if changedAny ∧ ¬ hasLifeA sd.generics then addLifeA sd.generics else sd.generics
    let addFlag := changedAny ∧ ¬ hasLifeA sd.generics
    let ch' := if changedAny then sd.ident :: ch else ch
    let (fields2, m2) := fields1.mapFlag (rewriteField ch')
    ({ sd with generics := gens, fields := fields2 }, ch', addFlag || m2)
  else
    let (fields2, m2) := sd.fields.mapFlag (rewriteField ch)
    ({ sd with fields := fields2 }, ch, m2)

/-- `visit_item_enum_mut` of `SerdeBorrowTransformer`. -/
def processEnum (ign ch : List String) (ed : EnumData) :
    EnumData × List String × Bool :=
  if ¬ derives_deserialize ed.attrs ∨ ign.contains ed.ident then
    let (vs, m) := variantsMapFlag (rewriteField ch) ed.variants
    ({ ed with variants := vs }, ch, m)
  else
    let (vs1, req) := variantsMapFlag enumFieldStep ed.variants
    let gens := if req ∧ ¬ hasAnyLife ed.generics then addLifeA ed.generics else ed.generics
    let addFlag := req ∧ ¬ hasAnyLife ed.generics
    let ch' := if req then ed.ident :: ch else ch
    let (vs2, m2) := variantsMapFlag (rewriteField ch') vs1
    ({ ed with generics := gens, variants := vs2 }, ch', addFlag || m2)

def processItem (ign ch : List String) : Item → Item × List String × Bool
  | .istruct sd =>
      let (sd', ch', m) := processStruct ign ch sd
      (.istruct sd', ch', m)
  | .ienum ed =>
      let (ed', ch', m) := processEnum ign ch ed
      (.ienum ed', ch', m)

/-- The phase-one traversal of `visit_file_mut`: items in order, threading
the changed set. -/
def phase1 (ign : List String) : List Item → List String → List Item × List String × Bool
  | [], ch => ([], ch, false)
  | it :: rest, ch =>
      let (it', ch', m) := processItem ign ch it
      let (rest', ch'', m') := phase1 ign rest ch'
      (it' :: rest', ch'', m || m')

/-! ## Phase two: `collect_lifetime_types` and `LifetimeUsageTransformer` -/

/-- `collect_lifetime_types` from build.rs: names of all structs and enums
that have at least one lifetime parameter. -/
def collect_lifetime_types (items : List Item) : List String :=
  items.filterMap (fun it => if hasAnyLife it.generics then some it.ident else none)

/-- Apply the type-path visitor to every field of an item (the
`LifetimeUsageTransformer` traversal restricted to one item). -/
def Item.rewriteAll (set : List String) : Item → Item × Bool
  | .istruct sd =>
      let (fs, m) := sd.fields.mapFlag (rewriteField set)
      (.istruct { sd with fields := fs }, m)
  | .ienum ed =>
      let (vs, m) := variantsMapFlag (rewriteField set) ed.variants
      (.ienum { ed with variants := vs }, m)

/-- The `LifetimeUsageTransformer` pass over the whole file. -/
def lusagePass (set : List String) : List Item → List Item × Bool
  | [] => ([], false)
  | it :: rest =>
      let (it', m) := it.rewriteAll set
      let (rest', m') := lusagePass set rest
      (it' :: rest', m || m')

/-! ## The fixpoint driver `transform_ast` -/

/-- One iteration of the `transform_ast` loop: phase one (definition
upgrade) followed by phase two (usage-site completion).  Returns the new
file and whether either transformer reported a modification. -/
def passOnce (ign : List String) (items : List Item) : List Item × Bool :=
  let (its1, _, m1) := phase1 ign items []
  let set := collect_lifetime_types its1
  let (its2, m2) := lusagePass set its1
  (its2, m1 || m2)

/-- Iterating the loop body a fixed number of times. -/
def iterPass (ign : List String) : Nat → List Item → List Item
  | 0, a => a
  | k + 1, a => iterPass ign k (passOnce ign a).1

/-! ## A termination measure for the loop

Each modifying iteration of the loop performs at least one of: inserting a
lifetime parameter into an item that lacked it, or filling the empty
argument list of a path node naming a lifetime type.  `transform_field`
rewrites never increase the measure.  The measure counts, over the file:
items still missing the relevant lifetime parameter, path nodes with an
empty argument position, and path nodes whose last segment is `String`. -/

/-- A path whose last segment would accept the lifetime fill. -/
def isBareSegs (segs : List Seg) : Bool :=
  match segs.getLast? with
  | some (.mk _ .noArgs) => true
  | some (.mk _ (.angle [])) => true
  | _ => false

mutual

/-- Number of fillable path nodes plus `String`-named path nodes in a type. -/
def tyMeasure : Ty → Nat
  | .path segs =>
      (if isBareSegs segs then 1 else 0) + (if is_string_type segs then 1 else 0) +
        segsMeasure segs
  | .ref _ e => tyMeasure e

def segsMeasure : List Seg → Nat
  | [] => 0
  | s :: r => segMeasure s + segsMeasure r

def segMeasure : Seg → Nat
  | .mk _ a => pargsMeasure a

def pargsMeasure : PArgs → Nat
  | .noArgs => 0
  | .paren => 0
  | .angle as => gargsMeasure as

def gargsMeasure : List GArg → Nat
  | [] => 0
  | a :: r => gargMeasure a + gargsMeasure r

def gargMeasure : GArg → Nat
  | .lt => 0
  | .ty t => tyMeasure t

end

/-- Whether the item already carries the lifetime parameter the transform
would give it (the lifetime a for structs, any lifetime for enums). -/
def Item.hasParam : Item → Bool
  | .istruct sd => hasLifeA sd.generics
  | .ienum ed => hasAnyLife ed.generics

def fieldsMeasure (fs : List FieldDef) : Nat :=
  (fs.map (fun f => tyMeasure f.ty)).sum

def itemMeasure (it : Item) : Nat :=
  (if it.hasParam then 0 else 1) + fieldsMeasure it.fieldList

/-- The loop measure of a file. -/
def fileMeasure (items : List Item) : Nat :=
  (items.map itemMeasure).sum

/-- `transform_ast` realized with explicit fuel; the loop body runs until a
pass reports no modification.  The theorem on the measure shows the fuel
`fileMeasure items + 1` always suffices to reach that pass. -/
def transformAstFuel (ign : List String) : Nat → List Item → List Item
  | 0, a => a
  | k + 1, a =>
      let (a', m) := passOnce ign a
      if m then transformAstFuel ign k a' else a'

/-- `transform_ast` from build.rs. -/
def transform_ast (ign : List String) (items : List Item) : List Item :=
  transformAstFuel ign (fileMeasure items + 1) items

/-! ## JSON values with borrowed text, and the message envelope

`src/schema.rs` defines the message envelope twice: `Message` (owned: text
fields are `String`) and `zerocopy::Message` (view: text fields borrow from
the input buffer).  Decoding is modelled over a JSON value type produced by
an external parser; a text scalar is represented by its byte span in the
backing buffer, so the owned decoder copies the content out of the buffer
while the view decoder keeps the span. -/

/-- A byte range of the backing buffer. -/
structure Span where
  start : Nat
  len : Nat
  deriving DecidableEq

/-- The text content a span denotes. -/
def Span.content (buf : List Char) (sp : Span) : List Char :=
  (buf.drop sp.start).take sp.len

/-- A parsed JSON value whose text scalars are spans of the buffer. -/
inductive Json where
  | jstr (sp : Span)
  | jnum (n : Int)
  | jbool (b : Bool)
  | jnull
  | jarr (elems : List Json)
  | jobj (fields : List (String × Json))

def Json.asStr : Json → Option Span
  | .jstr sp => some sp
  | _ => none

/-- First-match key lookup in a JSON object. -/
def jlookup (k : String) : List (String × Json) → Option Json
  | [] => none
  | (k', v) :: r => if k' == k then some v else jlookup k r

/-- The fields a `#[serde(flatten)]` payload receives: everything the outer
struct did not consume. -/
def removeKeys (ks : List String) (fs : List (String × Json)) : List (String × Json) :=
  fs.filter (fun p => !(ks.contains p.1))

/-- Modelled from the spec: the generated `RequestId` type is produced by
the schema compiler from the protocol schema (it is not under src); it is
in the exclusion list of `transform_ast`, so both the owned and the view
envelope use the same owned string-or-integer JSON-RPC id. -/
inductive RequestId where
  | rstr (s : List Char)
  | rnum (n : Int)
  deriving DecidableEq

/-- Untagged decoding of a JSON-RPC id: a string or an integer. -/
def decodeRequestId (buf : List Char) : Json → Option RequestId
  | .jstr sp => some (.rstr (sp.content buf))
  | .jnum n => some (.rnum n)
  | _ => none

/-- The owned envelope `schema::Message<RQ, RS, N>` (declaration order of
the serde(untagged) variants: Request, Notification, Error, Response). -/
inductive MessageO (α β γ ε : Type) where
  | request (jsonrpc : List Char) (id : RequestId) (rq : α)
  | notification (jsonrpc : List Char) (nt : γ)
  | error (e : ε)
  | response (jsonrpc : List Char) (id : RequestId) (rs : β)
  deriving DecidableEq

/-- The view envelope `schema::zerocopy::Message<RQ, RS, N>`: the jsonrpc
text field borrows from the buffer. -/
inductive MessageV (α β γ ε : Type) where
  | request (jsonrpc : Span) (id : RequestId) (rq : α)
  | notification (jsonrpc : Span) (nt : γ)
  | error (e : ε)
  | response (jsonrpc : Span) (id : RequestId) (rs : β)
  deriving DecidableEq

/-- The Request variant of the owned envelope: `jsonrpc`, `id`, and a
flattened request payload receiving the remaining fields. -/
def requestBranchO {α β γ ε : Type} (buf : List Char) (dRQ : Json → Option α) :
    Json → Option (MessageO α β γ ε)
  | .jobj fs => do
      let sp ← (← jlookup "jsonrpc" fs).asStr
      let id ← decodeRequestId buf (← jlookup "id" fs)
      let rq ← dRQ (.jobj (removeKeys ["jsonrpc", "id"] fs))
      pure (.request (sp.content buf) id rq)
  | _ => none

/-- The Notification variant of the owned envelope. -/
def notificationBranchO {α β γ ε : Type} (buf : List Char) (dN : Json → Option γ) :
    Json → Option (MessageO α β γ ε)
  | .jobj fs => do
      let sp ← (← jlookup "jsonrpc" fs).asStr
      let nt ← dN (.jobj (removeKeys ["jsonrpc"] fs))
      pure (.notification (sp.content buf) nt)
  | _ => none

/-- The Error variant of the owned envelope: a newtype around the generated
`JsonrpcError` payload, abstracted as a decoder. -/
def errorBranchO {α β γ ε : Type} (dErr : Json → Option ε) (j : Json) :
    Option (MessageO α β γ ε) :=
  (dErr j).map .error

/-- The Response variant of the owned envelope: `jsonrpc`, `id`, `result`
(a plain field, not flattened; unknown keys are ignored). -/
def responseBranchO {α β γ ε : Type} (buf : List Char) (dRS : Json → Option β) :
    Json → Option (MessageO α β γ ε)
  | .jobj fs => do
      let sp ← (← jlookup "jsonrpc" fs).asStr
      let id ← decodeRequestId buf (← jlookup "id" fs)
      let rs ← dRS (← jlookup "result" fs)
      pure (.response (sp.content buf) id rs)
  | _ => none

/-- serde(untagged) decoding of the owned envelope: the variants are tried
in declaration order and the first success wins. -/
def decodeMessageO {α β γ ε : Type} (buf : List Char) (dRQ : Json → Option α)
    (dRS : Json → Option β) (dN : Json → Option γ) (dErr : Json → Option ε)
    (j : Json) : Option (MessageO α β γ ε) :=
  requestBranchO buf dRQ j <|> notificationBranchO buf dN j <|>
    errorBranchO dErr j <|> responseBranchO buf dRS j

/-- The Request variant of the view envelope: the jsonrpc text keeps its
span. -/
def requestBranchV {α β γ ε : Type} (buf : List Char) (dRQ : Json → Option α) :
    Json → Option (MessageV α β γ ε)
  | .jobj fs => do
      let sp ← (← jlookup "jsonrpc" fs).asStr
      let id ← decodeRequestId buf (← jlookup "id" fs)
      let rq ← dRQ (.jobj (removeKeys ["jsonrpc", "id"] fs))
      pure (.request sp id rq)
  | _ => none

/-- The Notification variant of the view envelope. -/
def notificationBranchV {α β γ ε : Type} (dN : Json → Option γ) :
    Json → Option (MessageV α β γ ε)
  | .jobj fs => do
      let sp ← (← jlookup "jsonrpc" fs).asStr
      let nt ← dN (.jobj (removeKeys ["jsonrpc"] fs))
      pure (.notification sp nt)
  | _ => none

/-- The Error variant of the view envelope. -/
def errorBranchV {α β γ ε : Type} (dErr : Json → Option ε) (j : Json) :
    Option (MessageV α β γ ε) :=
  (dErr j).map .error

/-- The Response variant of the view envelope. -/
def responseBranchV {α β γ ε : Type} (buf : List Char) (dRS : Json → Option β) :
    Json → Option (MessageV α β γ ε)
  | .jobj fs => do
      let sp ← (← jlookup "jsonrpc" fs).asStr
      let id ← decodeRequestId buf (← jlookup "id" fs)
      let rs ← dRS (← jlookup "result" fs)
      pure (.response sp id rs)
  | _ => none

/-- serde(untagged) decoding of the view envelope, same variant order. -/
def decodeMessageV {α β γ ε : Type} (buf : List Char) (dRQ : Json → Option α)
    (dRS : Json → Option β) (dN : Json → Option γ) (dErr : Json → Option ε)
    (j : Json) : Option (MessageV α β γ ε) :=
  requestBranchV buf dRQ j <|> notificationBranchV dN j <|>
    errorBranchV dErr j <|> responseBranchV buf dRS j

/-! ### The method-tagged payload enums

`ClientRequest`, `ClientNotification`, `ServerRequest` and
`ServerNotification` are serde enums with `tag = "method"` and
`content = "params"`: the method string selects the variant and the params
value is decoded by the per-variant payload type.  The per-variant payload
types are generated code; they enter as a dispatch table from method names
to payload decoders. -/

def findTag {δ : Type} (m : List Char) : List (String × δ) → Option δ
  | [] => none
  | (k, d) :: r => if k.toList == m then some d else findTag m r

/-- Adjacently tagged enum decoding (`tag = "method"`,
`content = "params"`). -/
def decodeTagged {π : Type} (buf : List Char)
    (table : List (String × (Json → Option π))) : Json → Option π
  | .jobj fs => do
      let sp ← (← jlookup "method" fs).asStr
      let d ← findTag (sp.content buf) table
      d (← jlookup "params" fs)
  | _ => none

/-- serde(untagged) enum decoding (`ClientResult`, `ServerResult`): the
alternatives are tried in declaration order. -/
def decodeUntagged {π : Type} : List (Json → Option π) → Json → Option π
  | [], _ => none
  | d :: r, j => d j <|> decodeUntagged r j

/-- Field-wise content extraction from a view envelope value to an owned
envelope value: every text span is replaced by the content it denotes, and
each payload is extracted by the supplied payload maps. -/
def mapMessage {α β γ ε α2 β2 γ2 ε2 : Type} (buf : List Char) (fα : α → α2)
    (fβ : β → β2) (fγ : γ → γ2) (fε : ε → ε2) :
    MessageV α β γ ε → MessageO α2 β2 γ2 ε2
  | .request sp id rq => .request (sp.content buf) id (fα rq)
  | .notification sp nt => .notification (sp.content buf) (fγ nt)
  | .error e => .error (fε e)
  | .response sp id rs => .response (sp.content buf) id (fβ rs)

/-! ## The `ToolQuery` derive macro (tool-macros/src/lib.rs) -/

/-- The numeric identifiers `get_type_string` maps to `number`. -/
def numericIdents : List String :=
  ["i8", "i16", "i32", "i64", "u8", "u16", "u32", "u64", "f32", "f64"]

mutual

/-- `get_type_string` from tool-macros/src/lib.rs: map a Rust type to a
JSON-Schema type string.  The source unwraps the last path segment; parsed
paths are never empty, and the empty case maps to `unknown`. -/
def get_type_string : Ty → String
  | .path segs => gtsSegs segs
  | .ref _ _ => "unknown"

def gtsSegs : List Seg → String
  | [] => "unknown"
  | [s] => gtsSeg s
  | _ :: r :: t => gtsSegs (r :: t)

def gtsSeg : Seg → String
  | .mk i a =>
      if i == "String" || i == "str" then "string"
      else if numericIdents.contains i then "number"
      else if i == "bool" then "boolean"
      else if i == "Vec" then "array"
      else if i == "Option" then gtsOption a
      else "object"

def gtsOption : PArgs → String
  | .angle (.ty t :: _) => get_type_string t
  | _ => "unknown"

end

/-- A named struct field as the `ToolQuery` macro reads it: name, type, and
the joined doc-comment text. -/
structure QueryFieldDef where
  name : String
  ty : Ty
  docs : String

/-- The entry `schema_gen` emits for one field: name, the emitted type
string, and the description. -/
def schemaEntry (f : QueryFieldDef) : String × String × String :=
  (f.name, get_type_string f.ty, f.docs)

/-- The map built by the generated `generate_schema` method, as an
association list in field order. -/
def generate_schema (fs : List QueryFieldDef) : List (String × String × String) :=
  fs.map schemaEntry

/-- An `Option`-wrapped type, as written in a field declaration. -/
def optionOf (t : Ty) : Ty :=
  .path [.mk "Option" (.angle [.ty t])]

/-! ## Statement helpers -/

/-- Eligibility of an item for the definition-upgrade classification: not in
the ignored list and deriving Deserialize. -/
def Item.eligible (ign : List String) : Item → Bool
  | .istruct sd => !(ign.contains sd.ident) && derives_deserialize sd.attrs
  | .ienum ed => derives_deserialize ed.attrs && !(ign.contains ed.ident)

/-- A bare text value: a path whose last segment is `String`. -/
def isBareString : Ty → Bool
  | .path segs => is_string_type segs
  | _ => false

/-- Whether some field of the item is a bare text value. -/
def Item.hasBareStringField (it : Item) : Bool :=
  it.fieldList.any (fun f => isBareString f.ty)

/-- The inner substitution of the one-level rule: a generic argument that is
a bare `String` type becomes the borrowed view type. -/
def substArg : GArg → GArg
  | .ty (.path ss) => if is_string_type ss then .ty refStr else .ty (.path ss)
  | a => a

/-- A generic argument that is directly a bare `String` type. -/
def isDirectString : GArg → Bool
  | .ty (.path ss) => is_string_type ss
  | _ => false

/-- Relation between an owned payload decoder and a view payload decoder:
the owned result is the field-wise content extraction of the view result. -/
def DecRel {π π2 : Type} (f : π → π2) (dO : Json → Option π2) (dV : Json → Option π) : Prop :=
  ∀ j, dO j = (dV j).map f

/-- Pointwise relation between the owned and view dispatch tables of a
method-tagged payload enum: same method strings, related decoders. -/
def TableRel {π π2 : Type} (f : π → π2) (tO : List (String × (Json → Option π2)))
    (tV : List (String × (Json → Option π))) : Prop :=
  List.Forall₂ (fun a b => a.1 = b.1 ∧ DecRel f a.2 b.2) tO tV

/-- Pointwise relation between the owned and view alternative lists of an
untagged payload enum. -/
def AltsRel {π π2 : Type} (f : π → π2) (aO : List (Json → Option π2))
    (aV : List (Json → Option π)) : Prop :=
  List.Forall₂ (DecRel f) aO aV

/-- The per-field borrow-attribute invariant: inside every eligible item, a
field carrying a borrow attribute certifies that its container already has
its lifetime parameter. -/
def BorrowInv (ign : List String) (items : List Item) : Prop :=
  ∀ it ∈ items, it.eligible ign = true →
    ∀ f ∈ it.fieldList, attrsHaveBorrow f.attrs = true → it.hasParam = true

/-- Whether a segment would accept the lifetime fill. -/
def segAcceptsFill : Seg → Bool
  | .mk _ .noArgs => true
  | .mk _ (.angle []) => true
  | _ => false

/-- The single-segment fill logic of `visit_type_path_mut`, applied by
`nodeFill` to the last segment. -/
def fillSeg (set : List String) : Seg → Seg × Bool
  | .mk i a =>
      if set.contains i then
        match a with
        | .noArgs => (.mk i (.angle [.lt]), true)
        | .angle [] => (.mk i (.angle [.lt]), true)
        | .angle (x :: r) => (.mk i (.angle (x :: r)), false)
        | .paren => (.mk i .paren, false)
      else (.mk i a, false)

/-- Whether the last segment of a path names a member of the set and would
accept the lifetime fill: exactly the firing condition of the node rewrite. -/
def lastFillable (set : List String) (segs : List Seg) : Bool :=
  match segs.getLast? with
  | some sg => set.contains sg.ident && segAcceptsFill sg
  | none => false

mutual

/-- No path node anywhere in the type would accept the lifetime fill for
the given set: the stable states of the type-path visitor. -/
def noFillTy (set : List String) : Ty → Bool
  | .path segs => !(lastFillable set segs) && noFillSegs set segs
  | .ref _ e => noFillTy set e

def noFillSegs (set : List String) : List Seg → Bool
  | [] => true
  | sg :: r => noFillSeg set sg && noFillSegs set r

def noFillSeg (set : List String) : Seg → Bool
  | .mk _ a => noFillPArgs set a

def noFillPArgs (set : List String) : PArgs → Bool
  | .noArgs => true
  | .paren => true
  | .angle as => noFillGArgs set as

def noFillGArgs (set : List String) : List GArg → Bool
  | [] => true
  | a :: r => noFillGArg set a && noFillGArgs set r

def noFillGArg (set : List String) : GArg → Bool
  | .lt => true
  | .ty t => noFillTy set t

end

/-- Number of type definitions in the file. -/
def numTypes (items : List Item) : Nat :=
  items.length

/-! ### Concrete instances used by witnesses and counterexamples -/

/-- A typical derive attribute of the generated schema types. -/
def derAttrD : Attr := .derive ["Debug", "Deserialize", "Serialize"]

/-- A field without attributes. -/
def plainField (t : Ty) : FieldDef := ⟨[], t⟩

/-- A bare named type path. -/
def pathOf (n : String) : Ty := .path [.mk n .noArgs]

/-- `struct S<a> { f : &a str }` deriving Deserialize: its only field is
already a reference. -/
def cexRefStruct : Item :=
  .istruct ⟨"S", [derAttrD], [.life "a"], .named [plainField refStr]⟩

/-- `struct T { s : String }` deriving Deserialize. -/
def cexStringStruct : Item :=
  .istruct ⟨"T", [derAttrD], [], .named [plainField (pathOf "String")]⟩

/-- `struct E { t : T }` deriving Deserialize (used as an excluded type). -/
def cexWrapperStruct : Item :=
  .istruct ⟨"E", [derAttrD], [], .named [plainField (pathOf "T")]⟩

/-- `struct T { f : U }` without a Deserialize derive, declared before `U`. -/
def cexNoDeriveStruct : Item :=
  .istruct ⟨"T", [.derive ["Debug"]], [], .named [plainField (pathOf "U")]⟩

/-- `struct U { s : String }` deriving Deserialize. -/
def cexUStruct : Item :=
  .istruct ⟨"U", [derAttrD], [], .named [plainField (pathOf "String")]⟩

/-- `struct W<b> { w : W }` deriving Deserialize: a self-referencing struct
with a pre-existing lifetime parameter named b. -/
def cexSelfRef : Item :=
  .istruct ⟨"W", [derAttrD], [.life "b"], .named [plainField (pathOf "W")]⟩

/-- A backing buffer whose first three bytes spell the version text. -/
def cexBuf : List Char := "2.0ping".toList

/-- A JSON object that matches both the Response shape and the Error shape:
it has `jsonrpc`, `id` and `result` members, and the error payload decoder
accepts it. -/
def cexBothJson : Json :=
  .jobj [("jsonrpc", .jstr ⟨0, 3⟩), ("id", .jnum 1), ("result", .jnull),
    ("error", .jnull)]

/-- A request payload decoder that rejects everything. -/
def dRejectN : Json → Option Nat := fun _ => none

/-- A result payload decoder that accepts everything. -/
def dResultN : Json → Option Nat := fun _ => some 0

/-- An error payload decoder that accepts everything with payload 7. -/
def dError7 : Json → Option Nat := fun _ => some 7

/-- A path type whose last segment is `Map`: the free-form JSON map case
that `transform_field` skips entirely. -/
def isMapPath : Ty → Bool
  | .path segs =>
      match segs.getLast? with
      | some sg => sg.ident == "Map"
      | none => false
  | _ => false

/-- Structural relation between an item and its image under one processing
step: same name, same kind, same attributes, and the generics either kept
or extended with the lifetime parameter (never extended for ignored
names). -/
def ItemRel (ign : List String) (a b : Item) : Prop :=
  b.ident = a.ident ∧
  (match a, b with
   | .istruct sa, .istruct sb => sa.attrs = sb.attrs
   | .ienum ea, .ienum eb => ea.attrs = eb.attrs
   | _, _ => False) ∧
  (b.generics = a.generics ∨
    (b.generics = addLifeA a.generics ∧ hasLifeA a.generics = false)) ∧
  (ign.contains a.ident = true → b.generics = a.generics)

/-- `struct S2 { f : &a str }` deriving Deserialize, without a declared
lifetime parameter: its only field is already a reference. -/
def cexRefNoLife : Item :=
  .istruct ⟨"S2", [derAttrD], [], .named [plainField refStr]⟩

/-- `struct P { f : U }` deriving Deserialize, declared after `U`. -/
def cexPStruct : Item :=
  .istruct ⟨"P", [derAttrD], [], .named [plainField (pathOf "U")]⟩

/-- `enum D { V(String) }` deriving Deserialize: a single variant holding a
bare String field. -/
def cexStringEnum : EnumData :=
  ⟨"D", [derAttrD], [], [⟨.named [plainField (pathOf "String")]⟩]⟩

/-- `enum Q { V(U) }` deriving Deserialize, declared after `U`. -/
def cexQEnum : Item :=
  .ienum ⟨"Q", [derAttrD], [], [⟨.named [plainField (pathOf "U")]⟩]⟩

/-! ## Basic lemmas on the flag-collecting maps -/

theorem listMapFlag_eq {α : Type} (g : α → α × Bool) (l : List α) :
    listMapFlag g l = (l.map (fun x => (g x).1), l.any (fun x => (g x).2)) := by
  induction l with
  | nil => rfl
  | cons x r ih => simp [listMapFlag, ih]

theorem SFields.mapFlag_eq (g : FieldDef → FieldDef × Bool) (fs : SFields) :
    fs.mapFlag g = (match fs with
      | .named l => .named (l.map (fun x => (g x).1))
      | .unnamed l => .unnamed (l.map (fun x => (g x).1))
      | .unit => .unit,
      fs.list.any (fun x => (g x).2)) := by
  cases fs <;> simp [SFields.mapFlag, listMapFlag_eq, SFields.list]

theorem variantsMapFlag_eq (g : FieldDef → FieldDef × Bool) (vs : List Variant) :
    variantsMapFlag g vs =
      (vs.map (fun v => ⟨(v.fields.mapFlag g).1⟩),
       vs.any (fun v => (v.fields.mapFlag g).2)) := by
  induction vs with
  | nil => rfl
  | cons v r ih => simp [variantsMapFlag, ih]

/-! ## Lemmas on the type-path rewrite -/

/-- Boolean subset between name sets. -/
def SubsetC (s s' : List String) : Prop :=
  ∀ x, s.contains x = true → s'.contains x = true

theorem nodeFill_false (set : List String) :
    ∀ segs, (nodeFill set segs).2 = false → (nodeFill set segs).1 = segs := by
  intro segs
  induction segs with
  | nil => intro _; rfl
  | cons s r ih =>
    cases r with
    | nil =>
      cases s with
      | mk i a =>
        by_cases hc : i ∈ set
        · cases a with
          | noArgs => simp [nodeFill, hc]
          | paren => simp [nodeFill, hc]
          | angle as =>
            cases as with
            | nil => simp [nodeFill, hc]
            | cons x r => simp [nodeFill, hc]
        · cases a <;> simp [nodeFill, hc]
    | cons s2 t =>
      cases hnf : nodeFill set (s2 :: t) with
      | mk l b =>
        rw [hnf] at ih
        intro h
        simp only [nodeFill, hnf] at h ⊢
        have := ih h
        simp only at this
        rw [this]

theorem listMapFlag_false {α : Type} (g : α → α × Bool)
    (hg : ∀ x, (g x).2 = false → (g x).1 = x) (l : List α)
    (h : (listMapFlag g l).2 = false) : (listMapFlag g l).1 = l := by
  rw [listMapFlag_eq] at h ⊢
  simp only at h ⊢
  rw [List.any_eq_false] at h
  have : l.map (fun x => (g x).1) = l.map id := by
    apply List.map_congr_left
    intro x hx
    exact hg x (by simpa using h x hx)
  simpa using this

mutual

theorem rewriteTy_false (set : List String) :
    ∀ t, (rewriteTy set t).2 = false → (rewriteTy set t).1 = t
  | .ref l e => fun h => by
      have he := rewriteTy_false set e
      cases hre : rewriteTy set e with
      | mk e' m =>
        rw [hre] at he
        simp only [rewriteTy, hre] at h ⊢
        have hz := he h
        simp only at hz
        rw [hz]
  | .path segs => fun h => by
      have hs := rewriteSegs_false set segs
      cases hrs : rewriteSegs set segs with
      | mk segs1 m1 =>
        rw [hrs] at hs
        simp only [rewriteTy, hrs] at h ⊢
        obtain ⟨h1, h2⟩ := Bool.or_eq_false_iff.mp h
        have h2' := nodeFill_false set segs1 h2
        have hz := hs h1
        simp only at hz
        rw [h2', hz]

theorem rewriteSegs_false (set : List String) :
    ∀ segs, (rewriteSegs set segs).2 = false → (rewriteSegs set segs).1 = segs
  | [] => fun _ => rfl
  | s :: r => fun h => by
      have h1 := rewriteSeg_false set s
      have h2 := rewriteSegs_false set r
      cases hs : rewriteSeg set s with
      | mk s' m =>
        cases hr : rewriteSegs set r with
        | mk r' m' =>
          rw [hs] at h1; rw [hr] at h2
          simp only [rewriteSegs, hs, hr] at h ⊢
          obtain ⟨ha, hb⟩ := Bool.or_eq_false_iff.mp h
          have hz1 := h1 ha
          have hz2 := h2 hb
          simp only at hz1 hz2
          rw [hz1, hz2]

theorem rewriteSeg_false (set : List String) :
    ∀ s, (rewriteSeg set s).2 = false → (rewriteSeg set s).1 = s
  | .mk i a => fun h => by
      have h1 := rewritePArgs_false set a
      cases ha : rewritePArgs set a with
      | mk a' m =>
        rw [ha] at h1
        simp only [rewriteSeg, ha] at h ⊢
        have hz := h1 h
        simp only at hz
        rw [hz]

theorem rewritePArgs_false (set : List String) :
    ∀ a, (rewritePArgs set a).2 = false → (rewritePArgs set a).1 = a
  | .noArgs => fun _ => rfl
  | .paren => fun _ => rfl
  | .angle as => fun h => by
      have h1 := rewriteGArgs_false set as
      cases has : rewriteGArgs set as with
      | mk as' m =>
        rw [has] at h1
        simp only [rewritePArgs, has] at h ⊢
        have hz := h1 h
        simp only at hz
        rw [hz]

theorem rewriteGArgs_false (set : List String) :
    ∀ as, (rewriteGArgs set as).2 = false → (rewriteGArgs set as).1 = as
  | [] => fun _ => rfl
  | a :: r => fun h => by
      have h1 := rewriteGArg_false set a
      have h2 := rewriteGArgs_false set r
      cases ha : rewriteGArg set a with
      | mk a' m =>
        cases hr : rewriteGArgs set r with
        | mk r' m' =>
          rw [ha] at h1; rw [hr] at h2
          simp only [rewriteGArgs, ha, hr] at h ⊢
          obtain ⟨hx, hy⟩ := Bool.or_eq_false_iff.mp h
          have hz1 := h1 hx
          have hz2 := h2 hy
          simp only at hz1 hz2
          rw [hz1, hz2]

theorem rewriteGArg_false (set : List String) :
    ∀ a, (rewriteGArg set a).2 = false → (rewriteGArg set a).1 = a
  | .lt => fun _ => rfl
  | .ty t => fun h => by
      have h1 := rewriteTy_false set t
      cases ht : rewriteTy set t with
      | mk t' m =>
        rw [ht] at h1
        simp only [rewriteGArg, ht] at h ⊢
        have hz := h1 h
        simp only at hz
        rw [hz]

end

theorem rewriteSegs_eq (set : List String) (segs : List Seg) :
    rewriteSegs set segs =
      (segs.map (fun s => (rewriteSeg set s).1), segs.any (fun s => (rewriteSeg set s).2)) := by
  induction segs with
  | nil => rfl
  | cons s r ih => simp [rewriteSegs, ih]

theorem rewriteGArgs_eq (set : List String) (as : List GArg) :
    rewriteGArgs set as =
      (as.map (fun a => (rewriteGArg set a).1), as.any (fun a => (rewriteGArg set a).2)) := by
  induction as with
  | nil => rfl
  | cons a r ih => simp [rewriteGArgs, ih]

theorem rewriteSeg_ident (set : List String) (s : Seg) :
    (rewriteSeg set s).1.ident = s.ident := by
  cases s with
  | mk i a => simp [rewriteSeg, Seg.ident]

theorem isBareSegs_eq_getLast (segs : List Seg) :
    isBareSegs segs = (match segs.getLast? with
      | some s => segAcceptsFill s
      | none => false) := by
  cases h : segs.getLast? with
  | none => simp [isBareSegs, h]
  | some s =>
    cases s with
    | mk i a => cases a with
      | noArgs => simp [isBareSegs, h, segAcceptsFill]
      | paren => simp [isBareSegs, h, segAcceptsFill]
      | angle as => cases as <;> simp [isBareSegs, h, segAcceptsFill]

theorem rewriteSeg_acceptsFill (set : List String) (s : Seg) :
    segAcceptsFill (rewriteSeg set s).1 = segAcceptsFill s := by
  cases s with
  | mk i a =>
    cases a with
    | noArgs => simp [rewriteSeg, rewritePArgs, segAcceptsFill]
    | paren => simp [rewriteSeg, rewritePArgs, segAcceptsFill]
    | angle as =>
      simp only [rewriteSeg, rewritePArgs, rewriteGArgs_eq]
      cases as <;> simp [segAcceptsFill]

theorem is_string_type_rewriteSegs (set : List String) (segs : List Seg) :
    is_string_type (rewriteSegs set segs).1 = is_string_type segs := by
  rw [rewriteSegs_eq]
  simp only [is_string_type, List.getLast?_map]
  cases h : segs.getLast? with
  | none => rfl
  | some s => simp [rewriteSeg_ident]

theorem isBareSegs_rewriteSegs (set : List String) (segs : List Seg) :
    isBareSegs (rewriteSegs set segs).1 = isBareSegs segs := by
  rw [rewriteSegs_eq]
  rw [isBareSegs_eq_getLast, isBareSegs_eq_getLast]
  simp only [List.getLast?_map]
  cases h : segs.getLast? with
  | none => rfl
  | some s => simp [rewriteSeg_acceptsFill]


theorem fillSeg_of_mem (set : List String) (i : String) (a : PArgs) (hc : i ∈ set) :
    fillSeg set (.mk i a) = (match a with
      | .noArgs => (.mk i (.angle [.lt]), true)
      | .angle [] => (.mk i (.angle [.lt]), true)
      | .angle (x :: r) => (.mk i (.angle (x :: r)), false)
      | .paren => (.mk i .paren, false)) := by
  simp [fillSeg, hc]

theorem fillSeg_of_not_mem (set : List String) (i : String) (a : PArgs) (hc : i ∉ set) :
    fillSeg set (.mk i a) = (.mk i a, false) := by
  simp [fillSeg, hc]

theorem nodeFill_concat (set : List String) (pre : List Seg) (s : Seg) :
    nodeFill set (pre ++ [s]) = (pre ++ [(fillSeg set s).1], (fillSeg set s).2) := by
  induction pre with
  | nil =>
    cases s with
    | mk i a =>
      by_cases hc : i ∈ set
      · cases a with
        | noArgs => simp [nodeFill, fillSeg_of_mem set i _ hc, hc]
        | paren => simp [nodeFill, fillSeg_of_mem set i _ hc, hc]
        | angle as => cases as <;> simp [nodeFill, fillSeg_of_mem set i _ hc, hc]
      · cases a <;> simp [nodeFill, fillSeg_of_not_mem set i _ hc, hc]
  | cons x r ih =>
    obtain ⟨y, t, hr⟩ : ∃ y t, r ++ [s] = y :: t := by
      cases hq : r ++ [s] with
      | nil => simp at hq
      | cons a b => exact ⟨a, b, rfl⟩
    rw [show x :: r ++ [s] = x :: (y :: t) by rw [← hr]; rfl]
    simp only [nodeFill]
    rw [← hr, ih]
    simp

theorem segsMeasure_append (l1 l2 : List Seg) :
    segsMeasure (l1 ++ l2) = segsMeasure l1 + segsMeasure l2 := by
  induction l1 with
  | nil => simp [segsMeasure]
  | cons s r ih => simp [segsMeasure, ih]; omega

theorem is_string_type_concat (pre : List Seg) (s : Seg) :
    is_string_type (pre ++ [s]) = (s.ident == "String") := by
  simp [is_string_type, List.getLast?_concat]

theorem isBareSegs_concat (pre : List Seg) (s : Seg) :
    isBareSegs (pre ++ [s]) = segAcceptsFill s := by
  rw [isBareSegs_eq_getLast]
  simp [List.getLast?_concat]

theorem fillSeg_ident (set : List String) (s : Seg) :
    (fillSeg set s).1.ident = s.ident := by
  cases s with
  | mk i a =>
    by_cases hc : i ∈ set
    · cases a with
      | noArgs => simp [fillSeg_of_mem set i _ hc, Seg.ident]
      | paren => simp [fillSeg_of_mem set i _ hc, Seg.ident]
      | angle as => cases as <;> simp [fillSeg_of_mem set i _ hc, Seg.ident]
    · simp [fillSeg_of_not_mem set i _ hc]

theorem fillSeg_measure (set : List String) (s : Seg) :
    ((if segAcceptsFill (fillSeg set s).1 then 1 else 0) + segMeasure (fillSeg set s).1)
      + ((fillSeg set s).2).toNat
    = (if segAcceptsFill s then 1 else 0) + segMeasure s := by
  cases s with
  | mk i a =>
    by_cases hc : i ∈ set
    · cases a with
      | noArgs =>
        simp [fillSeg_of_mem set i _ hc, segAcceptsFill, segMeasure, pargsMeasure,
          gargsMeasure, gargMeasure]
      | paren => simp [fillSeg_of_mem set i _ hc, segAcceptsFill]
      | angle as =>
        cases as with
        | nil =>
          simp [fillSeg_of_mem set i _ hc, segAcceptsFill, segMeasure, pargsMeasure,
            gargsMeasure, gargMeasure]
        | cons x r => simp [fillSeg_of_mem set i _ hc, segAcceptsFill]
    · simp [fillSeg_of_not_mem set i _ hc]

mutual

theorem rewriteTy_measure (set : List String) :
    ∀ t, tyMeasure (rewriteTy set t).1 + ((rewriteTy set t).2).toNat ≤ tyMeasure t
  | .ref l e => by
      cases hre : rewriteTy set e with
      | mk e' m =>
        have h := rewriteTy_measure set e
        rw [hre] at h
        simp only at h
        simp only [rewriteTy, hre, tyMeasure]
        exact h
  | .path segs => by
      cases hrs : rewriteSegs set segs with
      | mk segs1 m1 =>
        have hm := rewriteSegs_measure set segs
        have hstr := is_string_type_rewriteSegs set segs
        have hbare := isBareSegs_rewriteSegs set segs
        rw [hrs] at hm hstr hbare
        simp only at hm hstr hbare
        rcases List.eq_nil_or_concat segs1 with hnil | ⟨pre, s, hps⟩
        · subst hnil
          have h1 : is_string_type segs = false := hstr.symm.trans rfl
          have h2 : isBareSegs segs = false := hbare.symm.trans rfl
          simp only [rewriteTy, hrs, nodeFill, tyMeasure, segsMeasure, h1, h2]
          simp only [segsMeasure] at hm
          simp only [show isBareSegs ([] : List Seg) = false from rfl,
            show is_string_type ([] : List Seg) = false from rfl]
          cases m1 <;> simp_all
        · rw [List.concat_eq_append] at hps
          subst hps
          simp only [rewriteTy, hrs, nodeFill_concat, tyMeasure]
          have hfm := fillSeg_measure set s
          rw [segsMeasure_append, is_string_type_concat, isBareSegs_concat,
            fillSeg_ident]
          rw [segsMeasure_append] at hm
          rw [is_string_type_concat] at hstr
          rw [isBareSegs_concat] at hbare
          rw [← hstr, ← hbare]
          simp only [segsMeasure, segsMeasure_append] at hm hfm ⊢
          cases m1 <;> cases hf2 : (fillSeg set s).2 <;>
            rw [hf2] at hfm <;> simp_all <;> omega

theorem rewriteSegs_measure (set : List String) :
    ∀ segs, segsMeasure (rewriteSegs set segs).1 + ((rewriteSegs set segs).2).toNat
      ≤ segsMeasure segs
  | [] => by simp [rewriteSegs, segsMeasure]
  | sg :: r => by
      cases hs : rewriteSeg set sg with
      | mk s' m =>
        cases hr : rewriteSegs set r with
        | mk r' m' =>
          have h1 := rewriteSeg_measure set sg
          have h2 := rewriteSegs_measure set r
          rw [hs] at h1; rw [hr] at h2
          simp only at h1 h2
          simp only [rewriteSegs, hs, hr, segsMeasure]
          cases m <;> cases m' <;> simp_all <;> omega

theorem rewriteSeg_measure (set : List String) :
    ∀ sg, segMeasure (rewriteSeg set sg).1 + ((rewriteSeg set sg).2).toNat ≤ segMeasure sg
  | .mk i a => by
      cases ha : rewritePArgs set a with
      | mk a' m =>
        have h := rewritePArgs_measure set a
        rw [ha] at h
        simp only at h
        simp only [rewriteSeg, ha, segMeasure]
        exact h

theorem rewritePArgs_measure (set : List String) :
    ∀ a, pargsMeasure (rewritePArgs set a).1 + ((rewritePArgs set a).2).toNat ≤ pargsMeasure a
  | .noArgs => by simp [rewritePArgs, pargsMeasure]
  | .paren => by simp [rewritePArgs, pargsMeasure]
  | .angle as => by
      cases has : rewriteGArgs set as with
      | mk as' m =>
        have h := rewriteGArgs_measure set as
        rw [has] at h
        simp only at h
        simp only [rewritePArgs, has, pargsMeasure]
        exact h

theorem rewriteGArgs_measure (set : List String) :
    ∀ as, gargsMeasure (rewriteGArgs set as).1 + ((rewriteGArgs set as).2).toNat
      ≤ gargsMeasure as
  | [] => by simp [rewriteGArgs, gargsMeasure]
  | a :: r => by
      cases ha : rewriteGArg set a with
      | mk a' m =>
        cases hr : rewriteGArgs set r with
        | mk r' m' =>
          have h1 := rewriteGArg_measure set a
          have h2 := rewriteGArgs_measure set r
          rw [ha] at h1; rw [hr] at h2
          simp only at h1 h2
          simp only [rewriteGArgs, ha, hr, gargsMeasure]
          cases m <;> cases m' <;> simp_all <;> omega

theorem rewriteGArg_measure (set : List String) :
    ∀ a, gargMeasure (rewriteGArg set a).1 + ((rewriteGArg set a).2).toNat ≤ gargMeasure a
  | .lt => by simp [rewriteGArg, gargMeasure]
  | .ty t => by
      cases ht : rewriteTy set t with
      | mk t' m =>
        have h := rewriteTy_measure set t
        rw [ht] at h
        simp only at h
        simp only [rewriteGArg, ht, gargMeasure]
        exact h

end

/-! ## Stable states of the type-path visitor -/

theorem noFillSegs_append (set : List String) (l1 l2 : List Seg) :
    noFillSegs set (l1 ++ l2) = (noFillSegs set l1 && noFillSegs set l2) := by
  induction l1 with
  | nil => simp [noFillSegs]
  | cons s r ih => simp [noFillSegs, ih, Bool.and_assoc]

theorem lastFillable_concat (set : List String) (pre : List Seg) (s : Seg) :
    lastFillable set (pre ++ [s]) = (set.contains s.ident && segAcceptsFill s) := by
  simp [lastFillable, List.getLast?_concat]

theorem lastFillable_cons_cons (set : List String) (s r : Seg) (t : List Seg) :
    lastFillable set (s :: r :: t) = lastFillable set (r :: t) := by
  simp [lastFillable, List.getLast?]

theorem fillSeg_not_fillable (set : List String) (s : Seg) :
    (set.contains (fillSeg set s).1.ident && segAcceptsFill (fillSeg set s).1) = false := by
  cases s with
  | mk i a =>
    by_cases hc : i ∈ set
    · cases a with
      | noArgs => simp [fillSeg_of_mem set i _ hc, segAcceptsFill]
      | paren => simp [fillSeg_of_mem set i _ hc, segAcceptsFill]
      | angle as => cases as <;> simp [fillSeg_of_mem set i _ hc, segAcceptsFill]
    · simp [fillSeg_of_not_mem set i _ hc, Seg.ident]
      intro hmem
      exact absurd hmem hc

theorem noFillSeg_fillSeg (set : List String) (s : Seg)
    (h : noFillSeg set s = true) : noFillSeg set (fillSeg set s).1 = true := by
  cases s with
  | mk i a =>
    by_cases hc : i ∈ set
    · cases a with
      | noArgs =>
        simp [fillSeg_of_mem set i _ hc, noFillSeg, noFillPArgs, noFillGArgs, noFillGArg]
      | paren => simpa [fillSeg_of_mem set i _ hc] using h
      | angle as =>
        cases as with
        | nil =>
          simp [fillSeg_of_mem set i _ hc, noFillSeg, noFillPArgs, noFillGArgs, noFillGArg]
        | cons x r => simpa [fillSeg_of_mem set i _ hc] using h
    · simpa [fillSeg_of_not_mem set i _ hc] using h

theorem nodeFill_flag (set : List String) (segs : List Seg) :
    (nodeFill set segs).2 = lastFillable set segs := by
  rcases List.eq_nil_or_concat segs with h | ⟨pre, s, h⟩
  · subst h; rfl
  · rw [List.concat_eq_append] at h
    subst h
    rw [nodeFill_concat, lastFillable_concat]
    cases s with
    | mk i a =>
      by_cases hc : i ∈ set
      · cases a with
        | noArgs => simp [fillSeg_of_mem set i _ hc, segAcceptsFill, Seg.ident, hc]
        | paren => simp [fillSeg_of_mem set i _ hc, segAcceptsFill, Seg.ident, hc]
        | angle as => cases as <;>
            simp [fillSeg_of_mem set i _ hc, segAcceptsFill, Seg.ident, hc]
      · simp [fillSeg_of_not_mem set i _ hc, Seg.ident]
        intro hmem
        exact absurd hmem hc

theorem nodeFill_not_fillable (set : List String) (segs : List Seg)
    (h : lastFillable set segs = false) : nodeFill set segs = (segs, false) := by
  have hf : (nodeFill set segs).2 = false := by rw [nodeFill_flag, h]
  have h1 := nodeFill_false set segs hf
  cases hn : nodeFill set segs with
  | mk a b =>
    rw [hn] at h1 hf
    simp only at h1 hf
    rw [h1, hf]

mutual

theorem rewriteTy_noFill (set : List String) :
    ∀ t, noFillTy set (rewriteTy set t).1 = true
  | .ref l e => by
      cases hre : rewriteTy set e with
      | mk e' m =>
        have h := rewriteTy_noFill set e
        rw [hre] at h
        simpa [rewriteTy, hre, noFillTy] using h
  | .path segs => by
      cases hrs : rewriteSegs set segs with
      | mk segs1 m1 =>
        have h := rewriteSegs_noFill set segs
        rw [hrs] at h
        simp only at h
        rcases List.eq_nil_or_concat segs1 with hnil | ⟨pre, s, hps⟩
        · subst hnil
          simp [rewriteTy, hrs, nodeFill, noFillTy, lastFillable, noFillSegs,
            List.getLast?]
        · rw [List.concat_eq_append] at hps
          subst hps
          rw [noFillSegs_append] at h
          obtain ⟨hp, hs1⟩ := Bool.and_eq_true_iff.mp h
          simp only [noFillSegs, Bool.and_true] at hs1
          simp only [rewriteTy, hrs, nodeFill_concat, noFillTy]
          rw [lastFillable_concat, fillSeg_not_fillable, noFillSegs_append]
          simp only [noFillSegs, Bool.and_true]
          simp [hp, noFillSeg_fillSeg set s hs1]

theorem rewriteSegs_noFill (set : List String) :
    ∀ segs, noFillSegs set (rewriteSegs set segs).1 = true
  | [] => rfl
  | sg :: r => by
      cases hs : rewriteSeg set sg with
      | mk s' m =>
        cases hr : rewriteSegs set r with
        | mk r' m' =>
          have h1 := rewriteSeg_noFill set sg
          have h2 := rewriteSegs_noFill set r
          rw [hs] at h1; rw [hr] at h2
          simp only at h1 h2
          simp [rewriteSegs, hs, hr, noFillSegs, h1, h2]

theorem rewriteSeg_noFill (set : List String) :
    ∀ sg, noFillSeg set (rewriteSeg set sg).1 = true
  | .mk i a => by
      cases ha : rewritePArgs set a with
      | mk a' m =>
        have h := rewritePArgs_noFill set a
        rw [ha] at h
        simpa [rewriteSeg, ha, noFillSeg] using h

theorem rewritePArgs_noFill (set : List String) :
    ∀ a, noFillPArgs set (rewritePArgs set a).1 = true
  | .noArgs => rfl
  | .paren => rfl
  | .angle as => by
      cases has : rewriteGArgs set as with
      | mk as' m =>
        have h := rewriteGArgs_noFill set as
        rw [has] at h
        simpa [rewritePArgs, has, noFillPArgs] using h

theorem rewriteGArgs_noFill (set : List String) :
    ∀ as, noFillGArgs set (rewriteGArgs set as).1 = true
  | [] => rfl
  | a :: r => by
      cases ha : rewriteGArg set a with
      | mk a' m =>
        cases hr : rewriteGArgs set r with
        | mk r' m' =>
          have h1 := rewriteGArg_noFill set a
          have h2 := rewriteGArgs_noFill set r
          rw [ha] at h1; rw [hr] at h2
          simp only at h1 h2
          simp [rewriteGArgs, ha, hr, noFillGArgs, h1, h2]

theorem rewriteGArg_noFill (set : List String) :
    ∀ a, noFillGArg set (rewriteGArg set a).1 = true
  | .lt => rfl
  | .ty t => by
      cases ht : rewriteTy set t with
      | mk t' m =>
        have h := rewriteTy_noFill set t
        rw [ht] at h
        simpa [rewriteGArg, ht, noFillGArg] using h

end

mutual

theorem noFillTy_rewrite (set : List String) :
    ∀ t, noFillTy set t = true → rewriteTy set t = (t, false)
  | .ref l e => fun h => by
      have he := noFillTy_rewrite set e (by simpa [noFillTy] using h)
      simp [rewriteTy, he]
  | .path segs => fun h => by
      simp only [noFillTy, Bool.and_eq_true, Bool.not_eq_true'] at h
      obtain ⟨hl, hs⟩ := h
      have h1 := noFillSegs_rewrite set segs hs
      simp [rewriteTy, h1, nodeFill_not_fillable set segs hl]

theorem noFillSegs_rewrite (set : List String) :
    ∀ segs, noFillSegs set segs = true → rewriteSegs set segs = (segs, false)
  | [] => fun _ => rfl
  | sg :: r => fun h => by
      simp only [noFillSegs, Bool.and_eq_true] at h
      have h1 := noFillSeg_rewrite set sg h.1
      have h2 := noFillSegs_rewrite set r h.2
      simp [rewriteSegs, h1, h2]

theorem noFillSeg_rewrite (set : List String) :
    ∀ sg, noFillSeg set sg = true → rewriteSeg set sg = (sg, false)
  | .mk i a => fun h => by
      have h1 := noFillPArgs_rewrite set a (by simpa [noFillSeg] using h)
      simp [rewriteSeg, h1]

theorem noFillPArgs_rewrite (set : List String) :
    ∀ a, noFillPArgs set a = true → rewritePArgs set a = (a, false)
  | .noArgs => fun _ => rfl
  | .paren => fun _ => rfl
  | .angle as => fun h => by
      have h1 := noFillGArgs_rewrite set as (by simpa [noFillPArgs] using h)
      simp [rewritePArgs, h1]

theorem noFillGArgs_rewrite (set : List String) :
    ∀ as, noFillGArgs set as = true → rewriteGArgs set as = (as, false)
  | [] => fun _ => rfl
  | a :: r => fun h => by
      simp only [noFillGArgs, Bool.and_eq_true] at h
      have h1 := noFillGArg_rewrite set a h.1
      have h2 := noFillGArgs_rewrite set r h.2
      simp [rewriteGArgs, h1, h2]

theorem noFillGArg_rewrite (set : List String) :
    ∀ a, noFillGArg set a = true → rewriteGArg set a = (a, false)
  | .lt => fun _ => rfl
  | .ty t => fun h => by
      have h1 := noFillTy_rewrite set t (by simpa [noFillGArg] using h)
      simp [rewriteGArg, h1]

end

mutual

theorem rewriteTy_false_noFill (set : List String) :
    ∀ t, (rewriteTy set t).2 = false → noFillTy set t = true
  | .ref l e => fun h => by
      cases hre : rewriteTy set e with
      | mk e' m =>
        have he := rewriteTy_false_noFill set e
        rw [hre] at he
        simp only [rewriteTy, hre] at h
        simpa [noFillTy] using he h
  | .path segs => fun h => by
      cases hrs : rewriteSegs set segs with
      | mk segs1 m1 =>
        have hsg := rewriteSegs_false_noFill set segs
        rw [hrs] at hsg
        simp only [rewriteTy, hrs] at h
        obtain ⟨h1, h2⟩ := Bool.or_eq_false_iff.mp h
        have heq := rewriteSegs_false set segs (by rw [hrs]; exact h1)
        rw [hrs] at heq
        simp only at heq
        subst heq
        rw [nodeFill_flag] at h2
        simp [noFillTy, h2, hsg h1]

theorem rewriteSegs_false_noFill (set : List String) :
    ∀ segs, (rewriteSegs set segs).2 = false → noFillSegs set segs = true
  | [] => fun _ => rfl
  | sg :: r => fun h => by
      cases hs : rewriteSeg set sg with
      | mk s' m =>
        cases hr : rewriteSegs set r with
        | mk r' m' =>
          have h1 := rewriteSeg_false_noFill set sg
          have h2 := rewriteSegs_false_noFill set r
          rw [hs] at h1; rw [hr] at h2
          simp only [rewriteSegs, hs, hr] at h
          obtain ⟨ha, hb⟩ := Bool.or_eq_false_iff.mp h
          simp [noFillSegs, h1 ha, h2 hb]

theorem rewriteSeg_false_noFill (set : List String) :
    ∀ sg, (rewriteSeg set sg).2 = false → noFillSeg set sg = true
  | .mk i a => fun h => by
      cases ha : rewritePArgs set a with
      | mk a' m =>
        have h1 := rewritePArgs_false_noFill set a
        rw [ha] at h1
        simp only [rewriteSeg, ha] at h
        simpa [noFillSeg] using h1 h

theorem rewritePArgs_false_noFill (set : List String) :
    ∀ a, (rewritePArgs set a).2 = false → noFillPArgs set a = true
  | .noArgs => fun _ => rfl
  | .paren => fun _ => rfl
  | .angle as => fun h => by
      cases has : rewriteGArgs set as with
      | mk as' m =>
        have h1 := rewriteGArgs_false_noFill set as
        rw [has] at h1
        simp only [rewritePArgs, has] at h
        simpa [noFillPArgs] using h1 h

theorem rewriteGArgs_false_noFill (set : List String) :
    ∀ as, (rewriteGArgs set as).2 = false → noFillGArgs set as = true
  | [] => fun _ => rfl
  | a :: r => fun h => by
      cases ha : rewriteGArg set a with
      | mk a' m =>
        cases hr : rewriteGArgs set r with
        | mk r' m' =>
          have h1 := rewriteGArg_false_noFill set a
          have h2 := rewriteGArgs_false_noFill set r
          rw [ha] at h1; rw [hr] at h2
          simp only [rewriteGArgs, ha, hr] at h
          obtain ⟨hx, hy⟩ := Bool.or_eq_false_iff.mp h
          simp [noFillGArgs, h1 hx, h2 hy]

theorem rewriteGArg_false_noFill (set : List String) :
    ∀ a, (rewriteGArg set a).2 = false → noFillGArg set a = true
  | .lt => fun _ => rfl
  | .ty t => fun h => by
      cases ht : rewriteTy set t with
      | mk t' m =>
        have h1 := rewriteTy_false_noFill set t
        rw [ht] at h1
        simp only [rewriteGArg, ht] at h
        simpa [noFillGArg] using h1 h

end

theorem segsUse_lastFillable (ch : List String) :
    ∀ segs, segsUseChangedType ch segs = false → lastFillable ch segs = false := by
  intro segs
  induction segs with
  | nil => intro _; rfl
  | cons s r ih =>
    intro h
    simp only [segsUseChangedType] at h
    obtain ⟨h1, h2⟩ := Bool.or_eq_false_iff.mp h
    cases r with
    | nil =>
      cases s with
      | mk i a =>
        simp only [segUsesChangedType] at h1
        obtain ⟨hc, _⟩ := Bool.or_eq_false_iff.mp h1
        have he : lastFillable ch [Seg.mk i a]
            = (ch.contains (Seg.mk i a).ident && segAcceptsFill (Seg.mk i a)) := by
          simp [lastFillable]
        rw [he, show (Seg.mk i a).ident = i from rfl, hc]
        rfl
    | cons r2 t =>
      rw [lastFillable_cons_cons]
      exact ih h2

mutual

theorem noUses_noFill (ch : List String) :
    ∀ t, type_uses_changed_type ch t = false → noFillTy ch t = true
  | .ref l e => fun h => by
      have he := noUses_noFill ch e (by simpa [type_uses_changed_type] using h)
      simpa [noFillTy] using he
  | .path segs => fun h => by
      simp only [type_uses_changed_type] at h
      have h1 := segsUse_lastFillable ch segs h
      have h2 := noUsesSegs_noFill ch segs h
      simp [noFillTy, h1, h2]

theorem noUsesSegs_noFill (ch : List String) :
    ∀ segs, segsUseChangedType ch segs = false → noFillSegs ch segs = true
  | [] => fun _ => rfl
  | sg :: r => fun h => by
      simp only [segsUseChangedType] at h
      obtain ⟨h1, h2⟩ := Bool.or_eq_false_iff.mp h
      have g1 := noUsesSeg_noFill ch sg h1
      have g2 := noUsesSegs_noFill ch r h2
      simp [noFillSegs, g1, g2]

theorem noUsesSeg_noFill (ch : List String) :
    ∀ sg, segUsesChangedType ch sg = false → noFillSeg ch sg = true
  | .mk i a => fun h => by
      simp only [segUsesChangedType] at h
      obtain ⟨_, h2⟩ := Bool.or_eq_false_iff.mp h
      have := noUsesPArgs_noFill ch a h2
      simpa [noFillSeg] using this

theorem noUsesPArgs_noFill (ch : List String) :
    ∀ a, pargsUseChangedType ch a = false → noFillPArgs ch a = true
  | .noArgs => fun _ => rfl
  | .paren => fun _ => rfl
  | .angle as => fun h => by
      have := noUsesGArgs_noFill ch as (by simpa [pargsUseChangedType] using h)
      simpa [noFillPArgs] using this

theorem noUsesGArgs_noFill (ch : List String) :
    ∀ as, gargsUseChangedType ch as = false → noFillGArgs ch as = true
  | [] => fun _ => rfl
  | a :: r => fun h => by
      simp only [gargsUseChangedType] at h
      obtain ⟨h1, h2⟩ := Bool.or_eq_false_iff.mp h
      have g1 := noUsesGArg_noFill ch a h1
      have g2 := noUsesGArgs_noFill ch r h2
      simp [noFillGArgs, g1, g2]

theorem noUsesGArg_noFill (ch : List String) :
    ∀ a, gargUsesChangedType ch a = false → noFillGArg ch a = true
  | .lt => fun _ => rfl
  | .ty t => fun h => by
      have := noUses_noFill ch t (by simpa [gargUsesChangedType] using h)
      simpa [noFillGArg] using this

end

mutual

theorem noFillTy_subset (s s' : List String) (hs : SubsetC s s') :
    ∀ t, noFillTy s' t = true → noFillTy s t = true
  | .ref l e => fun h => by
      have := noFillTy_subset s s' hs e (by simpa [noFillTy] using h)
      simpa [noFillTy] using this
  | .path segs => fun h => by
      simp only [noFillTy, Bool.and_eq_true, Bool.not_eq_true'] at h ⊢
      obtain ⟨h1, h2⟩ := h
      refine ⟨?_, noFillSegs_subset s s' hs segs h2⟩
      cases hgl : segs.getLast? with
      | none => simp [lastFillable, hgl]
      | some sg =>
        simp only [lastFillable, hgl] at h1 ⊢
        cases hc : s.contains sg.ident with
        | false => simp
        | true =>
          have := hs _ hc
          rw [this] at h1
          simpa using h1

theorem noFillSegs_subset (s s' : List String) (hs : SubsetC s s') :
    ∀ segs, noFillSegs s' segs = true → noFillSegs s segs = true
  | [] => fun _ => rfl
  | sg :: r => fun h => by
      simp only [noFillSegs, Bool.and_eq_true] at h ⊢
      exact ⟨noFillSeg_subset s s' hs sg h.1, noFillSegs_subset s s' hs r h.2⟩

theorem noFillSeg_subset (s s' : List String) (hs : SubsetC s s') :
    ∀ sg, noFillSeg s' sg = true → noFillSeg s sg = true
  | .mk i a => fun h => by
      have := noFillPArgs_subset s s' hs a (by simpa [noFillSeg] using h)
      simpa [noFillSeg] using this

theorem noFillPArgs_subset (s s' : List String) (hs : SubsetC s s') :
    ∀ a, noFillPArgs s' a = true → noFillPArgs s a = true
  | .noArgs => fun _ => rfl
  | .paren => fun _ => rfl
  | .angle as => fun h => by
      have := noFillGArgs_subset s s' hs as (by simpa [noFillPArgs] using h)
      simpa [noFillPArgs] using this

theorem noFillGArgs_subset (s s' : List String) (hs : SubsetC s s') :
    ∀ as, noFillGArgs s' as = true → noFillGArgs s as = true
  | [] => fun _ => rfl
  | a :: r => fun h => by
      simp only [noFillGArgs, Bool.and_eq_true] at h ⊢
      exact ⟨noFillGArg_subset s s' hs a h.1, noFillGArgs_subset s s' hs r h.2⟩

theorem noFillGArg_subset (s s' : List String) (hs : SubsetC s s') :
    ∀ a, noFillGArg s' a = true → noFillGArg s a = true
  | .lt => fun _ => rfl
  | .ty t => fun h => by
      have := noFillTy_subset s s' hs t (by simpa [noFillGArg] using h)
      simpa [noFillGArg] using this

end

/-- The type-path visitor is idempotent. -/
theorem rewriteTy_idem (set : List String) (t : Ty) :
    rewriteTy set (rewriteTy set t).1 = ((rewriteTy set t).1, false) :=
  noFillTy_rewrite set _ (rewriteTy_noFill set t)

/-- If the type is stable for a superset, it is stable for the subset. -/
theorem rewriteTy_subset_stable (s s' : List String) (hs : SubsetC s s') (t : Ty)
    (h : (rewriteTy s' t).2 = false) : rewriteTy s t = (t, false) :=
  noFillTy_rewrite s t (noFillTy_subset s s' hs t (rewriteTy_false_noFill s' t h))

/-- A type that does not use any name of the set is left untouched by the
type-path visitor. -/
theorem rewriteTy_noUses (ch : List String) (t : Ty)
    (h : type_uses_changed_type ch t = false) : rewriteTy ch t = (t, false) :=
  noFillTy_rewrite ch t (noUses_noFill ch t h)

/-! ## Lemmas on `transform_field` -/

theorem innerArgsRewrite_eq :
    ∀ as, innerArgsRewrite as = (as.map substArg, as.any isDirectString) := by
  intro as
  induction as with
  | nil => rfl
  | cons a r ih =>
    cases a with
    | lt => simp [innerArgsRewrite, ih, substArg, isDirectString]
    | ty t =>
      cases t with
      | ref l e => simp [innerArgsRewrite, ih, substArg, isDirectString]
      | path ss =>
        by_cases hs : is_string_type ss
        · simp [innerArgsRewrite, ih, substArg, isDirectString, hs]
        · simp [innerArgsRewrite, ih, substArg, isDirectString, hs]

theorem innerRewriteLast_concat (pre : List Seg) (w : String) (a : PArgs) :
    innerRewriteLast (pre ++ [.mk w a]) =
      (match a with
       | .angle args => (pre ++ [.mk w (.angle (args.map substArg))], args.any isDirectString)
       | _ => (pre ++ [.mk w a], false)) := by
  induction pre with
  | nil => cases a <;> simp [innerRewriteLast, innerArgsRewrite_eq]
  | cons x r ih =>
    obtain ⟨y, t, hr⟩ : ∃ y t, r ++ [Seg.mk w a] = y :: t := by
      cases hq : r ++ [Seg.mk w a] with
      | nil => simp at hq
      | cons u v => exact ⟨u, v, rfl⟩
    rw [show x :: r ++ [Seg.mk w a] = x :: (y :: t) by rw [← hr]; rfl]
    simp only [innerRewriteLast]
    rw [← hr, ih]
    cases a <;> simp

theorem borrowAttrStep_ty (f : FieldDef) (m : Bool) :
    (borrowAttrStep f m).1.ty = f.ty := by
  unfold borrowAttrStep
  split
  · split <;> rfl
  · rfl

theorem borrowAttrStep_of_ref (f : FieldDef) (m : Bool)
    (h : is_reference_type f.ty = true) : borrowAttrStep f m = (f, m) := by
  unfold borrowAttrStep
  split
  · next hc => exact absurd h (by simp [hc.1])
  · rfl

theorem borrowAttrStep_of_no_lt (f : FieldDef) (m : Bool)
    (h : type_contains_lifetime f.ty = false) : borrowAttrStep f m = (f, m) := by
  unfold borrowAttrStep
  split
  · next hc => exact absurd hc.2 (by simp [h])
  · rfl

theorem borrowAttrStep_of_hasBorrow (f : FieldDef) (m : Bool)
    (h : attrsHaveBorrow f.attrs = true) : borrowAttrStep f m = (f, m) := by
  unfold borrowAttrStep
  split
  · simp [h]
  · rfl

theorem borrowAttrStep_attrs (f : FieldDef) (m : Bool) :
    (borrowAttrStep f m).1.attrs = f.attrs ∨
      ((borrowAttrStep f m).1.attrs = f.attrs ++ [.serdeBorrow] ∧
        (borrowAttrStep f m).2 = true) := by
  unfold borrowAttrStep
  split
  · split
    · exact Or.inl rfl
    · exact Or.inr ⟨rfl, rfl⟩
  · exact Or.inl rfl

theorem borrowAttrStep_ensures (f : FieldDef) (m : Bool)
    (h1 : is_reference_type f.ty = false) (h2 : type_contains_lifetime f.ty = true) :
    attrsHaveBorrow (borrowAttrStep f m).1.attrs = true := by
  unfold borrowAttrStep
  split
  · split
    · next hb => exact hb
    · simp [attrsHaveBorrow, Attr.render, strContains, charsContain]
  · next hc =>
    exfalso
    apply hc
    constructor
    · simp [h1]
    · exact h2

theorem attrsHaveBorrow_append_borrow (attrs : List Attr) :
    attrsHaveBorrow (attrs ++ [.serdeBorrow]) = true := by
  simp [attrsHaveBorrow, Attr.render, strContains, charsContain]

theorem borrowAttrStep_idem (f : FieldDef) (m m' : Bool) :
    borrowAttrStep (borrowAttrStep f m).1 m' = ((borrowAttrStep f m).1, m') := by
  by_cases hc : ¬ is_reference_type f.ty = true ∧ type_contains_lifetime f.ty = true
  · by_cases hb : attrsHaveBorrow f.attrs = true
    · rw [borrowAttrStep_of_hasBorrow f m hb]
      exact borrowAttrStep_of_hasBorrow f m' hb
    · have h1 : borrowAttrStep f m = ({ f with attrs := f.attrs ++ [.serdeBorrow] }, true) := by
        unfold borrowAttrStep
        rw [if_pos hc, if_neg hb]
      rw [h1]
      exact borrowAttrStep_of_hasBorrow _ m' (attrsHaveBorrow_append_borrow f.attrs)
  · have h1 : borrowAttrStep f m = (f, m) := by
      unfold borrowAttrStep
      rw [if_neg hc]
    rw [h1]
    unfold borrowAttrStep
    rw [if_neg hc]

theorem transform_field_of_ref (f : FieldDef) (h : is_reference_type f.ty = true) :
    transform_field f = (f, false) := by
  cases hty : f.ty with
  | path segs => rw [hty] at h; simp [is_reference_type] at h
  | ref l e =>
    unfold transform_field
    rw [hty]
    exact borrowAttrStep_of_ref f false (by rw [hty]; rfl)

theorem transform_field_of_string (f : FieldDef) (segs : List Seg)
    (hty : f.ty = .path segs) (h : is_string_type segs = true) :
    transform_field f = ({ f with ty := refStr }, true) := by
  unfold transform_field
  rw [hty]
  simp only [h, if_true]
  exact borrowAttrStep_of_ref _ true rfl

theorem transform_field_of_map (f : FieldDef) (pre : List Seg) (a : PArgs)
    (hty : f.ty = .path (pre ++ [.mk "Map" a])) :
    transform_field f = (f, false) := by
  unfold transform_field
  rw [hty]
  have hs : is_string_type (pre ++ [.mk "Map" a]) = false := by
    rw [is_string_type_concat]; rfl
  simp only [hs, Bool.false_eq_true, if_false, List.getLast?_concat, Seg.ident]
  rfl

theorem transform_field_of_empty (f : FieldDef) (hty : f.ty = .path []) :
    transform_field f = borrowAttrStep f false := by
  unfold transform_field
  rw [hty]
  rfl

theorem transform_field_eq_concat (attrs : List Attr) (pre : List Seg) (w : String)
    (a : PArgs) (hw1 : (w == "String") = false) (hw2 : (w == "Map") = false) :
    transform_field ⟨attrs, .path (pre ++ [.mk w a])⟩ =
      (match a with
       | .angle args =>
           borrowAttrStep ⟨attrs, .path (pre ++ [.mk w (.angle (args.map substArg))])⟩
             (args.any isDirectString)
       | _ => borrowAttrStep ⟨attrs, .path (pre ++ [.mk w a])⟩ false) := by
  unfold transform_field
  have hs : is_string_type (pre ++ [.mk w a]) = false := by
    rw [is_string_type_concat]; exact hw1
  simp only [hs, Bool.false_eq_true, if_false, List.getLast?_concat, Seg.ident, hw2,
    innerRewriteLast_concat]
  cases a <;> rfl

theorem substArg_idem (a : GArg) : substArg (substArg a) = substArg a := by
  cases a with
  | lt => rfl
  | ty t =>
    cases t with
    | ref l e => rfl
    | path ss =>
      by_cases hs : is_string_type ss
      · simp [substArg, hs, refStr]
      · simp [substArg, hs]

theorem substArg_noDirect (a : GArg) : isDirectString (substArg a) = false := by
  cases a with
  | lt => rfl
  | ty t =>
    cases t with
    | ref l e => rfl
    | path ss =>
      by_cases hs : is_string_type ss
      · simp [substArg, hs, refStr, isDirectString]
      · simp [substArg, hs, isDirectString]

theorem tyMeasure_string_ge_one (ss : List Seg) (h : is_string_type ss = true) :
    1 ≤ tyMeasure (.path ss) := by
  simp only [tyMeasure, h, if_true]
  omega

theorem gargMeasure_substArg (a : GArg) : gargMeasure (substArg a) ≤ gargMeasure a := by
  cases a with
  | lt => simp [substArg]
  | ty t =>
    cases t with
    | ref l e => simp [substArg]
    | path ss =>
      by_cases hs : is_string_type ss
      · simp only [substArg, hs, if_true, gargMeasure]
        calc tyMeasure refStr = 1 := by
              simp [refStr, tyMeasure, segsMeasure, segMeasure, pargsMeasure,
                isBareSegs, is_string_type, List.getLast?, Seg.ident, segAcceptsFill]
          _ ≤ tyMeasure (.path ss) := tyMeasure_string_ge_one ss hs
      · simp [substArg, hs]

theorem gargsMeasure_map_substArg (as : List GArg) :
    gargsMeasure (as.map substArg) ≤ gargsMeasure as := by
  induction as with
  | nil => simp [gargsMeasure]
  | cons a r ih =>
    simp only [List.map_cons, gargsMeasure]
    exact Nat.add_le_add (gargMeasure_substArg a) ih

theorem tyMeasure_refStr : tyMeasure refStr = 1 := by
  simp [refStr, tyMeasure, segsMeasure, segMeasure, pargsMeasure, isBareSegs,
    is_string_type, List.getLast?, Seg.ident, segAcceptsFill]

theorem transform_field_measure (f : FieldDef) :
    tyMeasure (transform_field f).1.ty ≤ tyMeasure f.ty := by
  obtain ⟨attrs, ty⟩ := f
  cases ty with
  | ref l e => rw [transform_field_of_ref ⟨attrs, .ref l e⟩ rfl]
  | path segs =>
    rcases List.eq_nil_or_concat segs with hnil | ⟨pre, sg, hps⟩
    · subst hnil
      rw [transform_field_of_empty ⟨attrs, .path []⟩ rfl, borrowAttrStep_ty]
    · rw [List.concat_eq_append] at hps
      subst hps
      obtain ⟨w, a⟩ := sg
      by_cases hw1 : (w == "String") = true
      · rw [transform_field_of_string ⟨attrs, _⟩ _ rfl (by rw [is_string_type_concat]; exact hw1)]
        simp only [tyMeasure_refStr]
        exact tyMeasure_string_ge_one _ (by rw [is_string_type_concat]; exact hw1)
      · by_cases hw2 : (w == "Map") = true
        · have hwm : w = "Map" := by simpa using hw2
          subst hwm
          rw [transform_field_of_map ⟨attrs, _⟩ pre a rfl]
        · rw [transform_field_eq_concat attrs pre w a (by simpa using hw1) (by simpa using hw2)]
          cases a with
          | noArgs => rw [borrowAttrStep_ty]
          | paren => rw [borrowAttrStep_ty]
          | angle args =>
            simp only [borrowAttrStep_ty]
            simp only [tyMeasure, segsMeasure_append, isBareSegs_concat,
              is_string_type_concat, Seg.ident, segsMeasure, segMeasure, pargsMeasure]
            have h1 := gargsMeasure_map_substArg args
            have h2 : segAcceptsFill (Seg.mk w (.angle (args.map substArg)))
                = segAcceptsFill (Seg.mk w (.angle args)) := by
              cases args <;> simp [segAcceptsFill]
            rw [h2]
            omega

theorem transform_field_attrs (f : FieldDef) :
    (transform_field f).1.attrs = f.attrs ∨
      ((transform_field f).1.attrs = f.attrs ++ [.serdeBorrow] ∧
        (transform_field f).2 = true) := by
  obtain ⟨attrs, ty⟩ := f
  cases ty with
  | ref l e => rw [transform_field_of_ref ⟨attrs, .ref l e⟩ rfl]; exact Or.inl rfl
  | path segs =>
    rcases List.eq_nil_or_concat segs with hnil | ⟨pre, sg, hps⟩
    · subst hnil
      rw [transform_field_of_empty ⟨attrs, .path []⟩ rfl]
      exact borrowAttrStep_attrs _ _
    · rw [List.concat_eq_append] at hps
      subst hps
      obtain ⟨w, a⟩ := sg
      by_cases hw1 : (w == "String") = true
      · rw [transform_field_of_string ⟨attrs, _⟩ _ rfl (by rw [is_string_type_concat]; exact hw1)]
        exact Or.inl rfl
      · by_cases hw2 : (w == "Map") = true
        · have hwm : w = "Map" := by simpa using hw2
          subst hwm
          rw [transform_field_of_map ⟨attrs, _⟩ pre a rfl]
          exact Or.inl rfl
        · rw [transform_field_eq_concat attrs pre w a (by simpa using hw1) (by simpa using hw2)]
          cases a with
          | noArgs => exact borrowAttrStep_attrs _ _
          | paren => exact borrowAttrStep_attrs _ _
          | angle args => exact borrowAttrStep_attrs _ _

theorem fieldDef_eta (g : FieldDef) (t : Ty) (h : g.ty = t) :
    (⟨g.attrs, t⟩ : FieldDef) = g := by
  cases g
  simp_all

theorem isMapPath_concat (pre : List Seg) (s : Seg) :
    isMapPath (.path (pre ++ [s])) = (s.ident == "Map") := by
  simp only [isMapPath]
  rw [List.getLast?_concat]

theorem transform_field_idem (f : FieldDef) :
    transform_field (transform_field f).1 = ((transform_field f).1, false) := by
  obtain ⟨attrs, ty⟩ := f
  cases ty with
  | ref l e =>
    rw [transform_field_of_ref ⟨attrs, .ref l e⟩ rfl]
    exact transform_field_of_ref _ rfl
  | path segs =>
    rcases List.eq_nil_or_concat segs with hnil | ⟨pre, sg, hps⟩
    · subst hnil
      rw [transform_field_of_empty ⟨attrs, .path []⟩ rfl]
      have hty : (borrowAttrStep ⟨attrs, Ty.path []⟩ false).1.ty = .path [] :=
        borrowAttrStep_ty _ _
      rw [transform_field_of_empty _ hty]
      exact borrowAttrStep_idem _ _ _
    · rw [List.concat_eq_append] at hps
      subst hps
      obtain ⟨w, a⟩ := sg
      by_cases hw1 : (w == "String") = true
      · rw [transform_field_of_string ⟨attrs, _⟩ _ rfl (by rw [is_string_type_concat]; exact hw1)]
        exact transform_field_of_ref _ rfl
      · by_cases hw2 : (w == "Map") = true
        · have hwm : w = "Map" := by simpa using hw2
          subst hwm
          rw [transform_field_of_map ⟨attrs, _⟩ pre a rfl]
          exact transform_field_of_map _ pre a rfl
        · have hw1' : (w == "String") = false := by simpa using hw1
          have hw2' : (w == "Map") = false := by simpa using hw2
          rw [transform_field_eq_concat attrs pre w a hw1' hw2']
          cases a with
          | noArgs =>
            simp only
            have hGty := borrowAttrStep_ty ⟨attrs, Ty.path (pre ++ [Seg.mk w .noArgs])⟩ false
            have h3 := transform_field_eq_concat
              (borrowAttrStep ⟨attrs, Ty.path (pre ++ [Seg.mk w .noArgs])⟩ false).1.attrs
              pre w .noArgs hw1' hw2'
            simp only at h3
            rw [fieldDef_eta _ _ hGty] at h3
            rw [h3]
            exact borrowAttrStep_idem _ _ _
          | paren =>
            simp only
            have hGty := borrowAttrStep_ty ⟨attrs, Ty.path (pre ++ [Seg.mk w .paren])⟩ false
            have h3 := transform_field_eq_concat
              (borrowAttrStep ⟨attrs, Ty.path (pre ++ [Seg.mk w .paren])⟩ false).1.attrs
              pre w .paren hw1' hw2'
            simp only at h3
            rw [fieldDef_eta _ _ hGty] at h3
            rw [h3]
            exact borrowAttrStep_idem _ _ _
          | angle args =>
            simp only
            have hsub : (args.map substArg).map substArg = args.map substArg := by
              rw [List.map_map]
              apply List.map_congr_left
              intro x _
              exact substArg_idem x
            have hnod : (args.map substArg).any isDirectString = false := by
              rw [List.any_map]
              simp only [List.any_eq_false]
              intro x _
              simpa using substArg_noDirect x
            have hGty := borrowAttrStep_ty
              ⟨attrs, Ty.path (pre ++ [Seg.mk w (.angle (args.map substArg))])⟩
              (args.any isDirectString)
            have h3 := transform_field_eq_concat
              (borrowAttrStep ⟨attrs, Ty.path (pre ++ [Seg.mk w (.angle (args.map substArg))])⟩
                (args.any isDirectString)).1.attrs
              pre w (.angle (args.map substArg)) hw1' hw2'
            simp only [hsub, hnod] at h3
            rw [fieldDef_eta _ _ hGty] at h3
            rw [h3]
            exact borrowAttrStep_idem _ _ _

theorem transform_field_mapPath (f : FieldDef) :
    isMapPath (transform_field f).1.ty = isMapPath f.ty := by
  obtain ⟨attrs, ty⟩ := f
  cases ty with
  | ref l e => rw [transform_field_of_ref ⟨attrs, .ref l e⟩ rfl]
  | path segs =>
    rcases List.eq_nil_or_concat segs with hnil | ⟨pre, sg, hps⟩
    · subst hnil
      rw [transform_field_of_empty ⟨attrs, .path []⟩ rfl, borrowAttrStep_ty]
    · rw [List.concat_eq_append] at hps
      subst hps
      obtain ⟨w, a⟩ := sg
      by_cases hw1 : (w == "String") = true
      · rw [transform_field_of_string ⟨attrs, _⟩ _ rfl (by rw [is_string_type_concat]; exact hw1)]
        rw [isMapPath_concat]
        have hws : w = "String" := by simpa using hw1
        subst hws
        rfl
      · by_cases hw2 : (w == "Map") = true
        · have hwm : w = "Map" := by simpa using hw2
          subst hwm
          rw [transform_field_of_map ⟨attrs, _⟩ pre a rfl]
        · rw [transform_field_eq_concat attrs pre w a (by simpa using hw1) (by simpa using hw2)]
          cases a with
          | noArgs => rw [borrowAttrStep_ty]
          | paren => rw [borrowAttrStep_ty]
          | angle args =>
            simp only [borrowAttrStep_ty]
            rw [isMapPath_concat, isMapPath_concat]
            rfl

theorem transform_field_ensures (f : FieldDef) (hmap : isMapPath f.ty = false)
    (h1 : is_reference_type (transform_field f).1.ty = false)
    (h2 : type_contains_lifetime (transform_field f).1.ty = true) :
    attrsHaveBorrow (transform_field f).1.attrs = true := by
  obtain ⟨attrs, ty⟩ := f
  cases ty with
  | ref l e =>
    rw [transform_field_of_ref ⟨attrs, .ref l e⟩ rfl] at h1
    simp [is_reference_type] at h1
  | path segs =>
    rcases List.eq_nil_or_concat segs with hnil | ⟨pre, sg, hps⟩
    · subst hnil
      rw [transform_field_of_empty ⟨attrs, .path []⟩ rfl] at h1 h2 ⊢
      rw [borrowAttrStep_ty] at h1 h2
      exact borrowAttrStep_ensures _ _ h1 h2
    · rw [List.concat_eq_append] at hps
      subst hps
      obtain ⟨w, a⟩ := sg
      by_cases hw1 : (w == "String") = true
      · rw [transform_field_of_string ⟨attrs, _⟩ _ rfl
          (by rw [is_string_type_concat]; exact hw1)] at h1
        simp [refStr, is_reference_type] at h1
      · by_cases hw2 : (w == "Map") = true
        · exfalso
          have hwm : w = "Map" := by simpa using hw2
          subst hwm
          rw [isMapPath_concat] at hmap
          simp [Seg.ident] at hmap
        · rw [transform_field_eq_concat attrs pre w a (by simpa using hw1)
            (by simpa using hw2)] at h1 h2 ⊢
          cases a with
          | noArgs =>
            rw [borrowAttrStep_ty] at h1 h2
            exact borrowAttrStep_ensures _ _ h1 h2
          | paren =>
            rw [borrowAttrStep_ty] at h1 h2
            exact borrowAttrStep_ensures _ _ h1 h2
          | angle args =>
            simp only [borrowAttrStep_ty] at h1 h2
            exact borrowAttrStep_ensures _ _ h1 h2

/-! ## Item-level lemmas -/

theorem sum_map_le {α : Type} (μ : α → Nat) (g : α → α) (hg : ∀ x, μ (g x) ≤ μ x) :
    ∀ l : List α, ((l.map g).map μ).sum ≤ (l.map μ).sum := by
  intro l
  induction l with
  | nil => simp
  | cons x r ih =>
    simp only [List.map_cons, List.sum_cons]
    exact Nat.add_le_add (hg x) ih

theorem sum_map_flag_le {α : Type} (μ : α → Nat) (g : α → α × Bool)
    (hg : ∀ x, μ (g x).1 + ((g x).2).toNat ≤ μ x) :
    ∀ l : List α,
      ((l.map (fun x => (g x).1)).map μ).sum + (l.any (fun x => (g x).2)).toNat
        ≤ (l.map μ).sum := by
  intro l
  induction l with
  | nil => simp
  | cons x r ih =>
    simp only [List.map_cons, List.sum_cons, List.any_cons]
    have h1 := hg x
    cases hx : (g x).2 <;> cases hr : r.any (fun x => (g x).2) <;>
      simp_all [Bool.toNat] <;> omega

theorem SFields_mapFlag_list (g : FieldDef → FieldDef × Bool) (fs : SFields) :
    ((fs.mapFlag g).1).list = fs.list.map (fun x => (g x).1) ∧
      (fs.mapFlag g).2 = fs.list.any (fun x => (g x).2) := by
  cases fs <;> simp [SFields.mapFlag, listMapFlag_eq, SFields.list]

theorem fieldsMeasure_append (l1 l2 : List FieldDef) :
    fieldsMeasure (l1 ++ l2) = fieldsMeasure l1 + fieldsMeasure l2 := by
  simp [fieldsMeasure]

theorem fieldsMeasure_map_flag_le (g : FieldDef → FieldDef × Bool)
    (hg : ∀ f, tyMeasure (g f).1.ty + ((g f).2).toNat ≤ tyMeasure f.ty)
    (l : List FieldDef) :
    fieldsMeasure (l.map (fun x => (g x).1)) + (l.any (fun x => (g x).2)).toNat
      ≤ fieldsMeasure l := by
  simpa [fieldsMeasure, List.map_map, Function.comp] using
    sum_map_flag_le (fun f => tyMeasure f.ty) g hg l

theorem fieldsMeasure_map_le (g : FieldDef → FieldDef)
    (hg : ∀ f, tyMeasure (g f).ty ≤ tyMeasure f.ty) (l : List FieldDef) :
    fieldsMeasure (l.map g) ≤ fieldsMeasure l := by
  simpa [fieldsMeasure, List.map_map, Function.comp] using
    sum_map_le (fun f => tyMeasure f.ty) g hg l

theorem tfStep_measure_le (ch : List String) (f : FieldDef) :
    tyMeasure ((tfStep ch f).1).ty ≤ tyMeasure f.ty := by
  simp only [tfStep]
  exact transform_field_measure f

theorem enumFieldStep_measure_le (f : FieldDef) :
    tyMeasure ((enumFieldStep f).1).ty ≤ tyMeasure f.ty := by
  simp only [enumFieldStep]
  exact transform_field_measure f

theorem rewriteField_measure (set : List String) (f : FieldDef) :
    tyMeasure ((rewriteField set f).1).ty + ((rewriteField set f).2).toNat
      ≤ tyMeasure f.ty := by
  simp only [rewriteField]
  exact rewriteTy_measure set f.ty

theorem fieldsMeasure_flatten_variants (vs : List Variant) :
    fieldsMeasure ((vs.map (fun v => v.fields.list)).flatten)
      = (vs.map (fun v => fieldsMeasure v.fields.list)).sum := by
  induction vs with
  | nil => simp [fieldsMeasure]
  | cons v r ih => simp [List.flatten_cons, fieldsMeasure_append, ih]

theorem variants_measure_flag_le (g : FieldDef → FieldDef × Bool)
    (hg : ∀ f, tyMeasure (g f).1.ty + ((g f).2).toNat ≤ tyMeasure f.ty)
    (vs : List Variant) :
    fieldsMeasure ((((variantsMapFlag g vs).1).map (fun v => v.fields.list)).flatten)
      + ((variantsMapFlag g vs).2).toNat
      ≤ fieldsMeasure ((vs.map (fun v => v.fields.list)).flatten) := by
  induction vs with
  | nil => simp [variantsMapFlag, fieldsMeasure]
  | cons v r ih =>
    cases hv : v.fields.mapFlag g with
    | mk fs' mv =>
      cases hr : variantsMapFlag g r with
      | mk r' mr =>
        simp only [variantsMapFlag, hv, hr, List.map_cons, List.flatten_cons,
          fieldsMeasure_append]
        obtain ⟨hl, hf⟩ := SFields_mapFlag_list g v.fields
        rw [hv] at hl hf
        simp only at hl hf
        have h1 : fieldsMeasure fs'.list + mv.toNat ≤ fieldsMeasure v.fields.list := by
          rw [hl, hf]
          exact fieldsMeasure_map_flag_le g hg v.fields.list
        rw [hr] at ih
        simp only at ih
        cases mv <;> cases mr <;> simp_all [Bool.toNat] <;> omega

theorem variants_measure_le (g : FieldDef → FieldDef × Bool)
    (hg : ∀ f, tyMeasure (g f).1.ty ≤ tyMeasure f.ty) (vs : List Variant) :
    fieldsMeasure ((((variantsMapFlag g vs).1).map (fun v => v.fields.list)).flatten)
      ≤ fieldsMeasure ((vs.map (fun v => v.fields.list)).flatten) := by
  induction vs with
  | nil => simp [variantsMapFlag, fieldsMeasure]
  | cons v r ih =>
    cases hv : v.fields.mapFlag g with
    | mk fs' mv =>
      cases hr : variantsMapFlag g r with
      | mk r' mr =>
        simp only [variantsMapFlag, hv, hr, List.map_cons, List.flatten_cons,
          fieldsMeasure_append]
        obtain ⟨hl, _⟩ := SFields_mapFlag_list g v.fields
        rw [hv] at hl
        simp only at hl
        have h1 : fieldsMeasure fs'.list ≤ fieldsMeasure v.fields.list := by
          rw [hl]
          exact fieldsMeasure_map_le _ (fun f => hg f) v.fields.list
        rw [hr] at ih
        simp only at ih
        omega

theorem hasLifeA_addLifeA (g : List GenParam) : hasLifeA (addLifeA g) = true := by
  simp [hasLifeA, addLifeA]

theorem hasAnyLife_addLifeA (g : List GenParam) : hasAnyLife (addLifeA g) = true := by
  simp [hasAnyLife, addLifeA]

theorem hasAnyLife_of_hasLifeA (g : List GenParam) (h : hasLifeA g = true) :
    hasAnyLife g = true := by
  simp only [hasLifeA, List.any_eq_true] at h
  obtain ⟨x, hx, he⟩ := h
  have : x = .life "a" := by simpa using he
  subst this
  simp only [hasAnyLife, List.any_eq_true]
  exact ⟨.life "a", hx, rfl⟩

theorem processStruct_measure (ign ch : List String) (sd : StructData) :
    ((if hasLifeA (processStruct ign ch sd).1.generics then 0 else 1) +
      fieldsMeasure (processStruct ign ch sd).1.fields.list)
      + ((processStruct ign ch sd).2.2).toNat
    ≤ (if hasLifeA sd.generics then 0 else 1) + fieldsMeasure sd.fields.list := by
  unfold processStruct
  by_cases he : ¬ ign.contains sd.ident = true ∧ derives_deserialize sd.attrs = true
  · rw [if_pos he]
    cases h1 : sd.fields.mapFlag (tfStep ch) with
    | mk fields1 changedAny =>
      simp only [h1]
      obtain ⟨hl1, _⟩ := SFields_mapFlag_list (tfStep ch) sd.fields
      rw [h1] at hl1
      simp only at hl1
      have hm1 : fieldsMeasure fields1.list ≤ fieldsMeasure sd.fields.list := by
        rw [hl1]
        exact fieldsMeasure_map_le _ (tfStep_measure_le ch) sd.fields.list
      set ch' := if changedAny = true then sd.ident :: ch else ch with hch
      cases h2 : fields1.mapFlag (rewriteField ch') with
      | mk fields2 m2 =>
        simp only [h2]
        obtain ⟨hl2, hf2⟩ := SFields_mapFlag_list (rewriteField ch') fields1
        rw [h2] at hl2 hf2
        simp only at hl2 hf2
        have hm2 : fieldsMeasure fields2.list + m2.toNat ≤ fieldsMeasure fields1.list := by
          rw [hl2, hf2]
          exact fieldsMeasure_map_flag_le _ (rewriteField_measure ch') fields1.list
        clear_value ch'
        clear hch hl1 hl2 hf2 h1 h2
        cases changedAny <;> cases hla : hasLifeA sd.generics <;> cases m2 <;>
          simp only [Bool.toNat_true, Bool.toNat_false] at hm2 <;>
          simp [hla, hasLifeA_addLifeA] <;> omega
  · rw [if_neg he]
    cases h2 : sd.fields.mapFlag (rewriteField ch) with
    | mk fields2 m2 =>
      simp only [h2]
      obtain ⟨hl2, hf2⟩ := SFields_mapFlag_list (rewriteField ch) sd.fields
      rw [h2] at hl2 hf2
      simp only at hl2 hf2
      have hm2 : fieldsMeasure fields2.list + m2.toNat ≤ fieldsMeasure sd.fields.list := by
        rw [hl2, hf2]
        exact fieldsMeasure_map_flag_le _ (rewriteField_measure ch) sd.fields.list
      cases hla : hasLifeA sd.generics <;> cases m2 <;>
        simp only [Bool.toNat_true, Bool.toNat_false] at hm2 <;>
        simp [hla] <;> omega

theorem processEnum_measure (ign ch : List String) (ed : EnumData) :
    ((if hasAnyLife (processEnum ign ch ed).1.generics then 0 else 1) +
      fieldsMeasure ((((processEnum ign ch ed).1.variants).map
        (fun v => v.fields.list)).flatten))
      + ((processEnum ign ch ed).2.2).toNat
    ≤ (if hasAnyLife ed.generics then 0 else 1) +
        fieldsMeasure ((ed.variants.map (fun v => v.fields.list)).flatten) := by
  unfold processEnum
  by_cases he : ¬ derives_deserialize ed.attrs = true ∨ ign.contains ed.ident = true
  · rw [if_pos he]
    cases h2 : variantsMapFlag (rewriteField ch) ed.variants with
    | mk vs2 m2 =>
      simp only [h2]
      have hm2 := variants_measure_flag_le (rewriteField ch) (rewriteField_measure ch)
        ed.variants
      rw [h2] at hm2
      simp only at hm2
      cases hla : hasAnyLife ed.generics <;> cases m2 <;>
        simp only [Bool.toNat_true, Bool.toNat_false] at hm2 <;>
        simp [hla] <;> omega
  · rw [if_neg he]
    cases h1 : variantsMapFlag enumFieldStep ed.variants with
    | mk vs1 req =>
      simp only [h1]
      have hm1 := variants_measure_le enumFieldStep enumFieldStep_measure_le ed.variants
      rw [h1] at hm1
      simp only at hm1
      set ch' := if req = true then ed.ident :: ch else ch with hch
      cases h2 : variantsMapFlag (rewriteField ch') vs1 with
      | mk vs2 m2 =>
        simp only [h2]
        have hm2 := variants_measure_flag_le (rewriteField ch') (rewriteField_measure ch') vs1
        rw [h2] at hm2
        simp only at hm2
        clear_value ch'
        clear hch h1 h2
        cases req <;> cases hla : hasAnyLife ed.generics <;> cases m2 <;>
          simp only [Bool.toNat_true, Bool.toNat_false] at hm2 <;>
          simp [hla, hasAnyLife_addLifeA] <;> omega

theorem processItem_measure (ign ch : List String) (it : Item) :
    itemMeasure (processItem ign ch it).1 + ((processItem ign ch it).2.2).toNat
      ≤ itemMeasure it := by
  cases it with
  | istruct sd =>
    have := processStruct_measure ign ch sd
    simpa [processItem, itemMeasure, Item.hasParam, Item.fieldList] using this
  | ienum ed =>
    have := processEnum_measure ign ch ed
    simpa [processItem, itemMeasure, Item.hasParam, Item.fieldList] using this

theorem processStruct_parts (ign ch : List String) (sd : StructData) :
    (processStruct ign ch sd).1.ident = sd.ident ∧
    (processStruct ign ch sd).1.attrs = sd.attrs ∧
    ((processStruct ign ch sd).1.generics = sd.generics ∨
      ((processStruct ign ch sd).1.generics = addLifeA sd.generics ∧
        hasLifeA sd.generics = false)) ∧
    (ign.contains sd.ident = true → (processStruct ign ch sd).1.generics = sd.generics) ∧
    ((processStruct ign ch sd).2.1 = ch ∨
      ((processStruct ign ch sd).2.1 = sd.ident :: ch ∧
        ign.contains sd.ident = false ∧ derives_deserialize sd.attrs = true)) := by
  unfold processStruct
  by_cases he : ¬ ign.contains sd.ident = true ∧ derives_deserialize sd.attrs = true
  · rw [if_pos he]
    cases h1 : sd.fields.mapFlag (tfStep ch) with
    | mk fields1 changedAny =>
      simp only [h1]
      set ch' := if changedAny = true then sd.ident :: ch else ch with hch
      cases h2 : fields1.mapFlag (rewriteField ch') with
      | mk fields2 m2 =>
        try simp only [h2]
        refine ⟨by trivial, by trivial, ?_, ?_, ?_⟩
        · by_cases hc : changedAny = true ∧ ¬ hasLifeA sd.generics = true
          · right
            refine ⟨?_, by simpa using hc.2⟩
            simp [if_pos hc]
            intro hcon
            exact absurd (hcon hc.1) hc.2
          · left
            simp [if_neg hc]
            intro hca hlf
            exact absurd ⟨hca, by simp [hlf]⟩ hc
        · intro hin
          exact absurd hin he.1
        · rw [hch]
          cases changedAny with
          | false => left; rfl
          | true =>
            right
            refine ⟨by simp, ?_, he.2⟩
            cases hin : ign.contains sd.ident with
            | false => rfl
            | true => exact absurd hin he.1
  · rw [if_neg he]
    cases h2 : sd.fields.mapFlag (rewriteField ch) with
    | mk fields2 m2 =>
      simp only [h2]
      simp

theorem processEnum_parts (ign ch : List String) (ed : EnumData) :
    (processEnum ign ch ed).1.ident = ed.ident ∧
    (processEnum ign ch ed).1.attrs = ed.attrs ∧
    ((processEnum ign ch ed).1.generics = ed.generics ∨
      ((processEnum ign ch ed).1.generics = addLifeA ed.generics ∧
        hasLifeA ed.generics = false)) ∧
    (ign.contains ed.ident = true → (processEnum ign ch ed).1.generics = ed.generics) ∧
    ((processEnum ign ch ed).2.1 = ch ∨
      ((processEnum ign ch ed).2.1 = ed.ident :: ch ∧
        ign.contains ed.ident = false ∧ derives_deserialize ed.attrs = true)) := by
  unfold processEnum
  by_cases he : ¬ derives_deserialize ed.attrs = true ∨ ign.contains ed.ident = true
  · rw [if_pos he]
    cases h2 : variantsMapFlag (rewriteField ch) ed.variants with
    | mk vs2 m2 =>
      simp only [h2]
      simp
  · rw [if_neg he]
    push_neg at he
    obtain ⟨hde, hig⟩ := he
    cases h1 : variantsMapFlag enumFieldStep ed.variants with
    | mk vs1 req =>
      simp only [h1]
      set ch' := if req = true then ed.ident :: ch else ch with hch
      cases h2 : variantsMapFlag (rewriteField ch') vs1 with
      | mk vs2 m2 =>
        try simp only [h2]
        refine ⟨by trivial, by trivial, ?_, ?_, ?_⟩
        · by_cases hc : req = true ∧ ¬ hasAnyLife ed.generics = true
          · right
            constructor
            · simp [if_pos hc]
              intro hcon
              exact absurd (hcon hc.1) hc.2
            · cases hh : hasLifeA ed.generics with
              | false => rfl
              | true => exact absurd (hasAnyLife_of_hasLifeA _ hh) hc.2
          · left
            simp [if_neg hc]
            intro hca hlf
            exact absurd ⟨hca, by simp [hlf]⟩ hc
        · intro hin
          exact absurd hin hig
        · rw [hch]
          cases req with
          | false => left; rfl
          | true =>
            right
            refine ⟨by simp, ?_, hde⟩
            simpa using hig

theorem processItem_rel (ign ch : List String) (it : Item) :
    ItemRel ign it (processItem ign ch it).1 := by
  cases it with
  | istruct sd =>
    obtain ⟨h1, h2, h3, h4, _⟩ := processStruct_parts ign ch sd
    exact ⟨h1, h2.symm, h3, h4⟩
  | ienum ed =>
    obtain ⟨h1, h2, h3, h4, _⟩ := processEnum_parts ign ch ed
    exact ⟨h1, h2.symm, h3, h4⟩

theorem processItem_ch (ign ch : List String) (it : Item) :
    (processItem ign ch it).2.1 = ch ∨
      ((processItem ign ch it).2.1 = it.ident :: ch ∧
        ign.contains it.ident = false) := by
  cases it with
  | istruct sd =>
    obtain ⟨_, _, _, _, h5⟩ := processStruct_parts ign ch sd
    rcases h5 with h | ⟨h, hig, _⟩
    · exact Or.inl h
    · exact Or.inr ⟨h, hig⟩
  | ienum ed =>
    obtain ⟨_, _, _, _, h5⟩ := processEnum_parts ign ch ed
    rcases h5 with h | ⟨h, hig, _⟩
    · exact Or.inl h
    · exact Or.inr ⟨h, hig⟩

theorem ItemRel_hasParam (ign : List String) (a b : Item) (h : ItemRel ign a b)
    (hp : a.hasParam = true) : b.hasParam = true := by
  obtain ⟨_, hkind, hg, _⟩ := h
  cases a with
  | istruct sa =>
    cases b with
    | istruct sb =>
      simp only [Item.hasParam, Item.generics] at *
      rcases hg with h | ⟨h, _⟩
      · rw [h]; exact hp
      · rw [h]; exact hasLifeA_addLifeA _
    | ienum eb => exact absurd hkind (by simp)
  | ienum ea =>
    cases b with
    | istruct sb => exact absurd hkind (by simp)
    | ienum eb =>
      simp only [Item.hasParam, Item.generics] at *
      rcases hg with h | ⟨h, _⟩
      · rw [h]; exact hp
      · rw [h]; exact hasAnyLife_addLifeA _

theorem ItemRel_anyLife (ign : List String) (a b : Item) (h : ItemRel ign a b)
    (hp : hasAnyLife a.generics = true) : hasAnyLife b.generics = true := by
  obtain ⟨_, _, hg, _⟩ := h
  rcases hg with h | ⟨h, _⟩
  · rw [h]; exact hp
  · rw [h]; exact hasAnyLife_addLifeA _

theorem ItemRel_refl (ign : List String) (it : Item) : ItemRel ign it it := by
  refine ⟨rfl, ?_, Or.inl rfl, fun _ => rfl⟩
  cases it <;> simp

theorem ItemRel_trans (ign : List String) (a b c : Item)
    (hab : ItemRel ign a b) (hbc : ItemRel ign b c) : ItemRel ign a c := by
  obtain ⟨hi1, hk1, hg1, hig1⟩ := hab
  obtain ⟨hi2, hk2, hg2, hig2⟩ := hbc
  refine ⟨hi2.trans hi1, ?_, ?_, ?_⟩
  · cases a with
    | istruct sa =>
      cases b with
      | istruct sb =>
        cases c with
        | istruct sc => simp only at hk1 hk2 ⊢; exact hk1.trans hk2
        | ienum ec => exact absurd hk2 (by simp)
      | ienum eb => exact absurd hk1 (by simp)
    | ienum ea =>
      cases b with
      | istruct sb => exact absurd hk1 (by simp)
      | ienum eb =>
        cases c with
        | istruct sc => exact absurd hk2 (by simp)
        | ienum ec => simp only at hk1 hk2 ⊢; exact hk1.trans hk2
  · rcases hg1 with h1 | ⟨h1, hl1⟩
    · rcases hg2 with h2 | ⟨h2, hl2⟩
      · exact Or.inl (by rw [h2, h1])
      · exact Or.inr ⟨by rw [h2, h1], by rw [h1] at hl2; exact hl2⟩
    · rcases hg2 with h2 | ⟨h2, hl2⟩
      · exact Or.inr ⟨by rw [h2, h1], hl1⟩
      · rw [h1] at hl2
        exact absurd (hasLifeA_addLifeA a.generics) (by simp [hl2])
  · intro hin
    have h1 := hig1 hin
    rw [hi1] at hig2
    exact (hig2 hin).trans h1

theorem rewriteField_false (set : List String) (f : FieldDef)
    (h : (rewriteField set f).2 = false) : (rewriteField set f).1 = f := by
  have hf := rewriteTy_false set f.ty
  cases hre : rewriteTy set f.ty with
  | mk t m =>
    rw [hre] at hf
    simp only at hf
    simp only [rewriteField, hre] at h ⊢
    rw [hf h]

theorem SFields_mapFlag_false (g : FieldDef → FieldDef × Bool)
    (hg : ∀ f, (g f).2 = false → (g f).1 = f) :
    ∀ fs : SFields, (fs.mapFlag g).2 = false → (fs.mapFlag g).1 = fs
  | .named fs => fun h => by
      have hl := listMapFlag_false g hg fs
      cases hm : listMapFlag g fs with
      | mk fs' m =>
        rw [hm] at hl
        simp only at hl
        simp only [SFields.mapFlag, hm] at h ⊢
        rw [hl h]
  | .unnamed fs => fun h => by
      have hl := listMapFlag_false g hg fs
      cases hm : listMapFlag g fs with
      | mk fs' m =>
        rw [hm] at hl
        simp only at hl
        simp only [SFields.mapFlag, hm] at h ⊢
        rw [hl h]
  | .unit => fun _ => rfl

theorem variantsMapFlag_false (g : FieldDef → FieldDef × Bool)
    (hg : ∀ f, (g f).2 = false → (g f).1 = f) :
    ∀ vs : List Variant, (variantsMapFlag g vs).2 = false →
      (variantsMapFlag g vs).1 = vs := by
  intro vs
  induction vs with
  | nil => intro _; rfl
  | cons v r ih =>
    intro h
    have hsf := SFields_mapFlag_false g hg v.fields
    cases hm : v.fields.mapFlag g with
    | mk fs' m =>
      rw [hm] at hsf
      simp only at hsf
      cases hr : variantsMapFlag g r with
      | mk r' m' =>
        rw [hr] at ih
        simp only at ih
        simp only [variantsMapFlag, hm, hr] at h ⊢
        rcases Bool.or_eq_false_iff.mp h with ⟨h1, h2⟩
        rw [hsf h1, ih h2]

theorem rewriteAll_false (set : List String) (it : Item)
    (h : (it.rewriteAll set).2 = false) : (it.rewriteAll set).1 = it := by
  cases it with
  | istruct sd =>
    have hsf := SFields_mapFlag_false (rewriteField set) (rewriteField_false set) sd.fields
    cases hm : sd.fields.mapFlag (rewriteField set) with
    | mk fs m =>
      rw [hm] at hsf
      simp only at hsf
      simp only [Item.rewriteAll, hm] at h ⊢
      rw [hsf h]
  | ienum ed =>
    have hvf := variantsMapFlag_false (rewriteField set) (rewriteField_false set) ed.variants
    cases hm : variantsMapFlag (rewriteField set) ed.variants with
    | mk vs m =>
      rw [hm] at hvf
      simp only at hvf
      simp only [Item.rewriteAll, hm] at h ⊢
      rw [hvf h]

theorem rewriteAll_ident (set : List String) (it : Item) :
    ((it.rewriteAll set).1).ident = it.ident := by
  cases it with
  | istruct sd =>
    cases hm : sd.fields.mapFlag (rewriteField set) with
    | mk fs m => simp [Item.rewriteAll, hm, Item.ident]
  | ienum ed =>
    cases hm : variantsMapFlag (rewriteField set) ed.variants with
    | mk vs m => simp [Item.rewriteAll, hm, Item.ident]

theorem rewriteAll_generics (set : List String) (it : Item) :
    ((it.rewriteAll set).1).generics = it.generics := by
  cases it with
  | istruct sd =>
    cases hm : sd.fields.mapFlag (rewriteField set) with
    | mk fs m => simp [Item.rewriteAll, hm, Item.generics]
  | ienum ed =>
    cases hm : variantsMapFlag (rewriteField set) ed.variants with
    | mk vs m => simp [Item.rewriteAll, hm, Item.generics]

theorem rewriteAll_rel (ign set : List String) (it : Item) :
    ItemRel ign it ((it.rewriteAll set).1) := by
  refine ⟨rewriteAll_ident set it, ?_, Or.inl (rewriteAll_generics set it),
    fun _ => rewriteAll_generics set it⟩
  cases it with
  | istruct sd =>
    cases hm : sd.fields.mapFlag (rewriteField set) with
    | mk fs m => simp [Item.rewriteAll, hm]
  | ienum ed =>
    cases hm : variantsMapFlag (rewriteField set) ed.variants with
    | mk vs m => simp [Item.rewriteAll, hm]

theorem rewriteAll_measure (set : List String) (it : Item) :
    itemMeasure ((it.rewriteAll set).1) + ((it.rewriteAll set).2).toNat
      ≤ itemMeasure it := by
  cases it with
  | istruct sd =>
    obtain ⟨hl, hf⟩ := SFields_mapFlag_list (rewriteField set) sd.fields
    cases hm : sd.fields.mapFlag (rewriteField set) with
    | mk fs m =>
      rw [hm] at hl hf
      simp only at hl hf
      simp only [Item.rewriteAll, hm, itemMeasure, Item.hasParam, Item.fieldList]
      have := fieldsMeasure_map_flag_le (rewriteField set)
        (rewriteField_measure set) sd.fields.list
      rw [← hl, ← hf] at this
      omega
  | ienum ed =>
    cases hm : variantsMapFlag (rewriteField set) ed.variants with
    | mk vs m =>
      have := variants_measure_flag_le (rewriteField set)
        (rewriteField_measure set) ed.variants
      rw [hm] at this
      simp only at this
      simp only [Item.rewriteAll, hm, itemMeasure, Item.hasParam, Item.fieldList]
      omega

theorem lusage_false (set : List String) :
    ∀ items, (lusagePass set items).2 = false → (lusagePass set items).1 = items := by
  intro items
  induction items with
  | nil => intro _; rfl
  | cons it r ih =>
    intro h
    have hra := rewriteAll_false set it
    cases hm : it.rewriteAll set with
    | mk it' m =>
      rw [hm] at hra
      simp only at hra
      cases hr : lusagePass set r with
      | mk r' m' =>
        rw [hr] at ih
        simp only at ih
        simp only [lusagePass, hm, hr] at h ⊢
        rcases Bool.or_eq_false_iff.mp h with ⟨h1, h2⟩
        rw [hra h1, ih h2]

theorem lusage_rel (ign set : List String) :
    ∀ items, List.Forall₂ (ItemRel ign) items ((lusagePass set items).1) := by
  intro items
  induction items with
  | nil => exact List.Forall₂.nil
  | cons it r ih =>
    have hra := rewriteAll_rel ign set it
    cases hm : it.rewriteAll set with
    | mk it' m =>
      rw [hm] at hra
      simp only at hra
      cases hr : lusagePass set r with
      | mk r' m' =>
        rw [hr] at ih
        simp only at ih
        simp only [lusagePass, hm, hr]
        exact List.Forall₂.cons hra ih

theorem lusage_measure (set : List String) :
    ∀ items, fileMeasure ((lusagePass set items).1) + ((lusagePass set items).2).toNat
      ≤ fileMeasure items := by
  intro items
  induction items with
  | nil => simp [lusagePass, fileMeasure]
  | cons it r ih =>
    have hra := rewriteAll_measure set it
    cases hm : it.rewriteAll set with
    | mk it' m =>
      rw [hm] at hra
      simp only at hra
      cases hr : lusagePass set r with
      | mk r' m' =>
        rw [hr] at ih
        simp only at ih
        simp only [lusagePass, hm, hr, fileMeasure, List.map_cons, List.sum_cons]
        simp only [fileMeasure] at ih
        cases m <;> cases m' <;> simp_all <;> omega

theorem lusage_collect (set : List String) :
    ∀ items, collect_lifetime_types ((lusagePass set items).1)
      = collect_lifetime_types items := by
  intro items
  induction items with
  | nil => rfl
  | cons it r ih =>
    have hid := rewriteAll_ident set it
    have hgen := rewriteAll_generics set it
    cases hm : it.rewriteAll set with
    | mk it' m =>
      rw [hm] at hid hgen
      simp only at hid hgen
      cases hr : lusagePass set r with
      | mk r' m' =>
        rw [hr] at ih
        simp only at ih
        simp only [lusagePass, hm, hr]
        simp only [collect_lifetime_types, List.filterMap_cons] at ih ⊢
        rw [hid, hgen, ih]

theorem phase1_measure (ign : List String) :
    ∀ (items : List Item) (ch : List String),
      fileMeasure ((phase1 ign items ch).1) + ((phase1 ign items ch).2.2).toNat
        ≤ fileMeasure items := by
  intro items
  induction items with
  | nil => intro ch; simp [phase1, fileMeasure]
  | cons it r ih =>
    intro ch
    have hpi := processItem_measure ign ch it
    cases hm : processItem ign ch it with
    | mk it' p =>
      obtain ⟨ch', m⟩ := p
      rw [hm] at hpi
      simp only at hpi
      have ihr := ih ch'
      cases hr : phase1 ign r ch' with
      | mk r' q =>
        obtain ⟨ch'', m'⟩ := q
        rw [hr] at ihr
        simp only at ihr
        simp only [phase1, hm, hr, fileMeasure, List.map_cons, List.sum_cons]
        simp only [fileMeasure] at ihr
        cases m <;> cases m' <;> simp_all <;> omega

theorem phase1_rel (ign : List String) :
    ∀ (items : List Item) (ch : List String),
      List.Forall₂ (ItemRel ign) items ((phase1 ign items ch).1) := by
  intro items
  induction items with
  | nil => intro ch; exact List.Forall₂.nil
  | cons it r ih =>
    intro ch
    have hpi := processItem_rel ign ch it
    cases hm : processItem ign ch it with
    | mk it' p =>
      obtain ⟨ch', m⟩ := p
      rw [hm] at hpi
      simp only at hpi
      have ihr := ih ch'
      cases hr : phase1 ign r ch' with
      | mk r' q =>
        obtain ⟨ch'', m'⟩ := q
        rw [hr] at ihr
        simp only at ihr
        simp only [phase1, hm, hr]
        exact List.Forall₂.cons hpi ihr

theorem phase1_ch_mono (ign : List String) :
    ∀ (items : List Item) (ch : List String) (x : String),
      ch.contains x = true → ((phase1 ign items ch).2.1).contains x = true := by
  intro items
  induction items with
  | nil => intro ch x h; simpa [phase1] using h
  | cons it r ih =>
    intro ch x h
    have hci := processItem_ch ign ch it
    cases hm : processItem ign ch it with
    | mk it' p =>
      obtain ⟨ch', m⟩ := p
      rw [hm] at hci
      simp only at hci
      have hx : ch'.contains x = true := by
        rcases hci with hc | ⟨hc, _⟩
        · rw [hc]; exact h
        · rw [hc]
          simp only [List.contains_cons, Bool.or_eq_true]
          exact Or.inr h
      have := ih ch' x hx
      cases hr : phase1 ign r ch' with
      | mk r' q =>
        obtain ⟨ch'', m'⟩ := q
        rw [hr] at this
        simp only at this
        simp only [phase1, hm, hr]
        exact this

theorem phase1_ch_mem (ign : List String) :
    ∀ (items : List Item) (ch : List String) (x : String),
      ((phase1 ign items ch).2.1).contains x = true →
      ch.contains x = true ∨
        ∃ it ∈ items, x = it.ident ∧ ign.contains it.ident = false := by
  intro items
  induction items with
  | nil =>
    intro ch x h
    exact Or.inl (by simpa [phase1] using h)
  | cons it r ih =>
    intro ch x h
    have hci := processItem_ch ign ch it
    cases hm : processItem ign ch it with
    | mk it' p =>
      obtain ⟨ch', m⟩ := p
      rw [hm] at hci
      simp only at hci
      cases hr : phase1 ign r ch' with
      | mk r' q =>
        obtain ⟨ch'', m'⟩ := q
        simp only [phase1, hm, hr] at h
        have ihr := ih ch' x
        rw [hr] at ihr
        simp only at ihr
        rcases ihr h with hc | ⟨it0, hmem, hx, hig⟩
        · rcases hci with hcc | ⟨hcc, hig⟩
          · rw [hcc] at hc
            exact Or.inl hc
          · rw [hcc] at hc
            simp only [List.contains_cons, Bool.or_eq_true] at hc
            rcases hc with hc | hc
            · right
              refine ⟨it, List.mem_cons_self _ _, ?_, hig⟩
              exact eq_of_beq hc
            · exact Or.inl hc
        · exact Or.inr ⟨it0, List.mem_cons_of_mem _ hmem, hx, hig⟩

theorem forallRel_trans (ign : List String) :
    ∀ a b c : List Item, List.Forall₂ (ItemRel ign) a b →
      List.Forall₂ (ItemRel ign) b c → List.Forall₂ (ItemRel ign) a c := by
  intro a
  induction a with
  | nil =>
    intro b c hab hbc
    cases hab
    cases hbc
    exact List.Forall₂.nil
  | cons x r ih =>
    intro b c hab hbc
    cases hab with
    | cons hxy hr =>
      cases hbc with
      | cons hyz hs =>
        exact List.Forall₂.cons (ItemRel_trans ign _ _ _ hxy hyz) (ih _ _ hr hs)

theorem passOnce_measure (ign : List String) (a : List Item) :
    fileMeasure ((passOnce ign a).1) + ((passOnce ign a).2).toNat ≤ fileMeasure a := by
  have h1 := phase1_measure ign a []
  cases hp : phase1 ign a [] with
  | mk its1 q =>
    obtain ⟨ch1, m1⟩ := q
    rw [hp] at h1
    simp only at h1
    have h2 := lusage_measure (collect_lifetime_types its1) its1
    cases hl : lusagePass (collect_lifetime_types its1) its1 with
    | mk its2 m2 =>
      rw [hl] at h2
      simp only at h2
      simp only [passOnce, hp, hl]
      cases m1 <;> cases m2 <;> simp_all <;> omega

theorem passOnce_rel (ign : List String) (a : List Item) :
    List.Forall₂ (ItemRel ign) a ((passOnce ign a).1) := by
  have h1 := phase1_rel ign a []
  cases hp : phase1 ign a [] with
  | mk its1 q =>
    obtain ⟨ch1, m1⟩ := q
    rw [hp] at h1
    simp only at h1
    have h2 := lusage_rel ign (collect_lifetime_types its1) its1
    cases hl : lusagePass (collect_lifetime_types its1) its1 with
    | mk its2 m2 =>
      rw [hl] at h2
      simp only at h2
      simp only [passOnce, hp, hl]
      exact forallRel_trans ign _ _ _ h1 h2

theorem transformAstFuel_rel (ign : List String) :
    ∀ (n : Nat) (a : List Item),
      List.Forall₂ (ItemRel ign) a (transformAstFuel ign n a) := by
  intro n
  induction n with
  | zero =>
    intro a
    exact (List.forall₂_same).mpr (fun x _ => ItemRel_refl ign x)
  | succ k ih =>
    intro a
    have hpr := passOnce_rel ign a
    cases hp : passOnce ign a with
    | mk a' m =>
      rw [hp] at hpr
      simp only at hpr
      simp only [transformAstFuel, hp]
      cases m with
      | false =>
        simp only [if_neg (by simp : ¬ (false = true))]
        exact hpr
      | true =>
        simp only [if_pos rfl]
        exact forallRel_trans ign _ _ _ hpr (ih a')

theorem transform_ast_rel (ign : List String) (a : List Item) :
    List.Forall₂ (ItemRel ign) a (transform_ast ign a) :=
  transformAstFuel_rel ign (fileMeasure a + 1) a

theorem passOnce_fix (ign : List String) :
    ∀ (n : Nat) (a : List Item), fileMeasure a ≤ n →
      ∃ k, k ≤ fileMeasure a ∧ (passOnce ign (iterPass ign k a)).2 = false := by
  intro n
  induction n with
  | zero =>
    intro a ha
    refine ⟨0, Nat.zero_le _, ?_⟩
    have := passOnce_measure ign a
    cases hm : (passOnce ign a).2 with
    | false => simpa [iterPass] using hm
    | true =>
      rw [hm] at this
      simp at this
      omega
  | succ nn ih =>
    intro a ha
    cases hm : (passOnce ign a).2 with
    | false =>
      exact ⟨0, Nat.zero_le _, by simpa [iterPass] using hm⟩
    | true =>
      have hdec := passOnce_measure ign a
      rw [hm] at hdec
      simp only [Bool.toNat_true] at hdec
      have hle : fileMeasure ((passOnce ign a).1) ≤ nn := by omega
      obtain ⟨k, hk, hfix⟩ := ih ((passOnce ign a).1) hle
      refine ⟨k + 1, by omega, ?_⟩
      simpa [iterPass] using hfix

theorem transformAstFuel_spec (ign : List String) :
    ∀ (n : Nat) (a : List Item), fileMeasure a < n →
      ∃ x, passOnce ign x = (transformAstFuel ign n a, false) := by
  intro n
  induction n with
  | zero => intro a ha; omega
  | succ nn ih =>
    intro a ha
    cases hp : passOnce ign a with
    | mk a' m =>
      cases m with
      | false =>
        refine ⟨a, ?_⟩
        rw [hp]
        simp [transformAstFuel, hp]
      | true =>
        have hdec := passOnce_measure ign a
        rw [hp] at hdec
        simp only [Bool.toNat_true] at hdec
        have hlt : fileMeasure a' < nn := by omega
        obtain ⟨x, hx⟩ := ih a' hlt
        refine ⟨x, ?_⟩
        rw [hx]
        simp [transformAstFuel, hp]

theorem transform_ast_fix (ign : List String) (a : List Item) :
    ∃ x, passOnce ign x = (transform_ast ign a, false) :=
  transformAstFuel_spec ign (fileMeasure a + 1) a (Nat.lt_succ_of_le (Nat.le_refl _))

theorem transformAstFuel_of_fix (ign : List String) (a : List Item)
    (h : passOnce ign a = (a, false)) (n : Nat) :
    transformAstFuel ign (n + 1) a = a := by
  simp [transformAstFuel, h]

mutual

theorem usesChanged_mono (s s' : List String) (hs : SubsetC s s') :
    ∀ t, type_uses_changed_type s t = true → type_uses_changed_type s' t = true
  | .ref l e => fun h => by
      have := usesChanged_mono s s' hs e (by simpa [type_uses_changed_type] using h)
      simpa [type_uses_changed_type] using this
  | .path segs => fun h => by
      have := segsUse_mono s s' hs segs (by simpa [type_uses_changed_type] using h)
      simpa [type_uses_changed_type] using this

theorem segsUse_mono (s s' : List String) (hs : SubsetC s s') :
    ∀ segs, segsUseChangedType s segs = true → segsUseChangedType s' segs = true
  | [] => fun h => by simp [segsUseChangedType] at h
  | sg :: r => fun h => by
      simp only [segsUseChangedType, Bool.or_eq_true] at h ⊢
      rcases h with h | h
      · exact Or.inl (segUse_mono s s' hs sg h)
      · exact Or.inr (segsUse_mono s s' hs r h)

theorem segUse_mono (s s' : List String) (hs : SubsetC s s') :
    ∀ sg, segUsesChangedType s sg = true → segUsesChangedType s' sg = true
  | .mk i a => fun h => by
      simp only [segUsesChangedType, Bool.or_eq_true] at h ⊢
      rcases h with h | h
      · exact Or.inl (hs _ h)
      · exact Or.inr (pargsUse_mono s s' hs a h)

theorem pargsUse_mono (s s' : List String) (hs : SubsetC s s') :
    ∀ a, pargsUseChangedType s a = true → pargsUseChangedType s' a = true
  | .noArgs => fun h => by simp [pargsUseChangedType] at h
  | .paren => fun h => by simp [pargsUseChangedType] at h
  | .angle as => fun h => by
      have := gargsUse_mono s s' hs as (by simpa [pargsUseChangedType] using h)
      simpa [pargsUseChangedType] using this

theorem gargsUse_mono (s s' : List String) (hs : SubsetC s s') :
    ∀ as, gargsUseChangedType s as = true → gargsUseChangedType s' as = true
  | [] => fun h => by simp [gargsUseChangedType] at h
  | a :: r => fun h => by
      simp only [gargsUseChangedType, Bool.or_eq_true] at h ⊢
      rcases h with h | h
      · exact Or.inl (gargUse_mono s s' hs a h)
      · exact Or.inr (gargsUse_mono s s' hs r h)

theorem gargUse_mono (s s' : List String) (hs : SubsetC s s') :
    ∀ a, gargUsesChangedType s a = true → gargUsesChangedType s' a = true
  | .lt => fun h => by simp [gargUsesChangedType] at h
  | .ty t => fun h => by
      have := usesChanged_mono s s' hs t (by simpa [gargUsesChangedType] using h)
      simpa [gargUsesChangedType] using this

end

theorem tfStep_fst (ch : List String) (f : FieldDef) :
    (tfStep ch f).1 = (transform_field f).1 := by
  cases h : transform_field f with
  | mk f' m => simp [tfStep, h]

theorem tfStep_snd (ch : List String) (f : FieldDef) :
    (tfStep ch f).2
      = ((transform_field f).2 || type_uses_changed_type ch ((transform_field f).1).ty) := by
  cases h : transform_field f with
  | mk f' m => simp [tfStep, h]

theorem enumFieldStep_fst (f : FieldDef) :
    (enumFieldStep f).1 = (transform_field f).1 := by
  cases h : transform_field f with
  | mk f' m => simp [enumFieldStep, h]

theorem enumFieldStep_snd (f : FieldDef) :
    (enumFieldStep f).2
      = ((transform_field f).2 ||
          (!(is_reference_type ((transform_field f).1).ty)
            && type_contains_lifetime ((transform_field f).1).ty)) := by
  cases h : transform_field f with
  | mk f' m => simp [enumFieldStep, h]

theorem SFields_mapFlag_id (g : FieldDef → FieldDef × Bool) (fs : SFields)
    (h : ∀ f ∈ fs.list, g f = (f, false)) : fs.mapFlag g = (fs, false) := by
  cases fs with
  | named l =>
    simp only [SFields.mapFlag, listMapFlag_eq, Prod.mk.injEq]
    constructor
    · have h1 : l.map (fun x => (g x).1) = l.map id :=
        List.map_congr_left (fun f hf => by
          rw [h f (by simpa [SFields.list] using hf)]; rfl)
      rw [h1, List.map_id]
    · rw [List.any_eq_false]
      intro f hf
      rw [h f (by simpa [SFields.list] using hf)]
      simp
  | unnamed l =>
    simp only [SFields.mapFlag, listMapFlag_eq, Prod.mk.injEq]
    constructor
    · have h1 : l.map (fun x => (g x).1) = l.map id :=
        List.map_congr_left (fun f hf => by
          rw [h f (by simpa [SFields.list] using hf)]; rfl)
      rw [h1, List.map_id]
    · rw [List.any_eq_false]
      intro f hf
      rw [h f (by simpa [SFields.list] using hf)]
      simp
  | unit => rfl

theorem SFields_mapFlag_fst_id (g : FieldDef → FieldDef × Bool) (fs : SFields)
    (h : ∀ f ∈ fs.list, (g f).1 = f) : (fs.mapFlag g).1 = fs := by
  cases fs with
  | named l =>
    simp only [SFields.mapFlag, listMapFlag_eq]
    have h1 : l.map (fun x => (g x).1) = l.map id :=
      List.map_congr_left (fun f hf => h f (by simpa [SFields.list] using hf))
    rw [h1, List.map_id]
  | unnamed l =>
    simp only [SFields.mapFlag, listMapFlag_eq]
    have h1 : l.map (fun x => (g x).1) = l.map id :=
      List.map_congr_left (fun f hf => h f (by simpa [SFields.list] using hf))
    rw [h1, List.map_id]
  | unit => rfl

theorem variantsMapFlag_id (g : FieldDef → FieldDef × Bool) (vs : List Variant)
    (h : ∀ v ∈ vs, ∀ f ∈ v.fields.list, g f = (f, false)) :
    variantsMapFlag g vs = (vs, false) := by
  rw [variantsMapFlag_eq]
  simp only [Prod.mk.injEq]
  constructor
  · have h1 : vs.map (fun v => (⟨(v.fields.mapFlag g).1⟩ : Variant)) = vs.map id :=
      List.map_congr_left (fun v hv => by
        rw [SFields_mapFlag_id g v.fields (h v hv)]; rfl)
    rw [h1, List.map_id]
  · rw [List.any_eq_false]
    intro v hv
    rw [SFields_mapFlag_id g v.fields (h v hv)]
    simp

theorem rewriteField_stable (s s' : List String) (hsub : SubsetC s s') (f : FieldDef)
    (h : (rewriteField s' f).2 = false) : rewriteField s f = (f, false) := by
  have hflag : (rewriteTy s' f.ty).2 = false := by
    cases hre : rewriteTy s' f.ty with
    | mk t m =>
      simp only [rewriteField, hre] at h
      exact h
  have hst := rewriteTy_subset_stable s s' hsub f.ty hflag
  simp only [rewriteField, hst]

theorem SFields_rw_stable (s s' : List String) (hsub : SubsetC s s') (fs : SFields)
    (h : (fs.mapFlag (rewriteField s')).2 = false) :
    fs.mapFlag (rewriteField s) = (fs, false) := by
  apply SFields_mapFlag_id
  intro f hf
  apply rewriteField_stable s s' hsub f
  have hany : fs.list.any (fun x => (rewriteField s' x).2) = false := by
    rw [← (SFields_mapFlag_list (rewriteField s') fs).2]
    exact h
  have := List.any_eq_false.mp hany f hf
  simpa using this

theorem variants_rw_stable (s s' : List String) (hsub : SubsetC s s') (vs : List Variant)
    (h : (variantsMapFlag (rewriteField s') vs).2 = false) :
    variantsMapFlag (rewriteField s) vs = (vs, false) := by
  apply variantsMapFlag_id
  intro v hv f hf
  apply rewriteField_stable s s' hsub f
  rw [variantsMapFlag_eq] at h
  simp only at h
  have hv2 := List.any_eq_false.mp h v hv
  have hany : v.fields.list.any (fun x => (rewriteField s' x).2) = false := by
    rw [← (SFields_mapFlag_list (rewriteField s') v.fields).2]
    simpa using hv2
  have := List.any_eq_false.mp hany f hf
  simpa using this

theorem variantsMapFlag_fst_id (g : FieldDef → FieldDef × Bool) (vs : List Variant)
    (h : ∀ v ∈ vs, ∀ f ∈ v.fields.list, (g f).1 = f) :
    (variantsMapFlag g vs).1 = vs := by
  rw [variantsMapFlag_eq]
  simp only
  have h1 : vs.map (fun v => (⟨(v.fields.mapFlag g).1⟩ : Variant)) = vs.map id :=
    List.map_congr_left (fun v hv => by
      rw [SFields_mapFlag_fst_id g v.fields (h v hv)]; rfl)
  rw [h1, List.map_id]

theorem tf_second_fst (chs : List String) (fsx : SFields) (chx : List String) :
    ((fsx.mapFlag (tfStep chx)).1.mapFlag (tfStep chs)).1
      = (fsx.mapFlag (tfStep chx)).1 := by
  apply SFields_mapFlag_fst_id
  intro f1 hf1
  have hl := (SFields_mapFlag_list (tfStep chx) fsx).1
  rw [hl] at hf1
  obtain ⟨f, hf, hfe⟩ := List.mem_map.mp hf1
  rw [tfStep_fst, ← hfe, tfStep_fst chx f, transform_field_idem f]

theorem tf_second_flag (chs chx : List String) (hsub : SubsetC chs chx) (fsx : SFields)
    (h : ((fsx.mapFlag (tfStep chx)).1.mapFlag (tfStep chs)).2 = true) :
    (fsx.mapFlag (tfStep chx)).2 = true := by
  have hl := (SFields_mapFlag_list (tfStep chx) fsx).1
  have hf2 := (SFields_mapFlag_list (tfStep chs) ((fsx.mapFlag (tfStep chx)).1)).2
  rw [hf2, hl, List.any_map] at h
  rw [(SFields_mapFlag_list (tfStep chx) fsx).2]
  rw [List.any_eq_true] at h ⊢
  obtain ⟨f, hf, hp⟩ := h
  refine ⟨f, hf, ?_⟩
  have hp2 : (tfStep chs ((tfStep chx f).1)).2 = true := hp
  rw [tfStep_fst chx f, tfStep_snd chs, transform_field_idem f] at hp2
  simp only at hp2
  rw [Bool.false_or] at hp2
  have := usesChanged_mono chs chx hsub _ hp2
  rw [tfStep_snd chx]
  simp [this]

theorem ef_second_fst (vsx : List Variant) :
    (variantsMapFlag enumFieldStep (variantsMapFlag enumFieldStep vsx).1).1
      = (variantsMapFlag enumFieldStep vsx).1 := by
  apply variantsMapFlag_fst_id
  intro v1 hv1 f1 hf1
  rw [variantsMapFlag_eq] at hv1
  simp only at hv1
  obtain ⟨v, hv, hve⟩ := List.mem_map.mp hv1
  rw [← hve] at hf1
  simp only at hf1
  have hl := (SFields_mapFlag_list enumFieldStep v.fields).1
  rw [hl] at hf1
  obtain ⟨f, hf, hfe⟩ := List.mem_map.mp hf1
  rw [enumFieldStep_fst, ← hfe, enumFieldStep_fst f, transform_field_idem f]

theorem ef_second_flag_fields (fsx : SFields)
    (h : ((fsx.mapFlag enumFieldStep).1.mapFlag enumFieldStep).2 = true) :
    (fsx.mapFlag enumFieldStep).2 = true := by
  have hl := (SFields_mapFlag_list enumFieldStep fsx).1
  have hf2 := (SFields_mapFlag_list enumFieldStep ((fsx.mapFlag enumFieldStep).1)).2
  rw [hf2, hl, List.any_map] at h
  rw [(SFields_mapFlag_list enumFieldStep fsx).2]
  rw [List.any_eq_true] at h ⊢
  obtain ⟨f, hf, hp⟩ := h
  refine ⟨f, hf, ?_⟩
  have hp2 : (enumFieldStep ((enumFieldStep f).1)).2 = true := hp
  rw [enumFieldStep_fst f, enumFieldStep_snd, transform_field_idem f] at hp2
  simp only at hp2
  rw [Bool.false_or] at hp2
  rw [enumFieldStep_snd]
  simp [hp2]

theorem ef_second_flag (vsx : List Variant)
    (h : (variantsMapFlag enumFieldStep (variantsMapFlag enumFieldStep vsx).1).2 = true) :
    (variantsMapFlag enumFieldStep vsx).2 = true := by
  have hW : (variantsMapFlag enumFieldStep vsx).1
      = vsx.map (fun v => (⟨(v.fields.mapFlag enumFieldStep).1⟩ : Variant)) := by
    rw [variantsMapFlag_eq]
  have h2 := congrArg Prod.snd
    (variantsMapFlag_eq enumFieldStep ((variantsMapFlag enumFieldStep vsx).1))
  simp only at h2
  rw [h2, hW, List.any_map] at h
  rw [List.any_eq_true] at h
  obtain ⟨v, hv, hp⟩ := h
  have hp2 : (((⟨(v.fields.mapFlag enumFieldStep).1⟩ : Variant)).fields.mapFlag
      enumFieldStep).2 = true := hp
  simp only at hp2
  rw [variantsMapFlag_eq]
  simp only
  rw [List.any_eq_true]
  exact ⟨v, hv, ef_second_flag_fields v.fields hp2⟩

theorem processStruct_elig (ign ch : List String) (sd : StructData)
    (he : ¬ ign.contains sd.ident = true ∧ derives_deserialize sd.attrs = true) :
    processStruct ign ch sd =
      ({ sd with
          generics :=
            if (sd.fields.mapFlag (tfStep ch)).2 = true ∧ ¬ hasLifeA sd.generics = true
              then addLifeA sd.generics else sd.generics,
          fields := ((sd.fields.mapFlag (tfStep ch)).1.mapFlag
            (rewriteField
              (if (sd.fields.mapFlag (tfStep ch)).2 = true then sd.ident :: ch else ch))).1 },
       (if (sd.fields.mapFlag (tfStep ch)).2 = true then sd.ident :: ch else ch),
       (decide ((sd.fields.mapFlag (tfStep ch)).2 = true ∧ ¬ hasLifeA sd.generics = true)
         || ((sd.fields.mapFlag (tfStep ch)).1.mapFlag
            (rewriteField
              (if (sd.fields.mapFlag (tfStep ch)).2 = true then sd.ident :: ch
               else ch))).2)) := by
  unfold processStruct
  rw [if_pos he]

theorem processStruct_inelig (ign ch : List String) (sd : StructData)
    (he : ¬ (¬ ign.contains sd.ident = true ∧ derives_deserialize sd.attrs = true)) :
    processStruct ign ch sd =
      ({ sd with fields := (sd.fields.mapFlag (rewriteField ch)).1 },
       ch, (sd.fields.mapFlag (rewriteField ch)).2) := by
  unfold processStruct
  rw [if_neg he]

theorem processEnum_elig (ign ch : List String) (ed : EnumData)
    (he : ¬ (¬ derives_deserialize ed.attrs = true ∨ ign.contains ed.ident = true)) :
    processEnum ign ch ed =
      ({ ed with
          generics :=
            if (variantsMapFlag enumFieldStep ed.variants).2 = true
                ∧ ¬ hasAnyLife ed.generics = true
              then addLifeA ed.generics else ed.generics,
          variants := (variantsMapFlag
            (rewriteField
              (if (variantsMapFlag enumFieldStep ed.variants).2 = true
               then ed.ident :: ch else ch))
            (variantsMapFlag enumFieldStep ed.variants).1).1 },
       (if (variantsMapFlag enumFieldStep ed.variants).2 = true then ed.ident :: ch else ch),
       (decide ((variantsMapFlag enumFieldStep ed.variants).2 = true
           ∧ ¬ hasAnyLife ed.generics = true)
         || (variantsMapFlag
            (rewriteField
              (if (variantsMapFlag enumFieldStep ed.variants).2 = true
               then ed.ident :: ch else ch))
            (variantsMapFlag enumFieldStep ed.variants).1).2)) := by
  unfold processEnum
  rw [if_neg he]

theorem processEnum_inelig (ign ch : List String) (ed : EnumData)
    (he : ¬ derives_deserialize ed.attrs = true ∨ ign.contains ed.ident = true) :
    processEnum ign ch ed =
      ({ ed with variants := (variantsMapFlag (rewriteField ch) ed.variants).1 },
       ch, (variantsMapFlag (rewriteField ch) ed.variants).2) := by
  unfold processEnum
  rw [if_pos he]

theorem SubsetC_cons (a : String) (s s' : List String) (h : SubsetC s s') :
    SubsetC (a :: s) (a :: s') := by
  intro x hx
  simp only [List.contains_cons, Bool.or_eq_true] at hx ⊢
  rcases hx with hx | hx
  · exact Or.inl hx
  · exact Or.inr (h x hx)

theorem SubsetC_cons_right (a : String) (s s' : List String) (h : SubsetC s s') :
    SubsetC s (a :: s') := by
  intro x hx
  simp only [List.contains_cons, Bool.or_eq_true]
  exact Or.inr (h x hx)

theorem SubsetC_refl (s : List String) : SubsetC s s := fun _ h => h

theorem processStruct_stable (ign chx chs : List String) (sd : StructData)
    (hsub : SubsetC chs chx)
    (hm : (processStruct ign chx sd).2.2 = false) :
    ∃ chs1, processStruct ign chs ((processStruct ign chx sd).1)
        = ((processStruct ign chx sd).1, chs1, false)
      ∧ SubsetC chs1 ((processStruct ign chx sd).2.1) := by
  by_cases he : ¬ ign.contains sd.ident = true ∧ derives_deserialize sd.attrs = true
  · have hP := processStruct_elig ign chx sd he
    rw [hP] at hm ⊢
    simp only at hm
    rw [Bool.or_eq_false_iff] at hm
    obtain ⟨hd, hm2⟩ := hm
    have hadd := of_decide_eq_false hd
    have hG :
        (if (sd.fields.mapFlag (tfStep chx)).2 = true ∧ ¬ hasLifeA sd.generics = true
          then addLifeA sd.generics else sd.generics) = sd.generics := if_neg hadd
    have hF21 :
        ((sd.fields.mapFlag (tfStep chx)).1.mapFlag
          (rewriteField
            (if (sd.fields.mapFlag (tfStep chx)).2 = true then sd.ident :: chx
             else chx))).1 = (sd.fields.mapFlag (tfStep chx)).1 :=
      SFields_mapFlag_false _ (rewriteField_false _) _ hm2
    rw [hG, hF21]
    simp only
    have hfst := tf_second_fst chs sd.fields chx
    have hca := tf_second_flag chs chx hsub sd.fields
    have hG2 :
        ¬ (((sd.fields.mapFlag (tfStep chx)).1.mapFlag (tfStep chs)).2 = true
            ∧ ¬ hasLifeA sd.generics = true) := by
      rintro ⟨hca', hnl⟩
      exact hadd ⟨hca hca', hnl⟩
    have hsub' :
        SubsetC
          (if ((sd.fields.mapFlag (tfStep chx)).1.mapFlag (tfStep chs)).2 = true
            then sd.ident :: chs else chs)
          (if (sd.fields.mapFlag (tfStep chx)).2 = true then sd.ident :: chx else chx) := by
      by_cases hca' : ((sd.fields.mapFlag (tfStep chx)).1.mapFlag (tfStep chs)).2 = true
      · rw [if_pos hca', if_pos (hca hca')]
        exact SubsetC_cons _ _ _ hsub
      · rw [if_neg hca']
        by_cases hc : (sd.fields.mapFlag (tfStep chx)).2 = true
        · rw [if_pos hc]
          exact SubsetC_cons_right _ _ _ hsub
        · rw [if_neg hc]
          exact hsub
    have hrw := SFields_rw_stable _ _ hsub' ((sd.fields.mapFlag (tfStep chx)).1) hm2
    have hQ := processStruct_elig ign chs
      { sd with generics := sd.generics, fields := (sd.fields.mapFlag (tfStep chx)).1 } he
    refine ⟨(if ((sd.fields.mapFlag (tfStep chx)).1.mapFlag (tfStep chs)).2 = true
      then sd.ident :: chs else chs), ?_, hsub'⟩
    rw [hQ]
    simp only
    rw [hfst]
    rw [if_neg hG2, decide_eq_false hG2]
    cases hq : ((sd.fields.mapFlag (tfStep chx)).1).mapFlag
        (rewriteField
          (if ((sd.fields.mapFlag (tfStep chx)).1.mapFlag (tfStep chs)).2 = true
           then sd.ident :: chs else chs)) with
    | mk ffs mm =>
      rw [hq] at hrw
      simp only [Prod.mk.injEq] at hrw
      simp only [hrw.1, hrw.2, Bool.or_false]
  · have hP := processStruct_inelig ign chx sd he
    rw [hP] at hm ⊢
    simp only at hm
    have hF := SFields_mapFlag_false _ (rewriteField_false chx) sd.fields hm
    rw [hF]
    simp only
    have hQ := processStruct_inelig ign chs ({ sd with fields := sd.fields }) he
    refine ⟨chs, ?_, hsub⟩
    rw [hQ]
    simp only
    have hrw := SFields_rw_stable chs chx hsub sd.fields hm
    have h1 : (SFields.mapFlag (rewriteField chs) sd.fields).1 = sd.fields := by rw [hrw]
    have h2 : (SFields.mapFlag (rewriteField chs) sd.fields).2 = false := by rw [hrw]
    simp [h1, h2]

theorem processEnum_stable (ign chx chs : List String) (ed : EnumData)
    (hsub : SubsetC chs chx)
    (hm : (processEnum ign chx ed).2.2 = false) :
    ∃ chs1, processEnum ign chs ((processEnum ign chx ed).1)
        = ((processEnum ign chx ed).1, chs1, false)
      ∧ SubsetC chs1 ((processEnum ign chx ed).2.1) := by
  by_cases he : ¬ derives_deserialize ed.attrs = true ∨ ign.contains ed.ident = true
  · have hP := processEnum_inelig ign chx ed he
    rw [hP] at hm ⊢
    simp only at hm
    have hF := variantsMapFlag_false _ (rewriteField_false chx) ed.variants hm
    rw [hF]
    simp only
    have hQ := processEnum_inelig ign chs ({ ed with variants := ed.variants }) he
    refine ⟨chs, ?_, hsub⟩
    rw [hQ]
    simp only
    have hrw := variants_rw_stable chs chx hsub ed.variants hm
    have h1 : (variantsMapFlag (rewriteField chs) ed.variants).1 = ed.variants := by rw [hrw]
    have h2 : (variantsMapFlag (rewriteField chs) ed.variants).2 = false := by rw [hrw]
    simp [h1, h2]
  · have hP := processEnum_elig ign chx ed he
    rw [hP] at hm ⊢
    simp only at hm
    rw [Bool.or_eq_false_iff] at hm
    obtain ⟨hd, hm2⟩ := hm
    have hadd := of_decide_eq_false hd
    have hG :
        (if (variantsMapFlag enumFieldStep ed.variants).2 = true
            ∧ ¬ hasAnyLife ed.generics = true
          then addLifeA ed.generics else ed.generics) = ed.generics := if_neg hadd
    have hV21 :
        (variantsMapFlag
          (rewriteField
            (if (variantsMapFlag enumFieldStep ed.variants).2 = true then ed.ident :: chx
             else chx))
          (variantsMapFlag enumFieldStep ed.variants).1).1
          = (variantsMapFlag enumFieldStep ed.variants).1 :=
      variantsMapFlag_false _ (rewriteField_false _) _ hm2
    rw [hG, hV21]
    simp only
    have hfst := ef_second_fst ed.variants
    have hreq := ef_second_flag ed.variants
    have hG2 :
        ¬ ((variantsMapFlag enumFieldStep (variantsMapFlag enumFieldStep ed.variants).1).2 = true
            ∧ ¬ hasAnyLife ed.generics = true) := by
      rintro ⟨hca', hnl⟩
      exact hadd ⟨hreq hca', hnl⟩
    have hsub' :
        SubsetC
          (if (variantsMapFlag enumFieldStep
              (variantsMapFlag enumFieldStep ed.variants).1).2 = true
            then ed.ident :: chs else chs)
          (if (variantsMapFlag enumFieldStep ed.variants).2 = true
            then ed.ident :: chx else chx) := by
      by_cases hca' : (variantsMapFlag enumFieldStep
          (variantsMapFlag enumFieldStep ed.variants).1).2 = true
      · rw [if_pos hca', if_pos (hreq hca')]
        exact SubsetC_cons _ _ _ hsub
      · rw [if_neg hca']
        by_cases hc : (variantsMapFlag enumFieldStep ed.variants).2 = true
        · rw [if_pos hc]
          exact SubsetC_cons_right _ _ _ hsub
        · rw [if_neg hc]
          exact hsub
    have hrw := variants_rw_stable _ _ hsub'
      ((variantsMapFlag enumFieldStep ed.variants).1) hm2
    have hQ := processEnum_elig ign chs
      { ed with generics := ed.generics, variants := (variantsMapFlag enumFieldStep ed.variants).1 } he
    refine ⟨(if (variantsMapFlag enumFieldStep
        (variantsMapFlag enumFieldStep ed.variants).1).2 = true
      then ed.ident :: chs else chs), ?_, hsub'⟩
    rw [hQ]
    simp only
    rw [hfst]
    rw [if_neg hG2, decide_eq_false hG2]
    cases hq : variantsMapFlag
        (rewriteField
          (if (variantsMapFlag enumFieldStep
              (variantsMapFlag enumFieldStep ed.variants).1).2 = true
           then ed.ident :: chs else chs))
        ((variantsMapFlag enumFieldStep ed.variants).1) with
    | mk vvs mm =>
      rw [hq] at hrw
      simp only [Prod.mk.injEq] at hrw
      simp only [hrw.1, hrw.2, Bool.or_false]

theorem processItem_stable (ign chx chs : List String) (it : Item)
    (hsub : SubsetC chs chx)
    (hm : (processItem ign chx it).2.2 = false) :
    ∃ chs1, processItem ign chs ((processItem ign chx it).1)
        = ((processItem ign chx it).1, chs1, false)
      ∧ SubsetC chs1 ((processItem ign chx it).2.1) := by
  cases it with
  | istruct sd =>
    have hmm : (processStruct ign chx sd).2.2 = false := by
      cases hps : processStruct ign chx sd with
      | mk sd' p =>
        obtain ⟨c, m⟩ := p
        simp only [processItem, hps] at hm
        exact hm
    obtain ⟨chs1, heq, hss⟩ := processStruct_stable ign chx chs sd hsub hmm
    refine ⟨chs1, ?_, ?_⟩
    · cases hps : processStruct ign chx sd with
      | mk sd' p =>
        obtain ⟨c, m⟩ := p
        rw [hps] at heq
        simp only [processItem, hps, heq]
    · cases hps : processStruct ign chx sd with
      | mk sd' p =>
        obtain ⟨c, m⟩ := p
        rw [hps] at hss
        simp only [processItem, hps]
        exact hss
  | ienum ed =>
    have hmm : (processEnum ign chx ed).2.2 = false := by
      cases hps : processEnum ign chx ed with
      | mk ed' p =>
        obtain ⟨c, m⟩ := p
        simp only [processItem, hps] at hm
        exact hm
    obtain ⟨chs1, heq, hss⟩ := processEnum_stable ign chx chs ed hsub hmm
    refine ⟨chs1, ?_, ?_⟩
    · cases hps : processEnum ign chx ed with
      | mk ed' p =>
        obtain ⟨c, m⟩ := p
        rw [hps] at heq
        simp only [processItem, hps, heq]
    · cases hps : processEnum ign chx ed with
      | mk ed' p =>
        obtain ⟨c, m⟩ := p
        rw [hps] at hss
        simp only [processItem, hps]
        exact hss

theorem phase1_cons (ign : List String) (it : Item) (rest : List Item) (ch : List String) :
    phase1 ign (it :: rest) ch
      = ((processItem ign ch it).1
          :: (phase1 ign rest ((processItem ign ch it).2.1)).1,
         (phase1 ign rest ((processItem ign ch it).2.1)).2.1,
         ((processItem ign ch it).2.2
           || (phase1 ign rest ((processItem ign ch it).2.1)).2.2)) := by
  cases hpi : processItem ign ch it with
  | mk it' p =>
    obtain ⟨ch1, m⟩ := p
    cases hpr : phase1 ign rest ch1 with
    | mk rest' q =>
      obtain ⟨ch2, m'⟩ := q
      simp only [phase1, hpi, hpr]

theorem phase1_stable (ign : List String) :
    ∀ (xs : List Item) (chx chs : List String), SubsetC chs chx →
      (phase1 ign xs chx).2.2 = false →
      ∃ chs1, phase1 ign ((phase1 ign xs chx).1) chs
          = ((phase1 ign xs chx).1, chs1, false)
        ∧ SubsetC chs1 ((phase1 ign xs chx).2.1) := by
  intro xs
  induction xs with
  | nil =>
    intro chx chs hsub _
    exact ⟨chs, rfl, hsub⟩
  | cons it rest ih =>
    intro chx chs hsub hflag
    rw [phase1_cons] at hflag ⊢
    simp only at hflag ⊢
    rcases Bool.or_eq_false_iff.mp hflag with ⟨hm, hm'⟩
    obtain ⟨chs1, heq, hss⟩ := processItem_stable ign chx chs it hsub hm
    obtain ⟨chs2, heq2, hss2⟩ := ih ((processItem ign chx it).2.1) chs1 hss hm'
    refine ⟨chs2, ?_, hss2⟩
    rw [phase1_cons, heq]
    simp only
    rw [heq2]
    rfl

theorem passOnce_stable (ign : List String) (x s : List Item)
    (h : passOnce ign x = (s, false)) : passOnce ign s = (s, false) := by
  cases hp : phase1 ign x [] with
  | mk its1 q =>
    obtain ⟨ch1, m1⟩ := q
    cases hl : lusagePass (collect_lifetime_types its1) its1 with
    | mk its2 m2 =>
      simp only [passOnce, hp, hl] at h
      obtain ⟨hits, hflag⟩ := Prod.mk.injEq _ _ _ _ ▸ h
      rcases Bool.or_eq_false_iff.mp hflag with ⟨hm1, hm2⟩
      subst hm1
      have hid : its2 = its1 := by
        have := lusage_false (collect_lifetime_types its1) its1
        rw [hl] at this
        exact this hm2
      have hs1 : s = its1 := by rw [← hits, hid]
      subst hs1
      have hst := phase1_stable ign x [] [] (SubsetC_refl []) (by rw [hp])
      rw [hp] at hst
      simp only at hst
      obtain ⟨chs1, heq, _⟩ := hst
      simp only [passOnce, heq]
      rw [hid] at hl
      simp only [hl]
      rw [hm2]
      rfl

theorem transform_ast_idem (ign : List String) (a : List Item) :
    transform_ast ign (transform_ast ign a) = transform_ast ign a := by
  obtain ⟨x, hx⟩ := transform_ast_fix ign a
  have hs := passOnce_stable ign x (transform_ast ign a) hx
  unfold transform_ast
  exact transformAstFuel_of_fix ign _ hs _

theorem borrowAttrStep_false (f : FieldDef) (m : Bool)
    (h : (borrowAttrStep f m).2 = false) : (borrowAttrStep f m).1 = f := by
  unfold borrowAttrStep at h ⊢
  by_cases h1 : ¬ is_reference_type f.ty = true ∧ type_contains_lifetime f.ty = true
  · rw [if_pos h1] at h ⊢
    by_cases h2 : attrsHaveBorrow f.attrs = true
    · rw [if_pos h2]
    · rw [if_neg h2] at h
      simp at h
  · rw [if_neg h1]

theorem borrowAttrStep_flag_le (f : FieldDef) (m : Bool) (h : (borrowAttrStep f m).2 = false) :
    m = false := by
  unfold borrowAttrStep at h
  by_cases h1 : ¬ is_reference_type f.ty = true ∧ type_contains_lifetime f.ty = true
  · rw [if_pos h1] at h
    by_cases h2 : attrsHaveBorrow f.attrs = true
    · rw [if_pos h2] at h
      exact h
    · rw [if_neg h2] at h
      simp at h
  · rw [if_neg h1] at h
    exact h

theorem substArg_id (a : GArg) (h : isDirectString a = false) : substArg a = a := by
  cases a with
  | lt => rfl
  | ty t =>
    cases t with
    | ref l e => rfl
    | path ss =>
      simp only [isDirectString] at h
      simp [substArg, h]

theorem transform_field_false (f : FieldDef) (h : (transform_field f).2 = false) :
    (transform_field f).1 = f := by
  obtain ⟨attrs, ty⟩ := f
  cases ty with
  | ref l e =>
    rw [transform_field_of_ref ⟨attrs, .ref l e⟩ rfl]
  | path segs =>
    rcases List.eq_nil_or_concat segs with hnil | ⟨pre, sg, hps⟩
    · subst hnil
      rw [transform_field_of_empty ⟨attrs, .path []⟩ rfl] at h ⊢
      exact borrowAttrStep_false _ _ h
    · rw [List.concat_eq_append] at hps
      subst hps
      obtain ⟨w, a⟩ := sg
      by_cases hw1 : (w == "String") = true
      · have hs : is_string_type (pre ++ [.mk w a]) = true := by
          rw [is_string_type_concat]; exact hw1
        have hst := transform_field_of_string ⟨attrs, .path (pre ++ [.mk w a])⟩
          (pre ++ [.mk w a]) rfl hs
        rw [hst] at h
        simp at h
      · by_cases hw2 : (w == "Map") = true
        · have hwe : w = "Map" := eq_of_beq hw2
          subst hwe
          have hmp := transform_field_of_map ⟨attrs, .path (pre ++ [.mk "Map" a])⟩ pre a rfl
          rw [hmp]
        · rw [transform_field_eq_concat attrs pre w a
            (by simpa using hw1) (by simpa using hw2)] at h ⊢
          cases a with
          | noArgs => exact borrowAttrStep_false _ _ h
          | paren => exact borrowAttrStep_false _ _ h
          | angle args =>
            simp only at h ⊢
            have hmf := borrowAttrStep_flag_le _ _ h
            have hmap : args.map substArg = args := by
              have := List.any_eq_false.mp hmf
              calc args.map substArg = args.map id :=
                    List.map_congr_left (fun x hx => substArg_id x (by
                      have := this x hx
                      simpa using this))
                _ = args := List.map_id args
            rw [hmap] at h ⊢
            exact borrowAttrStep_false _ _ h

theorem rewriteField_attrs (set : List String) (f : FieldDef) :
    ((rewriteField set f).1).attrs = f.attrs := by
  cases hre : rewriteTy set f.ty with
  | mk t m => simp [rewriteField, hre]

theorem processItem_eligible (ign ch : List String) (it : Item) :
    ((processItem ign ch it).1).eligible ign = it.eligible ign := by
  cases it with
  | istruct sd =>
    obtain ⟨h1, h2, _, _, _⟩ := processStruct_parts ign ch sd
    cases hps : processStruct ign ch sd with
    | mk sd' p =>
      rw [hps] at h1 h2
      simp only at h1 h2
      simp [processItem, hps, Item.eligible, h1, h2]
  | ienum ed =>
    obtain ⟨h1, h2, _, _, _⟩ := processEnum_parts ign ch ed
    cases hps : processEnum ign ch ed with
    | mk ed' p =>
      rw [hps] at h1 h2
      simp only at h1 h2
      simp [processItem, hps, Item.eligible, h1, h2]

theorem processStruct_binv (ign ch : List String) (sd : StructData)
    (he : ¬ ign.contains sd.ident = true ∧ derives_deserialize sd.attrs = true)
    (hit : ∀ f ∈ sd.fields.list, attrsHaveBorrow f.attrs = true → hasLifeA sd.generics = true) :
    ∀ g ∈ ((processStruct ign ch sd).1).fields.list,
      attrsHaveBorrow g.attrs = true →
        hasLifeA ((processStruct ign ch sd).1).generics = true := by
  rw [processStruct_elig ign ch sd he]
  simp only
  intro g hg hb
  rw [(SFields_mapFlag_list _ _).1] at hg
  obtain ⟨f1, hf1, hgeq⟩ := List.mem_map.mp hg
  rw [(SFields_mapFlag_list _ _).1] at hf1
  obtain ⟨f, hf, hf1eq⟩ := List.mem_map.mp hf1
  by_cases hca : (sd.fields.mapFlag (tfStep ch)).2 = true ∧ ¬ hasLifeA sd.generics = true
  · rw [if_pos hca]
    exact hasLifeA_addLifeA _
  · rw [if_neg hca]
    by_cases htf : (transform_field f).2 = true
    · have hCA : (sd.fields.mapFlag (tfStep ch)).2 = true := by
        rw [(SFields_mapFlag_list (tfStep ch) sd.fields).2]
        rw [List.any_eq_true]
        refine ⟨f, hf, ?_⟩
        rw [tfStep_snd, htf]
        rfl
      cases hla : hasLifeA sd.generics with
      | true => rfl
      | false => exact absurd ⟨hCA, by simp [hla]⟩ hca
    · have hff : (transform_field f).1 = f :=
        transform_field_false f (by simpa using htf)
      have hf1f : f1 = f := by rw [← hf1eq, tfStep_fst, hff]
      have hgattrs : g.attrs = f.attrs := by
        rw [← hgeq, rewriteField_attrs, hf1f]
      rw [hgattrs] at hb
      exact hit f hf hb

theorem processEnum_binv (ign ch : List String) (ed : EnumData)
    (he : ¬ (¬ derives_deserialize ed.attrs = true ∨ ign.contains ed.ident = true))
    (hit : ∀ f ∈ ((ed.variants.map (fun v => v.fields.list)).flatten),
      attrsHaveBorrow f.attrs = true → hasAnyLife ed.generics = true) :
    ∀ g ∈ ((((processEnum ign ch ed).1).variants.map (fun v => v.fields.list)).flatten),
      attrsHaveBorrow g.attrs = true →
        hasAnyLife ((processEnum ign ch ed).1).generics = true := by
  rw [processEnum_elig ign ch ed he]
  simp only
  intro g hg hb
  rw [List.mem_flatten] at hg
  obtain ⟨gl, hgl, hgmem⟩ := hg
  obtain ⟨v2, hv2, hgleq⟩ := List.mem_map.mp hgl
  rw [variantsMapFlag_eq] at hv2
  simp only [List.mem_map] at hv2
  obtain ⟨v1, hv1, hv2eq⟩ := hv2
  rw [← hgleq, ← hv2eq] at hgmem
  simp only at hgmem
  rw [(SFields_mapFlag_list _ _).1] at hgmem
  obtain ⟨f1, hf1, hgeq⟩ := List.mem_map.mp hgmem
  rw [variantsMapFlag_eq] at hv1
  simp only [List.mem_map] at hv1
  obtain ⟨v, hv, hv1eq⟩ := hv1
  rw [← hv1eq] at hf1
  simp only at hf1
  rw [(SFields_mapFlag_list _ _).1] at hf1
  obtain ⟨f, hf, hf1eq⟩ := List.mem_map.mp hf1
  by_cases hca : (variantsMapFlag enumFieldStep ed.variants).2 = true
      ∧ ¬ hasAnyLife ed.generics = true
  · rw [if_pos hca]
    exact hasAnyLife_addLifeA _
  · rw [if_neg hca]
    by_cases htf : (transform_field f).2 = true
    · have hREQ : (variantsMapFlag enumFieldStep ed.variants).2 = true := by
        rw [variantsMapFlag_eq]
        simp only
        rw [List.any_eq_true]
        refine ⟨v, hv, ?_⟩
        rw [(SFields_mapFlag_list enumFieldStep v.fields).2]
        rw [List.any_eq_true]
        refine ⟨f, hf, ?_⟩
        rw [enumFieldStep_snd, htf]
        rfl
      cases hla : hasAnyLife ed.generics with
      | true => rfl
      | false => exact absurd ⟨hREQ, by simp [hla]⟩ hca
    · have hff : (transform_field f).1 = f :=
        transform_field_false f (by simpa using htf)
      have hf1f : f1 = f := by rw [← hf1eq, enumFieldStep_fst, hff]
      have hgattrs : g.attrs = f.attrs := by
        rw [← hgeq, rewriteField_attrs, hf1f]
      rw [hgattrs] at hb
      apply hit f ?_ hb
      rw [List.mem_flatten]
      exact ⟨v.fields.list, List.mem_map.mpr ⟨v, hv, rfl⟩, hf⟩

theorem processItem_binv (ign ch : List String) (it : Item)
    (hit : it.eligible ign = true →
      ∀ f ∈ it.fieldList, attrsHaveBorrow f.attrs = true → it.hasParam = true) :
    ((processItem ign ch it).1).eligible ign = true →
      ∀ g ∈ ((processItem ign ch it).1).fieldList,
        attrsHaveBorrow g.attrs = true → ((processItem ign ch it).1).hasParam = true := by
  intro helig g hg hb
  rw [processItem_eligible] at helig
  cases it with
  | istruct sd =>
    have he : ¬ ign.contains sd.ident = true ∧ derives_deserialize sd.attrs = true := by
      simpa [Item.eligible, Bool.and_eq_true, Bool.not_eq_true'] using helig
    have hit' : ∀ f ∈ sd.fields.list, attrsHaveBorrow f.attrs = true →
        hasLifeA sd.generics = true := by
      intro f hf hbf
      exact hit helig f hf hbf
    have hmain := processStruct_binv ign ch sd he hit'
    cases hps : processStruct ign ch sd with
    | mk sd' p =>
      rw [hps] at hmain
      simp only at hmain
      simp only [processItem, hps, Item.fieldList] at hg
      simp only [processItem, hps, Item.hasParam]
      exact hmain g hg hb
  | ienum ed =>
    have he : ¬ (¬ derives_deserialize ed.attrs = true ∨ ign.contains ed.ident = true) := by
      simp only [Item.eligible, Bool.and_eq_true, Bool.not_eq_true'] at helig
      push_neg
      refine ⟨helig.1, ?_⟩
      rw [helig.2]
      simp
    have hit' : ∀ f ∈ ((ed.variants.map (fun v => v.fields.list)).flatten),
        attrsHaveBorrow f.attrs = true → hasAnyLife ed.generics = true := by
      intro f hf hbf
      exact hit helig f hf hbf
    have hmain := processEnum_binv ign ch ed he hit'
    cases hps : processEnum ign ch ed with
    | mk ed' p =>
      rw [hps] at hmain
      simp only at hmain
      simp only [processItem, hps, Item.fieldList] at hg
      simp only [processItem, hps, Item.hasParam]
      exact hmain g hg hb

theorem phase1_binv (ign : List String) :
    ∀ (xs : List Item) (ch : List String), BorrowInv ign xs →
      BorrowInv ign ((phase1 ign xs ch).1) := by
  intro xs
  induction xs with
  | nil =>
    intro ch hinv
    intro it hmem
    simp [phase1] at hmem
  | cons it rest ih =>
    intro ch hinv
    rw [phase1_cons]
    intro it' hmem helig f hf hb
    simp only [List.mem_cons] at hmem
    rcases hmem with hmem | hmem
    · subst hmem
      exact processItem_binv ign ch it
        (hinv it (List.mem_cons_self _ _)) helig f hf hb
    · have hrest : BorrowInv ign rest := by
        intro a ha
        exact hinv a (List.mem_cons_of_mem _ ha)
      exact ih ((processItem ign ch it).2.1) hrest it' hmem helig f hf hb

theorem rewriteAll_binv (ign set : List String) (it : Item)
    (hit : it.eligible ign = true →
      ∀ f ∈ it.fieldList, attrsHaveBorrow f.attrs = true → it.hasParam = true) :
    ((it.rewriteAll set).1).eligible ign = true →
      ∀ g ∈ ((it.rewriteAll set).1).fieldList,
        attrsHaveBorrow g.attrs = true → ((it.rewriteAll set).1).hasParam = true := by
  intro helig g hg hb
  cases it with
  | istruct sd =>
    cases hm : sd.fields.mapFlag (rewriteField set) with
    | mk fs m =>
      simp only [Item.rewriteAll, hm, Item.fieldList] at hg
      simp only [Item.rewriteAll, hm, Item.eligible] at helig
      simp only [Item.rewriteAll, hm, Item.hasParam]
      have hl := (SFields_mapFlag_list (rewriteField set) sd.fields).1
      rw [hm] at hl
      simp only at hl
      rw [hl] at hg
      obtain ⟨f, hf, hgeq⟩ := List.mem_map.mp hg
      have hgattrs : g.attrs = f.attrs := by rw [← hgeq, rewriteField_attrs]
      rw [hgattrs] at hb
      exact hit (by simpa [Item.eligible] using helig) f hf hb
  | ienum ed =>
    cases hm : variantsMapFlag (rewriteField set) ed.variants with
    | mk vs m =>
      simp only [Item.rewriteAll, hm, Item.fieldList] at hg
      simp only [Item.rewriteAll, hm, Item.eligible] at helig
      simp only [Item.rewriteAll, hm, Item.hasParam]
      have hveq := variantsMapFlag_eq (rewriteField set) ed.variants
      rw [hm] at hveq
      simp only [Prod.mk.injEq] at hveq
      rw [hveq.1] at hg
      rw [List.mem_flatten] at hg
      obtain ⟨gl, hgl, hgmem⟩ := hg
      obtain ⟨v2, hv2, hgleq⟩ := List.mem_map.mp hgl
      obtain ⟨v, hv, hv2eq⟩ := List.mem_map.mp hv2
      rw [← hgleq, ← hv2eq] at hgmem
      simp only at hgmem
      rw [(SFields_mapFlag_list _ _).1] at hgmem
      obtain ⟨f, hf, hgeq⟩ := List.mem_map.mp hgmem
      have hgattrs : g.attrs = f.attrs := by rw [← hgeq, rewriteField_attrs]
      rw [hgattrs] at hb
      apply hit (by simpa [Item.eligible] using helig) f ?_ hb
      simp only [Item.fieldList]
      rw [List.mem_flatten]
      exact ⟨v.fields.list, List.mem_map.mpr ⟨v, hv, rfl⟩, hf⟩

theorem lusage_binv (ign set : List String) :
    ∀ (items : List Item), BorrowInv ign items →
      BorrowInv ign ((lusagePass set items).1) := by
  intro items
  induction items with
  | nil =>
    intro hinv it hmem
    simp [lusagePass] at hmem
  | cons it rest ih =>
    intro hinv it' hmem helig f hf hb
    cases hm : it.rewriteAll set with
    | mk itr m =>
      cases hr : lusagePass set rest with
      | mk rest' m' =>
        simp only [lusagePass, hm, hr, List.mem_cons] at hmem
        rcases hmem with hmem | hmem
        · subst hmem
          have := rewriteAll_binv ign set it (hinv it (List.mem_cons_self _ _))
          rw [hm] at this
          simp only at this
          exact this helig f hf hb
        · have hrest : BorrowInv ign rest := by
            intro a ha
            exact hinv a (List.mem_cons_of_mem _ ha)
          have := ih hrest
          rw [hr] at this
          simp only at this
          exact this it' hmem helig f hf hb

theorem passOnce_binv (ign : List String) (a : List Item) (hinv : BorrowInv ign a) :
    BorrowInv ign ((passOnce ign a).1) := by
  cases hp : phase1 ign a [] with
  | mk its1 q =>
    obtain ⟨ch1, m1⟩ := q
    cases hl : lusagePass (collect_lifetime_types its1) its1 with
    | mk its2 m2 =>
      simp only [passOnce, hp, hl]
      have h1 := phase1_binv ign a [] hinv
      rw [hp] at h1
      simp only at h1
      have h2 := lusage_binv ign (collect_lifetime_types its1) its1 h1
      rw [hl] at h2
      simp only at h2
      exact h2

theorem transformAstFuel_binv (ign : List String) :
    ∀ (n : Nat) (a : List Item), BorrowInv ign a →
      BorrowInv ign (transformAstFuel ign n a) := by
  intro n
  induction n with
  | zero => intro a hinv; exact hinv
  | succ k ih =>
    intro a hinv
    have hpb := passOnce_binv ign a hinv
    cases hp : passOnce ign a with
    | mk a' m =>
      rw [hp] at hpb
      simp only at hpb
      simp only [transformAstFuel, hp]
      cases m with
      | false => simpa using hpb
      | true => simpa using ih a' hpb

theorem transform_ast_binv (ign : List String) (a : List Item) (hinv : BorrowInv ign a) :
    BorrowInv ign (transform_ast ign a) :=
  transformAstFuel_binv ign (fileMeasure a + 1) a hinv

theorem mem_collect (items : List Item) (it : Item) (hmem : it ∈ items)
    (h : hasAnyLife it.generics = true) :
    it.ident ∈ collect_lifetime_types items := by
  simp only [collect_lifetime_types, List.mem_filterMap]
  exact ⟨it, hmem, by simp [h]⟩

theorem phase1_mem_false (ign : List String) :
    ∀ (xs : List Item) (ch : List String), (phase1 ign xs ch).2.2 = false →
      ∀ it' ∈ (phase1 ign xs ch).1, ∃ it ch0, it ∈ xs ∧
        (processItem ign ch0 it).1 = it' ∧ (processItem ign ch0 it).2.2 = false := by
  intro xs
  induction xs with
  | nil =>
    intro ch _ it' hmem
    simp [phase1] at hmem
  | cons it rest ih =>
    intro ch hflag it' hmem
    rw [phase1_cons] at hflag hmem
    simp only at hflag
    rcases Bool.or_eq_false_iff.mp hflag with ⟨hm, hm'⟩
    simp only [List.mem_cons] at hmem
    rcases hmem with hmem | hmem
    · exact ⟨it, ch, List.mem_cons_self _ _, hmem.symm, hm⟩
    · obtain ⟨it0, ch0, h1, h2, h3⟩ := ih ((processItem ign ch it).2.1) hm' it' hmem
      exact ⟨it0, ch0, List.mem_cons_of_mem _ h1, h2, h3⟩

theorem processStruct_fields_false (ign ch : List String) (sd : StructData)
    (he : ¬ ign.contains sd.ident = true ∧ derives_deserialize sd.attrs = true)
    (hflag : (processStruct ign ch sd).2.2 = false) :
    ((processStruct ign ch sd).1).fields.list
      = sd.fields.list.map (fun f => (transform_field f).1) := by
  have hP := processStruct_elig ign ch sd he
  rw [hP] at hflag ⊢
  simp only at hflag ⊢
  rw [Bool.or_eq_false_iff] at hflag
  obtain ⟨hd, hm2⟩ := hflag
  have hF21 := SFields_mapFlag_false _ (rewriteField_false _) _ hm2
  rw [hF21]
  rw [(SFields_mapFlag_list (tfStep ch) sd.fields).1]
  exact List.map_congr_left (fun f hf => tfStep_fst ch f)

theorem fixpoint_struct_fields (ign : List String) (x y : List Item)
    (hfix : passOnce ign x = (y, false)) (sd : StructData)
    (hmem : Item.istruct sd ∈ y)
    (he : ¬ ign.contains sd.ident = true ∧ derives_deserialize sd.attrs = true) :
    ∀ g ∈ sd.fields.list, ∃ f, g = (transform_field f).1 := by
  intro g hg
  cases hp : phase1 ign x [] with
  | mk its1 q =>
    obtain ⟨ch1, m1⟩ := q
    cases hl : lusagePass (collect_lifetime_types its1) its1 with
    | mk its2 m2 =>
      simp only [passOnce, hp, hl] at hfix
      obtain ⟨hits, hflag⟩ := Prod.mk.injEq _ _ _ _ ▸ hfix
      rcases Bool.or_eq_false_iff.mp hflag with ⟨hm1, hm2⟩
      subst hm1
      have hid : its2 = its1 := by
        have := lusage_false (collect_lifetime_types its1) its1
        rw [hl] at this
        exact this hm2
      rw [← hits, hid] at hmem
      have hmm := phase1_mem_false ign x [] (by rw [hp])
      rw [hp] at hmm
      simp only at hmm
      obtain ⟨it0, ch0, hmem0, hout, hfl⟩ := hmm (Item.istruct sd) hmem
      cases it0 with
      | ienum ed0 =>
        exfalso
        cases hpe : processEnum ign ch0 ed0 with
        | mk ed' p =>
          simp only [processItem, hpe] at hout
          exact Item.noConfusion hout
      | istruct sd0 =>
        cases hps : processStruct ign ch0 sd0 with
        | mk sd' p =>
          simp only [processItem, hps] at hout hfl
          have hsd : sd' = sd := by
            injection hout
          subst hsd
          obtain ⟨hi0, ha0, _, _, _⟩ := processStruct_parts ign ch0 sd0
          rw [hps] at hi0 ha0
          simp only at hi0 ha0
          have he0 : ¬ ign.contains sd0.ident = true
              ∧ derives_deserialize sd0.attrs = true := by
            rw [← hi0, ← ha0]
            exact he
          have hfields := processStruct_fields_false ign ch0 sd0 he0 (by rw [hps]; exact hfl)
          rw [hps] at hfields
          simp only at hfields
          rw [hfields] at hg
          obtain ⟨f, _, hfeq⟩ := List.mem_map.mp hg
          exact ⟨f, hfeq.symm⟩

theorem map_orElse {π π2 : Type} (f : π → π2) (a b : Option π) :
    (a <|> b).map f = (a.map f <|> b.map f) := by
  cases a <;> simp

theorem requestBranch_rel {α β γ ε α2 β2 γ2 ε2 : Type} (buf : List Char)
    (fα : α → α2) (fβ : β → β2) (fγ : γ → γ2) (fε : ε → ε2)
    (dRQO : Json → Option α2) (dRQV : Json → Option α) (hRQ : DecRel fα dRQO dRQV)
    (j : Json) :
    @requestBranchO α2 β2 γ2 ε2 buf dRQO j
      = (@requestBranchV α β γ ε buf dRQV j).map (mapMessage buf fα fβ fγ fε) := by
  cases j with
  | jobj fs =>
    simp only [requestBranchO, requestBranchV]
    cases h1 : jlookup "jsonrpc" fs with
    | none => simp [h1]
    | some v1 =>
      try simp only [h1, Option.pure_def, Option.bind_eq_bind, Option.some_bind]
      cases h2 : v1.asStr with
      | none => simp [h2]
      | some sp =>
        try simp only [h2, Option.pure_def, Option.bind_eq_bind, Option.some_bind]
        cases h3 : jlookup "id" fs with
        | none => simp [h3]
        | some vid =>
          try simp only [h3, Option.pure_def, Option.bind_eq_bind, Option.some_bind]
          cases h4 : decodeRequestId buf vid with
          | none => simp [h4]
          | some id =>
            try simp only [h4, Option.pure_def, Option.bind_eq_bind, Option.some_bind]
            rw [hRQ]
            cases h5 : dRQV (.jobj (removeKeys ["jsonrpc", "id"] fs)) with
            | none => simp [h5]
            | some rq => simp [h5, mapMessage]
  | jnull => rfl
  | jstr sp => rfl
  | jnum n => rfl
  | jbool b => rfl
  | jarr xs => rfl

theorem notificationBranch_rel {α β γ ε α2 β2 γ2 ε2 : Type} (buf : List Char)
    (fα : α → α2) (fβ : β → β2) (fγ : γ → γ2) (fε : ε → ε2)
    (dNO : Json → Option γ2) (dNV : Json → Option γ) (hN : DecRel fγ dNO dNV)
    (j : Json) :
    @notificationBranchO α2 β2 γ2 ε2 buf dNO j
      = (@notificationBranchV α β γ ε dNV j).map (mapMessage buf fα fβ fγ fε) := by
  cases j with
  | jobj fs =>
    simp only [notificationBranchO, notificationBranchV]
    cases h1 : jlookup "jsonrpc" fs with
    | none => simp [h1]
    | some v1 =>
      try simp only [h1, Option.pure_def, Option.bind_eq_bind, Option.some_bind]
      cases h2 : v1.asStr with
      | none => simp [h2]
      | some sp =>
        try simp only [h2, Option.pure_def, Option.bind_eq_bind, Option.some_bind]
        rw [hN]
        cases h5 : dNV (.jobj (removeKeys ["jsonrpc"] fs)) with
        | none => simp [h5]
        | some nt => simp [h5, mapMessage]
  | jnull => rfl
  | jstr sp => rfl
  | jnum n => rfl
  | jbool b => rfl
  | jarr xs => rfl

theorem errorBranch_rel {α β γ ε α2 β2 γ2 ε2 : Type} (buf : List Char)
    (fα : α → α2) (fβ : β → β2) (fγ : γ → γ2) (fε : ε → ε2)
    (dErrO : Json → Option ε2) (dErrV : Json → Option ε) (hE : DecRel fε dErrO dErrV)
    (j : Json) :
    @errorBranchO α2 β2 γ2 ε2 dErrO j
      = (@errorBranchV α β γ ε dErrV j).map (mapMessage buf fα fβ fγ fε) := by
  simp only [errorBranchO, errorBranchV]
  rw [hE]
  cases h : dErrV j with
  | none => rfl
  | some e => simp [h, mapMessage]

theorem responseBranch_rel {α β γ ε α2 β2 γ2 ε2 : Type} (buf : List Char)
    (fα : α → α2) (fβ : β → β2) (fγ : γ → γ2) (fε : ε → ε2)
    (dRSO : Json → Option β2) (dRSV : Json → Option β) (hRS : DecRel fβ dRSO dRSV)
    (j : Json) :
    @responseBranchO α2 β2 γ2 ε2 buf dRSO j
      = (@responseBranchV α β γ ε buf dRSV j).map (mapMessage buf fα fβ fγ fε) := by
  cases j with
  | jobj fs =>
    simp only [responseBranchO, responseBranchV]
    cases h1 : jlookup "jsonrpc" fs with
    | none => simp [h1]
    | some v1 =>
      try simp only [h1, Option.pure_def, Option.bind_eq_bind, Option.some_bind]
      cases h2 : v1.asStr with
      | none => simp [h2]
      | some sp =>
        try simp only [h2, Option.pure_def, Option.bind_eq_bind, Option.some_bind]
        cases h3 : jlookup "id" fs with
        | none => simp [h3]
        | some vid =>
          try simp only [h3, Option.pure_def, Option.bind_eq_bind, Option.some_bind]
          cases h4 : decodeRequestId buf vid with
          | none => simp [h4]
          | some id =>
            try simp only [h4, Option.pure_def, Option.bind_eq_bind, Option.some_bind]
            cases h5 : jlookup "result" fs with
            | none => simp [h5]
            | some vr =>
              try simp only [h5, Option.pure_def, Option.bind_eq_bind, Option.some_bind]
              rw [hRS]
              cases h6 : dRSV vr with
              | none => simp [h6]
              | some rs => simp [h6, mapMessage]
  | jnull => rfl
  | jstr sp => rfl
  | jnum n => rfl
  | jbool b => rfl
  | jarr xs => rfl

theorem decodeMessage_rel {α β γ ε α2 β2 γ2 ε2 : Type} (buf : List Char)
    (fα : α → α2) (fβ : β → β2) (fγ : γ → γ2) (fε : ε → ε2)
    (dRQO : Json → Option α2) (dRQV : Json → Option α) (hRQ : DecRel fα dRQO dRQV)
    (dRSO : Json → Option β2) (dRSV : Json → Option β) (hRS : DecRel fβ dRSO dRSV)
    (dNO : Json → Option γ2) (dNV : Json → Option γ) (hN : DecRel fγ dNO dNV)
    (dErrO : Json → Option ε2) (dErrV : Json → Option ε) (hE : DecRel fε dErrO dErrV)
    (j : Json) :
    decodeMessageO buf dRQO dRSO dNO dErrO j
      = (decodeMessageV buf dRQV dRSV dNV dErrV j).map (mapMessage buf fα fβ fγ fε) := by
  simp only [decodeMessageO, decodeMessageV, map_orElse]
  rw [requestBranch_rel buf fα fβ fγ fε dRQO dRQV hRQ j,
    notificationBranch_rel buf fα fβ fγ fε dNO dNV hN j,
    errorBranch_rel buf fα fβ fγ fε dErrO dErrV hE j,
    responseBranch_rel buf fα fβ fγ fε dRSO dRSV hRS j]

theorem findTag_rel {π π2 : Type} (f : π → π2) (m : List Char)
    (tO : List (String × (Json → Option π2))) (tV : List (String × (Json → Option π)))
    (h : TableRel f tO tV) :
    ∀ j, (findTag m tO).map (fun d => d j)
      = (findTag m tV).map (fun d => (d j).map f) := by
  intro j
  induction h with
  | nil => rfl
  | cons hd tl ih =>
    obtain ⟨hk, hdec⟩ := hd
    simp only [findTag, hk]
    split
    · have := hdec j
      simp [this]
    · exact ih

theorem decodeTagged_rel {π π2 : Type} (buf : List Char) (f : π → π2)
    (tO : List (String × (Json → Option π2))) (tV : List (String × (Json → Option π)))
    (h : TableRel f tO tV) :
    DecRel f (decodeTagged buf tO) (decodeTagged buf tV) := by
  intro j
  cases j with
  | jobj fs =>
    simp only [decodeTagged]
    cases h1 : jlookup "method" fs with
    | none => simp [h1]
    | some v1 =>
      try simp only [h1, Option.pure_def, Option.bind_eq_bind, Option.some_bind]
      cases h2 : v1.asStr with
      | none => simp [h2]
      | some sp =>
        try simp only [h2, Option.pure_def, Option.bind_eq_bind, Option.some_bind]
        have hft := findTag_rel f (sp.content buf) tO tV h
        cases h3 : findTag (sp.content buf) tV with
        | none =>
          cases h4 : findTag (sp.content buf) tO with
          | none => simp [h3, h4]
          | some d =>
            have := hft Json.jnull
            rw [h3, h4] at this
            simp at this
        | some dv =>
          cases h4 : findTag (sp.content buf) tO with
          | none =>
            have := hft Json.jnull
            rw [h3, h4] at this
            simp at this
          | some dov =>
            try simp only [h3, h4, Option.pure_def, Option.bind_eq_bind, Option.some_bind]
            cases h5 : jlookup "params" fs with
            | none => simp [h5]
            | some vp =>
              try simp only [h5, Option.pure_def, Option.bind_eq_bind, Option.some_bind]
              have := hft vp
              rw [h3, h4] at this
              simp at this
              try simp only [Option.some_bind]
              rw [this]
  | jnull => rfl
  | jstr sp => rfl
  | jnum n => rfl
  | jbool b => rfl
  | jarr xs => rfl

theorem decodeUntagged_rel {π π2 : Type} (f : π → π2)
    (aO : List (Json → Option π2)) (aV : List (Json → Option π))
    (h : AltsRel f aO aV) :
    DecRel f (decodeUntagged aO) (decodeUntagged aV) := by
  intro j
  induction h with
  | nil => rfl
  | cons hd tl ih =>
    simp only [decodeUntagged, map_orElse]
    rw [hd, ih]

theorem collect_mem_iff (items : List Item) (n : String) :
    n ∈ collect_lifetime_types items
      ↔ ∃ it ∈ items, hasAnyLife it.generics = true ∧ it.ident = n := by
  simp only [collect_lifetime_types, List.mem_filterMap]
  constructor
  · rintro ⟨it, hmem, hcond⟩
    by_cases h : hasAnyLife it.generics = true
    · rw [if_pos h] at hcond
      refine ⟨it, hmem, h, ?_⟩
      injection hcond
    · rw [if_neg h] at hcond
      exact absurd hcond (by simp)
  · rintro ⟨it, hmem, h, hid⟩
    exact ⟨it, hmem, by rw [if_pos h, hid]⟩

theorem forallRel_mem (ign : List String) :
    ∀ a b : List Item, List.Forall₂ (ItemRel ign) a b →
      ∀ it ∈ a, ∃ it' ∈ b, ItemRel ign it it' := by
  intro a
  induction a with
  | nil =>
    intro b h it hmem
    simp at hmem
  | cons x r ih =>
    intro b h it hmem
    cases h with
    | cons hxy hr =>
      simp only [List.mem_cons] at hmem
      rcases hmem with hmem | hmem
      · subst hmem
        exact ⟨_, List.mem_cons_self _ _, hxy⟩
      · obtain ⟨it', hmem', hrel⟩ := ih _ hr it hmem
        exact ⟨it', List.mem_cons_of_mem _ hmem', hrel⟩

theorem collect_sub_of_rel (ign : List String) (a b : List Item)
    (h : List.Forall₂ (ItemRel ign) a b) :
    ∀ n ∈ collect_lifetime_types a, n ∈ collect_lifetime_types b := by
  intro n hn
  rw [collect_mem_iff] at hn ⊢
  obtain ⟨it, hmem, hlife, hid⟩ := hn
  obtain ⟨it', hmem', hrel⟩ := forallRel_mem ign a b h it hmem
  exact ⟨it', hmem', ItemRel_anyLife ign it it' hrel hlife, by rw [hrel.1, hid]⟩

theorem rewriteTy_refStr (set : List String) (h : set.contains "str" = false) :
    rewriteTy set refStr = (refStr, false) := by
  have h2 : ¬ ("str" ∈ set) := by simpa using h
  simp [refStr, rewriteTy, rewriteSegs, rewriteSeg, rewritePArgs, nodeFill, fillSeg,
    lastFillable, segAcceptsFill, h2]

theorem rewriteField_refStr (set : List String) (h : set.contains "str" = false)
    (f : FieldDef) (hty : f.ty = refStr) : rewriteField set f = (f, false) := by
  simp only [rewriteField, hty, rewriteTy_refStr set h]
  rw [← hty]

theorem rewriteField_idem (set : List String) (f : FieldDef) :
    rewriteField set ((rewriteField set f).1) = ((rewriteField set f).1, false) := by
  cases hre : rewriteTy set f.ty with
  | mk t m =>
    have hid := rewriteTy_idem set f.ty
    rw [hre] at hid
    simp only at hid
    simp [rewriteField, hre, hid]

theorem rewriteAll_idem (set : List String) (it : Item) :
    ((it.rewriteAll set).1).rewriteAll set = ((it.rewriteAll set).1, false) := by
  cases it with
  | istruct sd =>
    cases hm : sd.fields.mapFlag (rewriteField set) with
    | mk fs m =>
      simp only [Item.rewriteAll, hm]
      have hfs : fs.mapFlag (rewriteField set) = (fs, false) := by
        apply SFields_mapFlag_id
        intro f1 hf1
        have hl := (SFields_mapFlag_list (rewriteField set) sd.fields).1
        rw [hm] at hl
        simp only at hl
        rw [hl] at hf1
        obtain ⟨f, hf, hfeq⟩ := List.mem_map.mp hf1
        rw [← hfeq]
        exact rewriteField_idem set f
      simp [Item.rewriteAll, hfs]
  | ienum ed =>
    cases hm : variantsMapFlag (rewriteField set) ed.variants with
    | mk vs m =>
      simp only [Item.rewriteAll, hm]
      have hvs : variantsMapFlag (rewriteField set) vs = (vs, false) := by
        apply variantsMapFlag_id
        intro v2 hv2 f1 hf1
        have hveq := variantsMapFlag_eq (rewriteField set) ed.variants
        rw [hm] at hveq
        simp only [Prod.mk.injEq] at hveq
        rw [hveq.1] at hv2
        obtain ⟨v, hv, hv2eq⟩ := List.mem_map.mp hv2
        rw [← hv2eq] at hf1
        simp only at hf1
        rw [(SFields_mapFlag_list _ _).1] at hf1
        obtain ⟨f, hf, hfeq⟩ := List.mem_map.mp hf1
        rw [← hfeq]
        exact rewriteField_idem set f
      simp [Item.rewriteAll, hvs]

theorem lusagePass_cons (set : List String) (it : Item) (rest : List Item) :
    lusagePass set (it :: rest)
      = ((it.rewriteAll set).1 :: (lusagePass set rest).1,
         ((it.rewriteAll set).2 || (lusagePass set rest).2)) := by
  cases hm : it.rewriteAll set with
  | mk a b =>
    cases hr : lusagePass set rest with
    | mk c d => simp only [lusagePass, hm, hr]

theorem lusage_idem (set : List String) :
    ∀ items, lusagePass set ((lusagePass set items).1)
      = ((lusagePass set items).1, false) := by
  intro items
  induction items with
  | nil => rfl
  | cons it rest ih =>
    rw [lusagePass_cons]
    simp only
    rw [lusagePass_cons]
    rw [rewriteAll_idem set it, ih]
    rfl

theorem processEnum_closure (ign ch : List String) (ed : EnumData)
    (he : ¬ (¬ derives_deserialize ed.attrs = true ∨ ign.contains ed.ident = true))
    (hflag : (processEnum ign ch ed).2.2 = false)
    (g : FieldDef)
    (hg : g ∈ ((((processEnum ign ch ed).1).variants.map (fun v => v.fields.list)).flatten))
    (href : is_reference_type g.ty = false)
    (hlt : type_contains_lifetime g.ty = true) :
    hasAnyLife ((processEnum ign ch ed).1).generics = true := by
  have hP := processEnum_elig ign ch ed he
  rw [hP] at hflag hg ⊢
  simp only at hflag hg ⊢
  rw [Bool.or_eq_false_iff] at hflag
  obtain ⟨hd, hm2⟩ := hflag
  have hadd := of_decide_eq_false hd
  have hV21 := variantsMapFlag_false _ (rewriteField_false _) _ hm2
  rw [hV21] at hg
  rw [List.mem_flatten] at hg
  obtain ⟨gl, hgl, hgmem⟩ := hg
  obtain ⟨v1, hv1, hgleq⟩ := List.mem_map.mp hgl
  rw [variantsMapFlag_eq] at hv1
  simp only [List.mem_map] at hv1
  obtain ⟨v, hv, hv1eq⟩ := hv1
  rw [← hgleq, ← hv1eq] at hgmem
  simp only at hgmem
  rw [(SFields_mapFlag_list _ _).1] at hgmem
  obtain ⟨f, hf, hgeq⟩ := List.mem_map.mp hgmem
  have hgf : (transform_field f).1 = g := by
    rw [← enumFieldStep_fst]
    exact hgeq
  have hREQ : (variantsMapFlag enumFieldStep ed.variants).2 = true := by
    rw [variantsMapFlag_eq]
    simp only
    rw [List.any_eq_true]
    refine ⟨v, hv, ?_⟩
    rw [(SFields_mapFlag_list enumFieldStep v.fields).2, List.any_eq_true]
    refine ⟨f, hf, ?_⟩
    rw [enumFieldStep_snd, hgf, href, hlt]
    simp
  have hla : hasAnyLife ed.generics = true := by
    by_contra hno
    exact hadd ⟨hREQ, by simpa using hno⟩
  rw [if_neg (by simp [hla])]
  exact hla

theorem fixpoint_enum_marked (ign : List String) (x y : List Item)
    (hfix : passOnce ign x = (y, false)) (ed : EnumData)
    (hmem : Item.ienum ed ∈ y)
    (he : ¬ (¬ derives_deserialize ed.attrs = true ∨ ign.contains ed.ident = true))
    (g : FieldDef)
    (hg : g ∈ ((ed.variants.map (fun v => v.fields.list)).flatten))
    (href : is_reference_type g.ty = false)
    (hlt : type_contains_lifetime g.ty = true) :
    hasAnyLife ed.generics = true := by
  cases hp : phase1 ign x [] with
  | mk its1 q =>
    obtain ⟨ch1, m1⟩ := q
    cases hl : lusagePass (collect_lifetime_types its1) its1 with
    | mk its2 m2 =>
      simp only [passOnce, hp, hl] at hfix
      obtain ⟨hits, hflag⟩ := Prod.mk.injEq _ _ _ _ ▸ hfix
      rcases Bool.or_eq_false_iff.mp hflag with ⟨hm1, hm2⟩
      subst hm1
      have hid : its2 = its1 := by
        have := lusage_false (collect_lifetime_types its1) its1
        rw [hl] at this
        exact this hm2
      rw [← hits, hid] at hmem
      have hmm := phase1_mem_false ign x [] (by rw [hp])
      rw [hp] at hmm
      simp only at hmm
      obtain ⟨it0, ch0, hmem0, hout, hfl⟩ := hmm (Item.ienum ed) hmem
      cases it0 with
      | istruct sd0 =>
        exfalso
        cases hps : processStruct ign ch0 sd0 with
        | mk sd' p =>
          simp only [processItem, hps] at hout
          exact Item.noConfusion hout
      | ienum ed0 =>
        cases hpe : processEnum ign ch0 ed0 with
        | mk ed' p =>
          simp only [processItem, hpe] at hout hfl
          have hed : ed' = ed := by
            injection hout
          subst hed
          obtain ⟨hi0, ha0, _, _, _⟩ := processEnum_parts ign ch0 ed0
          rw [hpe] at hi0 ha0
          simp only at hi0 ha0
          have he0 : ¬ (¬ derives_deserialize ed0.attrs = true
              ∨ ign.contains ed0.ident = true) := by
            rw [← hi0, ← ha0]
            exact he
          have hgm : g ∈ ((((processEnum ign ch0 ed0).1).variants.map
              (fun v => v.fields.list)).flatten) := by
            rw [hpe]
            exact hg
          have hfl2 : (processEnum ign ch0 ed0).2.2 = false := by
            rw [hpe]
            exact hfl
          have hcl := processEnum_closure ign ch0 ed0 he0 hfl2 g hgm href hlt
          rw [hpe] at hcl
          exact hcl

/-! ## The claims -/

/-- C1: decoding a message through the owned envelope and through the
zero-copy view envelope yields field-wise equal values: whenever the
payload decoders are related by content extraction (`DecRel`, and
`TableRel`/`AltsRel` for the method-tagged and untagged payload enums),
the owned decode of any JSON value equals the content extraction
(`mapMessage`) of the view decode, and likewise for the tagged and
untagged payload decoders. -/
theorem claim_C1 {α β γ ε α2 β2 γ2 ε2 π π2 ρ ρ2 : Type} (buf : List Char)
    (fα : α → α2) (fβ : β → β2) (fγ : γ → γ2) (fε : ε → ε2)
    (fπ : π → π2) (fρ : ρ → ρ2)
    (dRQO : Json → Option α2) (dRQV : Json → Option α) (hRQ : DecRel fα dRQO dRQV)
    (dRSO : Json → Option β2) (dRSV : Json → Option β) (hRS : DecRel fβ dRSO dRSV)
    (dNO : Json → Option γ2) (dNV : Json → Option γ) (hN : DecRel fγ dNO dNV)
    (dErrO : Json → Option ε2) (dErrV : Json → Option ε) (hE : DecRel fε dErrO dErrV)
    (tO : List (String × (Json → Option π2))) (tV : List (String × (Json → Option π)))
    (hT : TableRel fπ tO tV)
    (aO : List (Json → Option ρ2)) (aV : List (Json → Option ρ))
    (hA : AltsRel fρ aO aV) :
    (∀ j, decodeMessageO buf dRQO dRSO dNO dErrO j
        = (decodeMessageV buf dRQV dRSV dNV dErrV j).map (mapMessage buf fα fβ fγ fε))
    ∧ DecRel fπ (decodeTagged buf tO) (decodeTagged buf tV)
    ∧ DecRel fρ (decodeUntagged aO) (decodeUntagged aV) :=
  ⟨fun j => decodeMessage_rel buf fα fβ fγ fε dRQO dRQV hRQ dRSO dRSV hRS
      dNO dNV hN dErrO dErrV hE j,
   decodeTagged_rel buf fπ tO tV hT,
   decodeUntagged_rel fρ aO aV hA⟩

theorem claim_C1_witness :
    (∀ j, decodeMessageO cexBuf
        (fun j2 => (j2.asStr).map (fun sp => sp.content cexBuf))
        (fun j2 => (j2.asStr).map (fun sp => sp.content cexBuf))
        (fun j2 => (j2.asStr).map (fun sp => sp.content cexBuf))
        (fun j2 => (j2.asStr).map (fun sp => sp.content cexBuf)) j
        = (decodeMessageV cexBuf Json.asStr Json.asStr Json.asStr Json.asStr j).map
            (mapMessage cexBuf (fun sp => sp.content cexBuf) (fun sp => sp.content cexBuf)
              (fun sp => sp.content cexBuf) (fun sp => sp.content cexBuf)))
    ∧ DecRel (fun sp => sp.content cexBuf)
        (decodeTagged cexBuf [("ping", fun j2 => (j2.asStr).map (fun sp => sp.content cexBuf))])
        (decodeTagged cexBuf [("ping", Json.asStr)])
    ∧ DecRel (fun sp => sp.content cexBuf)
        (decodeUntagged [fun j2 => (j2.asStr).map (fun sp => sp.content cexBuf)])
        (decodeUntagged [Json.asStr]) :=
  claim_C1 cexBuf (fun sp : Span => sp.content cexBuf) (fun sp : Span => sp.content cexBuf)
    (fun sp : Span => sp.content cexBuf) (fun sp : Span => sp.content cexBuf)
    (fun sp : Span => sp.content cexBuf) (fun sp : Span => sp.content cexBuf)
    (fun j2 => (j2.asStr).map (fun sp => sp.content cexBuf)) Json.asStr (fun _ => rfl)
    (fun j2 => (j2.asStr).map (fun sp => sp.content cexBuf)) Json.asStr (fun _ => rfl)
    (fun j2 => (j2.asStr).map (fun sp => sp.content cexBuf)) Json.asStr (fun _ => rfl)
    (fun j2 => (j2.asStr).map (fun sp => sp.content cexBuf)) Json.asStr (fun _ => rfl)
    [("ping", fun j2 => (j2.asStr).map (fun sp => sp.content cexBuf))]
    [("ping", Json.asStr)]
    (List.Forall₂.cons ⟨rfl, fun _ => rfl⟩ List.Forall₂.nil)
    [fun j2 => (j2.asStr).map (fun sp => sp.content cexBuf)] [Json.asStr]
    (List.Forall₂.cons (fun _ => rfl) List.Forall₂.nil)

/-- C2 (amended): in the serde(untagged) Message envelope the Error variant
is declared before the Response variant, so Error is tried first: whenever
the Request and Notification shapes fail and the error payload decoder
succeeds, the envelope decodes to the Error alternative — regardless of
whether the Response shape would also match — in both the owned and the
view representation. -/
theorem claim_C2 {α β γ ε : Type} (buf : List Char) (dRQ : Json → Option α)
    (dRS : Json → Option β) (dN : Json → Option γ) (dErr : Json → Option ε)
    (j : Json) (e : ε)
    (h1 : @requestBranchO α β γ ε buf dRQ j = none)
    (h2 : @notificationBranchO α β γ ε buf dN j = none)
    (h3 : dErr j = some e)
    (h4 : @requestBranchV α β γ ε buf dRQ j = none)
    (h5 : @notificationBranchV α β γ ε dN j = none) :
    decodeMessageO buf dRQ dRS dN dErr j = some (.error e)
    ∧ decodeMessageV buf dRQ dRS dN dErr j = some (.error e) := by
  constructor
  · simp [decodeMessageO, h1, h2, errorBranchO, h3]
  · simp [decodeMessageV, h4, h5, errorBranchV, h3]

theorem claim_C2_witness :
    @decodeMessageO Nat Nat Nat Nat cexBuf dRejectN dResultN dRejectN dError7 cexBothJson
        = some (.error 7)
    ∧ @decodeMessageV Nat Nat Nat Nat cexBuf dRejectN dResultN dRejectN dError7 cexBothJson
        = some (.error 7) :=
  claim_C2 cexBuf dRejectN dResultN dRejectN dError7 cexBothJson 7
    (by decide) (by decide) (by decide) (by decide) (by decide)

/-- C2 counterexample to the spec ordering: this input matches both the
Response shape and the Error shape, yet the envelope decodes to the Error
alternative, not the Response alternative, in both representations. -/
theorem claim_C2_counterexample :
    @responseBranchO Nat Nat Nat Nat cexBuf dResultN cexBothJson
        = some (.response "2.0".toList (.rnum 1) 0)
    ∧ @errorBranchO Nat Nat Nat Nat dError7 cexBothJson = some (.error 7)
    ∧ @decodeMessageO Nat Nat Nat Nat cexBuf dRejectN dResultN dRejectN dError7 cexBothJson
        = some (.error 7)
    ∧ @decodeMessageV Nat Nat Nat Nat cexBuf dRejectN dResultN dRejectN dError7 cexBothJson
        = some (.error 7)
    ∧ (some (MessageO.error 7) : Option (MessageO Nat Nat Nat Nat))
        ≠ some (.response "2.0".toList (.rnum 1) 0) := by
  refine ⟨by decide, by decide, by decide, by decide, by decide⟩

/-- C3: in an eligible type definition (derives Deserialize, not ignored),
a field whose type is a bare `String` is rewritten in place to the borrowed
view type &a str, and the rewrite always marks the containing type: the
transformed definition carries the view lifetime parameter (the named one
for structs; for enums the parameter is added whenever none of any name is
present) and the name of the type is pushed onto the changed-types list.
This covers both the struct visitor and the enum visitor. -/
theorem claim_C3 :
    (∀ (ign ch : List String) (sd : StructData),
      ¬ ign.contains sd.ident = true ∧ derives_deserialize sd.attrs = true →
      ch.contains "str" = false → ("str" == sd.ident) = false →
      ∀ (i : Nat) (f : FieldDef), sd.fields.list[i]? = some f →
        isBareString f.ty = true →
        hasLifeA ((processStruct ign ch sd).1).generics = true
        ∧ (processStruct ign ch sd).2.1 = sd.ident :: ch
        ∧ ((processStruct ign ch sd).1).fields.list[i]? = some { f with ty := refStr })
    ∧ (∀ (ign ch : List String) (ed : EnumData),
      ¬ (¬ derives_deserialize ed.attrs = true ∨ ign.contains ed.ident = true) →
      ch.contains "str" = false → ("str" == ed.ident) = false →
      ∀ (k i : Nat) (v : Variant) (f : FieldDef),
        ed.variants[k]? = some v → v.fields.list[i]? = some f →
        isBareString f.ty = true →
        hasAnyLife ((processEnum ign ch ed).1).generics = true
        ∧ (processEnum ign ch ed).2.1 = ed.ident :: ch
        ∧ ∃ v2, ((processEnum ign ch ed).1).variants[k]? = some v2
            ∧ v2.fields.list[i]? = some { f with ty := refStr }) := by
  constructor
  · intro ign ch sd he hstr1 hstr2 i f hf hbare
    have hsegs : ∃ segs, f.ty = Ty.path segs ∧ is_string_type segs = true := by
      cases hty : f.ty with
      | path segs =>
        refine ⟨segs, rfl, ?_⟩
        rw [hty] at hbare
        simpa [isBareString] using hbare
      | ref l e =>
        rw [hty] at hbare
        simp [isBareString] at hbare
    obtain ⟨segs, hty, hs⟩ := hsegs
    have htf : transform_field f = ({ f with ty := refStr }, true) :=
      transform_field_of_string f segs hty hs
    have hmem : f ∈ sd.fields.list := by
      have hlt : i < sd.fields.list.length := by
        by_contra hge
        rw [List.getElem?_eq_none (by omega)] at hf
        exact Option.noConfusion hf
      rw [List.getElem?_eq_getElem hlt, Option.some.injEq] at hf
      rw [← hf]
      exact List.getElem_mem hlt
    have hCA : (sd.fields.mapFlag (tfStep ch)).2 = true := by
      rw [(SFields_mapFlag_list (tfStep ch) sd.fields).2, List.any_eq_true]
      refine ⟨f, hmem, ?_⟩
      rw [tfStep_snd, htf]
      rfl
    have hcontains : (sd.ident :: ch).contains "str" = false := by
      simp only [List.contains_cons, Bool.or_eq_false_iff]
      exact ⟨hstr2, hstr1⟩
    rw [processStruct_elig ign ch sd he]
    try simp only
    have hch : (if (sd.fields.mapFlag (tfStep ch)).2 = true then sd.ident :: ch else ch)
        = sd.ident :: ch := if_pos hCA
    refine ⟨?_, hch, ?_⟩
    · by_cases hla : hasLifeA sd.generics = true
      · rw [if_neg (by simp [hla])]
        exact hla
      · rw [if_pos ⟨hCA, by simpa using hla⟩]
        exact hasLifeA_addLifeA _
    · rw [(SFields_mapFlag_list _ _).1, List.getElem?_map,
        (SFields_mapFlag_list _ _).1, List.getElem?_map, hf]
      simp only [Option.map]
      rw [tfStep_fst, htf]
      simp only
      rw [hch]
      rw [rewriteField_refStr (sd.ident :: ch) hcontains _ rfl]
  · intro ign ch ed he hstr1 hstr2 k i v f hv hf hbare
    have hsegs : ∃ segs, f.ty = Ty.path segs ∧ is_string_type segs = true := by
      cases hty : f.ty with
      | path segs =>
        refine ⟨segs, rfl, ?_⟩
        rw [hty] at hbare
        simpa [isBareString] using hbare
      | ref l e =>
        rw [hty] at hbare
        simp [isBareString] at hbare
    obtain ⟨segs, hty, hs⟩ := hsegs
    have htf : transform_field f = ({ f with ty := refStr }, true) :=
      transform_field_of_string f segs hty hs
    have hmemv : v ∈ ed.variants := by
      have hkl : k < ed.variants.length := by
        by_contra hge
        rw [List.getElem?_eq_none (by omega)] at hv
        exact Option.noConfusion hv
      rw [List.getElem?_eq_getElem hkl, Option.some.injEq] at hv
      rw [← hv]
      exact List.getElem_mem hkl
    have hmemf : f ∈ v.fields.list := by
      have hil : i < v.fields.list.length := by
        by_contra hge
        rw [List.getElem?_eq_none (by omega)] at hf
        exact Option.noConfusion hf
      rw [List.getElem?_eq_getElem hil, Option.some.injEq] at hf
      rw [← hf]
      exact List.getElem_mem hil
    have hREQ : (variantsMapFlag enumFieldStep ed.variants).2 = true := by
      rw [variantsMapFlag_eq]
      simp only
      rw [List.any_eq_true]
      refine ⟨v, hmemv, ?_⟩
      rw [(SFields_mapFlag_list enumFieldStep v.fields).2, List.any_eq_true]
      refine ⟨f, hmemf, ?_⟩
      rw [enumFieldStep_snd, htf]
      rfl
    have hcontains : (ed.ident :: ch).contains "str" = false := by
      simp only [List.contains_cons, Bool.or_eq_false_iff]
      exact ⟨hstr2, hstr1⟩
    rw [processEnum_elig ign ch ed he]
    try simp only
    have hch : (if (variantsMapFlag enumFieldStep ed.variants).2 = true
        then ed.ident :: ch else ch) = ed.ident :: ch := if_pos hREQ
    refine ⟨?_, hch, ?_⟩
    · by_cases hla : hasAnyLife ed.generics = true
      · rw [if_neg (by simp [hla])]
        exact hla
      · rw [if_pos ⟨hREQ, by simpa using hla⟩]
        exact hasAnyLife_addLifeA _
    · rw [hch]
      rw [variantsMapFlag_eq]
      try simp only
      rw [variantsMapFlag_eq]
      try simp only
      rw [List.getElem?_map, List.getElem?_map, hv]
      simp only [Option.map]
      refine ⟨_, rfl, ?_⟩
      try simp only
      rw [(SFields_mapFlag_list _ _).1, List.getElem?_map]
      try simp only
      rw [(SFields_mapFlag_list _ _).1, List.getElem?_map, hf]
      simp only [Option.map]
      rw [enumFieldStep_fst, htf]
      try simp only
      rw [rewriteField_refStr (ed.ident :: ch) hcontains _ rfl]

theorem claim_C3_witness :
    (hasLifeA ((processStruct [] []
        ⟨"T", [derAttrD], [], .named [plainField (pathOf "String")]⟩).1).generics = true
    ∧ (processStruct [] []
        ⟨"T", [derAttrD], [], .named [plainField (pathOf "String")]⟩).2.1 = "T" :: []
    ∧ ((processStruct [] []
        ⟨"T", [derAttrD], [], .named [plainField (pathOf "String")]⟩).1).fields.list[0]?
        = some { plainField (pathOf "String") with ty := refStr })
    ∧ (hasAnyLife ((processEnum [] [] cexStringEnum).1).generics = true
    ∧ (processEnum [] [] cexStringEnum).2.1 = "D" :: []
    ∧ ∃ v2, ((processEnum [] [] cexStringEnum).1).variants[0]? = some v2
        ∧ v2.fields.list[0]? = some { plainField (pathOf "String") with ty := refStr }) :=
  ⟨claim_C3.1 [] [] ⟨"T", [derAttrD], [], .named [plainField (pathOf "String")]⟩
    (by decide) (by decide) (by decide) 0 (plainField (pathOf "String")) rfl (by decide),
   claim_C3.2 [] [] cexStringEnum (by decide) (by decide) (by decide)
    0 0 ⟨.named [plainField (pathOf "String")]⟩ (plainField (pathOf "String"))
    rfl rfl (by decide)⟩

/-- C4: the text-view substitution of `transform_field` operates at exactly
one nesting level: for a field whose type is a generic wrapper (other than
String and Map) the emitted type rewrites exactly the generic arguments
that are directly a bare String (via `substArg`), and when no argument is
directly a bare String — in particular when every text value sits two or
more generic levels deep — the type is emitted unchanged. -/
theorem claim_C4 (attrs : List Attr) (pre : List Seg) (w : String) (args : List GArg)
    (hw1 : (w == "String") = false) (hw2 : (w == "Map") = false) :
    ((transform_field ⟨attrs, .path (pre ++ [.mk w (.angle args)])⟩).1).ty
        = .path (pre ++ [.mk w (.angle (args.map substArg))])
    ∧ (args.any isDirectString = false →
        ((transform_field ⟨attrs, .path (pre ++ [.mk w (.angle args)])⟩).1).ty
          = .path (pre ++ [.mk w (.angle args)])) := by
  have heq := transform_field_eq_concat attrs pre w (.angle args) hw1 hw2
  constructor
  · rw [heq]
    simp only
    rw [borrowAttrStep_ty]
  · intro hno
    rw [heq]
    simp only
    rw [borrowAttrStep_ty]
    simp only
    have hmap : args.map substArg = args := by
      have := List.any_eq_false.mp hno
      calc args.map substArg = args.map id :=
            List.map_congr_left (fun x hx => substArg_id x (by simpa using this x hx))
        _ = args := List.map_id args
    rw [hmap]

theorem claim_C4_witness :
    (((transform_field ⟨[], .path [.mk "Vec" (.angle [.ty (pathOf "String")])]⟩).1).ty
        = .path [.mk "Vec" (.angle ([.ty (pathOf "String")].map substArg))]
      ∧ ([GArg.ty (pathOf "String")].any isDirectString = false →
          ((transform_field ⟨[], .path [.mk "Vec" (.angle [.ty (pathOf "String")])]⟩).1).ty
            = .path [.mk "Vec" (.angle [.ty (pathOf "String")])]))
    ∧ (((transform_field ⟨[],
          .path [.mk "Vec" (.angle [.ty (.path [.mk "Option"
            (.angle [.ty (pathOf "String")])])])]⟩).1).ty
        = .path [.mk "Vec" (.angle ([GArg.ty (.path [.mk "Option"
            (.angle [.ty (pathOf "String")])])].map substArg))]
      ∧ ([GArg.ty (.path [.mk "Option" (.angle [.ty (pathOf "String")])])].any
            isDirectString = false →
          ((transform_field ⟨[],
            .path [.mk "Vec" (.angle [.ty (.path [.mk "Option"
              (.angle [.ty (pathOf "String")])])])]⟩).1).ty
            = .path [.mk "Vec" (.angle [.ty (.path [.mk "Option"
              (.angle [.ty (pathOf "String")])])])])) :=
  ⟨claim_C4 [] [] "Vec" [.ty (pathOf "String")] (by decide) (by decide),
   claim_C4 [] [] "Vec" [.ty (.path [.mk "Option" (.angle [.ty (pathOf "String")])])]
     (by decide) (by decide)⟩

/-- C5 (amended): a field whose type is already a reference/view is left
completely untouched by `transform_field`: no duplicate borrow attribute is
attached, and the returned modification flag is false, so such a field by
itself does not count toward the containing type being marked as requiring
the view-scope parameter. -/
theorem claim_C5 (f : FieldDef) (h : is_reference_type f.ty = true) :
    (transform_field f).1.attrs = f.attrs ∧ (transform_field f).2 = false := by
  rw [transform_field_of_ref f h]
  exact ⟨rfl, rfl⟩

theorem claim_C5_witness :
    (transform_field (plainField refStr)).1.attrs = (plainField refStr).attrs
    ∧ (transform_field (plainField refStr)).2 = false :=
  claim_C5 (plainField refStr) (by decide)

/-- C5 counterexample to the counting part of the spec sentence: a struct
without a lifetime parameter whose only field is already a reference is not
marked by the transformation — the whole fixpoint run adds no lifetime
parameter, records nothing in the changed set, and reports no
modification. -/
theorem claim_C5_counterexample :
    hasLifeA cexRefNoLife.generics = false
    ∧ (passOnce [] [cexRefNoLife]).1 = [cexRefNoLife]
    ∧ (passOnce [] [cexRefNoLife]).2 = false
    ∧ (phase1 [] [cexRefNoLife] []).2.1 = []
    ∧ collect_lifetime_types (transform_ast [] [cexRefNoLife]) = [] := by
  refine ⟨rfl, rfl, rfl, rfl, rfl⟩

theorem forallRel_get (ign : List String) :
    ∀ a b : List Item, List.Forall₂ (ItemRel ign) a b →
      ∀ (j : Nat) (it : Item), a[j]? = some it →
        ∃ it', b[j]? = some it' ∧ ItemRel ign it it' := by
  intro a
  induction a with
  | nil =>
    intro b h j it hj
    simp at hj
  | cons x r ih =>
    intro b h j it hj
    cases h with
    | cons hxy hr =>
      cases j with
      | zero =>
        simp only [List.getElem?_cons_zero, Option.some.injEq] at hj
        subst hj
        exact ⟨_, by simp, hxy⟩
      | succ jj =>
        simp only [List.getElem?_cons_succ] at hj
        obtain ⟨it', hb, hrel⟩ := ih _ hr jj it hj
        exact ⟨it', by simpa using hb, hrel⟩

/-- C6 (amended): an ignored type name never enters the changed-types set
of a pass, and an item with an ignored name keeps its name and its generic
parameters (no lifetime parameter is ever added to it) across the whole
`transform_ast` run.  The defining counterexample shows that the usage
sites inside an ignored item ARE still rewritten. -/
theorem claim_C6 (ign : List String) (items : List Item) (n : String)
    (hn : ign.contains n = true) :
    ((phase1 ign items []).2.1).contains n = false
    ∧ ∀ (j : Nat) (it : Item), items[j]? = some it → it.ident = n →
        ∃ it', (transform_ast ign items)[j]? = some it'
          ∧ it'.ident = it.ident ∧ it'.generics = it.generics := by
  constructor
  · cases hc : ((phase1 ign items []).2.1).contains n with
    | false => rfl
    | true =>
      exfalso
      rcases phase1_ch_mem ign items [] n hc with h | ⟨it, _, hx, hig⟩
      · simp at h
      · rw [hx] at hn
        rw [hn] at hig
        simp at hig
  · intro j it hj hid
    obtain ⟨it', hb, hrel⟩ := forallRel_get ign items _ (transform_ast_rel ign items) j it hj
    exact ⟨it', hb, hrel.1, hrel.2.2.2 (by rw [hid]; exact hn)⟩

theorem claim_C6_witness :
    ((phase1 ["E"] [cexStringStruct, cexWrapperStruct] []).2.1).contains "E" = false
    ∧ ∀ (j : Nat) (it : Item),
        [cexStringStruct, cexWrapperStruct][j]? = some it → it.ident = "E" →
        ∃ it', (transform_ast ["E"] [cexStringStruct, cexWrapperStruct])[j]? = some it'
          ∧ it'.ident = it.ident ∧ it'.generics = it.generics :=
  claim_C6 ["E"] [cexStringStruct, cexWrapperStruct] "E" (by decide)

/-- C6 counterexample to the never-rewritten part: with `E` excluded, the
run never records `E` and never gives it a lifetime parameter, but the
usage site inside `E` is still rewritten — its field type changes from the
bare path `T` to the filled path `T` applied to the view lifetime. -/
theorem claim_C6_counterexample :
    cexWrapperStruct
        = .istruct ⟨"E", [derAttrD], [], .named [⟨[], .path [.mk "T" .noArgs]⟩]⟩
    ∧ (transform_ast ["E"] [cexStringStruct, cexWrapperStruct])[1]?
        = some (.istruct ⟨"E", [derAttrD], [],
            .named [⟨[], .path [.mk "T" (.angle [.lt])]⟩]⟩)
    ∧ (Ty.path [.mk "T" (.angle [.lt])]) ≠ .path [.mk "T" .noArgs] := by
  refine ⟨rfl, rfl, ?_⟩
  intro h
  simp at h

/-- C7 (amended): at the fixpoint of `transform_ast`, the requirement set
is closed under lifetime-carrying references for eligible definitions.
For structs this holds starting from an input satisfying the borrow
invariant (in particular any input with no borrow attributes, such as the
plain generated schema): every eligible struct of the output that has a
non-reference, non-Map field whose type carries a lifetime — as any
rewritten reference to a member of the requirement set does — itself has
the lifetime parameter and belongs to `collect_lifetime_types` of the
output.  For enums the closure holds unconditionally: every eligible enum
of the output with a non-reference variant field whose type carries a
lifetime has a lifetime parameter and belongs to `collect_lifetime_types`
of the output.  The counterexample shows the unrestricted closure of the
spec fails for ineligible types. -/
theorem claim_C7 :
    (∀ (ign : List String) (a : List Item), BorrowInv ign a →
      ∀ sd : StructData, Item.istruct sd ∈ transform_ast ign a →
        ¬ ign.contains sd.ident = true ∧ derives_deserialize sd.attrs = true →
        ∀ g ∈ sd.fields.list, isMapPath g.ty = false →
          is_reference_type g.ty = false → type_contains_lifetime g.ty = true →
          hasLifeA sd.generics = true
          ∧ sd.ident ∈ collect_lifetime_types (transform_ast ign a))
    ∧ (∀ (ign : List String) (a : List Item) (ed : EnumData),
        Item.ienum ed ∈ transform_ast ign a →
        ¬ (¬ derives_deserialize ed.attrs = true ∨ ign.contains ed.ident = true) →
        ∀ g ∈ ((ed.variants.map (fun v => v.fields.list)).flatten),
          is_reference_type g.ty = false → type_contains_lifetime g.ty = true →
          hasAnyLife ed.generics = true
          ∧ ed.ident ∈ collect_lifetime_types (transform_ast ign a)) := by
  constructor
  · intro ign a hinv sd hmem he g hg hmap href hlt
    obtain ⟨x, hx⟩ := transform_ast_fix ign a
    have hfld := fixpoint_struct_fields ign x _ hx sd hmem he
    obtain ⟨f, hfeq⟩ := hfld g hg
    have hmapf : isMapPath f.ty = false := by
      rw [hfeq, transform_field_mapPath] at hmap
      exact hmap
    have hb : attrsHaveBorrow g.attrs = true := by
      rw [hfeq]
      exact transform_field_ensures f hmapf
        (by rw [← hfeq]; exact href) (by rw [← hfeq]; exact hlt)
    have hbinv := transform_ast_binv ign a hinv
    have helig : (Item.istruct sd).eligible ign = true := by
      simp only [Item.eligible, Bool.and_eq_true, Bool.not_eq_true']
      exact ⟨by cases hcont : ign.contains sd.ident with
        | false => rfl
        | true => exact absurd hcont he.1, he.2⟩
    have hlife : (Item.istruct sd).hasParam = true :=
      hbinv (Item.istruct sd) hmem helig g (by simpa [Item.fieldList] using hg) hb
    refine ⟨by simpa [Item.hasParam] using hlife, ?_⟩
    exact mem_collect _ _ hmem
      (hasAnyLife_of_hasLifeA _ (by simpa [Item.hasParam] using hlife))
  · intro ign a ed hmem he g hg href hlt
    obtain ⟨x, hx⟩ := transform_ast_fix ign a
    have hla := fixpoint_enum_marked ign x _ hx ed hmem he g hg href hlt
    exact ⟨hla, mem_collect _ _ hmem hla⟩

theorem claim_C7_witness :
    (hasLifeA
        (⟨"P", [derAttrD], [.life "a"],
          .named [⟨[.serdeBorrow], .path [.mk "U" (.angle [.lt])]⟩]⟩ : StructData).generics
        = true
    ∧ (⟨"P", [derAttrD], [.life "a"],
        .named [⟨[.serdeBorrow], .path [.mk "U" (.angle [.lt])]⟩]⟩ : StructData).ident
        ∈ collect_lifetime_types (transform_ast [] [cexUStruct, cexPStruct]))
    ∧ (hasAnyLife
        (⟨"Q", [derAttrD], [.life "a"],
          [⟨.named [⟨[.serdeBorrow], .path [.mk "U" (.angle [.lt])]⟩]⟩]⟩ : EnumData).generics
        = true
    ∧ (⟨"Q", [derAttrD], [.life "a"],
        [⟨.named [⟨[.serdeBorrow], .path [.mk "U" (.angle [.lt])]⟩]⟩]⟩ : EnumData).ident
        ∈ collect_lifetime_types (transform_ast [] [cexUStruct, cexQEnum])) :=
  ⟨claim_C7.1 [] [cexUStruct, cexPStruct] (by unfold BorrowInv; decide)
    ⟨"P", [derAttrD], [.life "a"], .named [⟨[.serdeBorrow], .path [.mk "U" (.angle [.lt])]⟩]⟩
    (by
      rw [show transform_ast [] [cexUStruct, cexPStruct]
        = [.istruct ⟨"U", [derAttrD], [.life "a"], .named [⟨[], refStr⟩]⟩,
           .istruct ⟨"P", [derAttrD], [.life "a"],
             .named [⟨[.serdeBorrow], .path [.mk "U" (.angle [.lt])]⟩]⟩] from rfl]
      exact List.mem_cons_of_mem _ (List.mem_cons_self _ _))
    (by decide)
    ⟨[.serdeBorrow], .path [.mk "U" (.angle [.lt])]⟩
    (List.mem_cons_self _ _)
    (by decide) (by decide) (by decide),
   claim_C7.2 [] [cexUStruct, cexQEnum]
    ⟨"Q", [derAttrD], [.life "a"],
      [⟨.named [⟨[.serdeBorrow], .path [.mk "U" (.angle [.lt])]⟩]⟩]⟩
    (by
      rw [show transform_ast [] [cexUStruct, cexQEnum]
        = [.istruct ⟨"U", [derAttrD], [.life "a"], .named [⟨[], refStr⟩]⟩,
           .ienum ⟨"Q", [derAttrD], [.life "a"],
             [⟨.named [⟨[.serdeBorrow], .path [.mk "U" (.angle [.lt])]⟩]⟩]⟩] from rfl]
      exact List.mem_cons_of_mem _ (List.mem_cons_self _ _))
    (by decide)
    ⟨[.serdeBorrow], .path [.mk "U" (.angle [.lt])]⟩
    (by exact List.mem_cons_self _ _)
    (by decide) (by decide)⟩

/-- C7 counterexample to the unrestricted closure: `T` (declared without a
Deserialize derive) has a non-view field referencing `U`, `U` is in the
requirement set at fixpoint, yet `T` is not. -/
theorem claim_C7_counterexample :
    collect_lifetime_types (transform_ast [] [cexNoDeriveStruct, cexUStruct]) = ["U"]
    ∧ (transform_ast [] [cexNoDeriveStruct, cexUStruct])[0]?
        = some (.istruct ⟨"T", [.derive ["Debug"]], [],
            .named [⟨[], .path [.mk "U" (.angle [.lt])]⟩]⟩)
    ∧ type_uses_changed_type ["U"] (.path [.mk "U" (.angle [.lt])]) = true
    ∧ is_reference_type (.path [.mk "U" (.angle [.lt])]) = false
    ∧ "T" ∉ collect_lifetime_types (transform_ast [] [cexNoDeriveStruct, cexUStruct]) := by
  refine ⟨rfl, rfl, rfl, rfl, ?_⟩
  intro h
  rw [show collect_lifetime_types (transform_ast [] [cexNoDeriveStruct, cexUStruct])
    = ["U"] from rfl] at h
  simp at h

/-- C8: the whole transformation is idempotent — `transform_ast` applied to
its own output changes nothing — and the usage-site completion pass
(`lusagePass`, the LifetimeUsageTransformer) applied to its own output
reports no modification and returns it unchanged. -/
theorem claim_C8 (ign : List String) (a : List Item) :
    transform_ast ign (transform_ast ign a) = transform_ast ign a
    ∧ ∀ (set : List String) (items : List Item),
        lusagePass set ((lusagePass set items).1) = ((lusagePass set items).1, false) :=
  ⟨transform_ast_idem ign a, fun set items => lusage_idem set items⟩

/-- C9 (amended): the propagation loop always terminates: for every input
it reaches a pass that reports no modification within `fileMeasure`
iterations (a bound counting missing lifetime parameters and rewritable
type nodes, not the number of type definitions), and the requirement set
is non-decreasing across a pass.  The counterexample shows the |types|
iteration bound of the spec fails. -/
theorem claim_C9 (ign : List String) (a : List Item) :
    (∃ k, k ≤ fileMeasure a ∧ (passOnce ign (iterPass ign k a)).2 = false)
    ∧ ∀ n ∈ collect_lifetime_types a, n ∈ collect_lifetime_types ((passOnce ign a).1) :=
  ⟨passOnce_fix ign (fileMeasure a) a (Nat.le_refl _),
   collect_sub_of_rel ign a _ (passOnce_rel ign a)⟩

/-- C9 counterexample to the |types| bound: a single self-referential
struct with a foreign lifetime parameter needs more than numTypes = 1
modifying passes — after one full iteration the next pass still reports a
modification. -/
theorem claim_C9_counterexample :
    numTypes [cexSelfRef] = 1
    ∧ (passOnce [] (iterPass [] 1 [cexSelfRef])).2 = true := by
  exact ⟨rfl, rfl⟩

/-- C10: the ToolQuery derive macro erases optionality in the generated
schema: the type string computed for an Option-wrapped type equals the type
string of the wrapped type itself, so the schema entry of an optional field
coincides with that of the corresponding required field. -/
theorem claim_C10 (t : Ty) :
    get_type_string (optionOf t) = get_type_string t
    ∧ ∀ (name docs : String),
        schemaEntry ⟨name, optionOf t, docs⟩ = schemaEntry ⟨name, t, docs⟩ := by
  have h : get_type_string (optionOf t) = get_type_string t := by
    simp only [optionOf, get_type_string, gtsSegs, gtsSeg, gtsOption]
    norm_num
    rw [if_neg (by decide), if_neg (by decide), if_neg (by decide), if_neg (by decide)]
  exact ⟨h, fun name docs => by simp [schemaEntry, h]⟩
